import Mathlib

/-!
# A verification development for the `torrent` download client

Shallow embedding of the Go packages `messages`, `metadata`, `bitfield`, `peer`,
`tracker` and `torrent`.

Conventions of the embedding.

* A Go `byte` is a natural number (a real byte is below 256); a `[]byte` is a
  list of them.  A nil slice and an empty slice are both the empty list.
* A Go `uint32` is a natural number below `2 ^ 32`; every `uint32` operation of
  the source is followed by an explicit reduction modulo `2 ^ 32` (`u32`).
* A Go `int` or `int64` is 64 bits wide and is embedded as an integer.  The
  arithmetic of `calcPieceBoundaries`, `Piece`, `WritePiece` and
  `PieceDownloaded`, which a descriptor can drive out of the range of 64 bits,
  is followed by an explicit wrap into that range (`i64`); the counters of
  blocks, requests and updates and the lengths of data held in memory stay
  inside the range and are exact.  Conversions `uint32(x)` of an `int` reduce
  modulo `2 ^ 32`.
* A function that mutates its receiver returns the new receiver together with
  the returned error (`none` is the nil error).
* A run-time panic of the source (index out of range, slice bounds, nil
  dereference) is the `Except.error` branch, carrying a `Panic`.
* In the speed tracker a time is a rational number of seconds, passed to the
  update as an argument; the update only compares an elapsed time with zero and
  stores it.  The floating-point average of `DownloadingSpeed` is not embedded.
-/

namespace Torrent

/-! ## Part 1: definitions -/

/-- A Go byte. -/
abbrev Byte := Nat

/-- Reduction of a natural number to the range of `uint32`. -/
def u32 (n : Nat) : Nat := n % 4294967296

/-- Reduction of an integer to the range of a Go `int` (64 bits, two's
complement): the value an `int` operation of the source leaves. -/
def i64 (x : Int) : Int :=
  (x + 9223372036854775808) % 18446744073709551616 - 9223372036854775808

/-- Ways in which a call ends without returning: the run-time panics of Go that
the source can raise, `logFatal` for a call of `log.Fatal`, and `fuel`, which is
not an event of the source: the embedding of a loop ran out of steps (for the
loop of `GenerateTorrent` with a piece length of zero, which never ends in the
source, this is the only outcome of the embedding). -/
inductive Panic where
  | indexOutOfRange
  | sliceBounds
  | nilDereference
  | negativeLen
  | negativeShift
  | divideByZero
  | closeOfClosedChannel
  | logFatal
  | fuel
  deriving DecidableEq, Repr

/-- Error values of the program.  `network` and `downloading` are the sentinels
`errNetwork` and `errDownloading`; `wrap` is `fmt.Errorf` with a `%w` verb; `io`
is an error value produced by a connection or a file; `bencode` is an error
value produced by the bencode library. -/
inductive Error where
  | network
  | downloading
  | anotherPiece
  | maxLengthExceeded
  | rewriteBlock
  | notAMessage
  | cantConvertRequest
  | cantConvertPiece
  | cantConvertBitfield
  | handshakeFormat
  | infoHashesDifferent
  | messageTooLong
  | malformedPeers
  | bencode
  | io
  | wrap (inner : Error)
  deriving DecidableEq, Repr

/-- The function `errors.Is`: the target is found along the chain of wrapped errors. -/
def Error.Is : Error → Error → Bool
  | .wrap inner, target => decide (Error.wrap inner = target) || Error.Is inner target
  | e, target => decide (e = target)

/-- The constant `BlockSize` of `torrent.go`. -/
def BlockSize : Nat := 16384

/-- The builtin `copy(dst[off:], src)` of Go, given that `off ≤ len(dst)`: the
first `min (len dst - off) (len src)` elements of `src` overwrite `dst` from
position `off`; the length of `dst` does not change. -/
def copyAt (dst : List Byte) (off : Nat) (src : List Byte) : List Byte :=
  dst.take off ++ src.take (dst.length - off) ++ dst.drop (off + src.length)

/-! ### Package `messages` -/

/-- The struct `messages.Message`. -/
structure Message where
  ID : Nat
  Payload : List Byte
  deriving DecidableEq, Repr

/-- The struct `messages.PieceMessage`. -/
structure PieceMessage where
  PieceID : Nat
  BlockOffset : Nat
  Data : List Byte
  deriving DecidableEq, Repr

/-- The struct `messages.RequestMessage`. -/
structure RequestMessage where
  PieceID : Nat
  BlockOffset : Nat
  BlockLength : Nat
  deriving DecidableEq, Repr

/-- The message identifiers `MsgChoke` .. `MsgCancel`. -/
def MsgChoke : Nat := 0
def MsgUnchoke : Nat := 1
def MsgInterested : Nat := 2
def MsgNotInterested : Nat := 3
def MsgHave : Nat := 4
def MsgBitfield : Nat := 5
def MsgRequest : Nat := 6
def MsgPiece : Nat := 7
def MsgCancel : Nat := 8

/-- The library function `binary.BigEndian.PutUint32`: the four bytes of a
`uint32`, most significant first. -/
def putUint32 (v : Nat) : List Byte :=
  [v / 16777216 % 256, v / 65536 % 256, v / 256 % 256, v % 256]

/-- The library function `binary.BigEndian.Uint32` on a slice of at least four
bytes: the value of the first four bytes, most significant first. -/
def uint32BE (b : List Byte) : Nat :=
  b.getD 0 0 * 16777216 + b.getD 1 0 * 65536 + b.getD 2 0 * 256 + b.getD 3 0

/-- The method `(*Message).Serialize`; `none` is the nil message.  The slice
expression `buf[0:4]` and the assignment `buf[4] = ...` panic on a buffer that
is too short. -/
def Message.Serialize : Option Message → Except Panic (List Byte)
  | none => .ok (List.replicate 4 0)
  | some msg =>
    let length := u32 (msg.Payload.length + 1)
    let buf : List Byte := List.replicate (u32 (length + 4)) 0
    if buf.length < 4 then .error .sliceBounds
    else
      let buf := putUint32 length ++ buf.drop 4
      if buf.length ≤ 4 then .error .indexOutOfRange
      else
        let buf := buf.set 4 msg.ID
        .ok (copyAt buf 5 msg.Payload)

/-- The method `(*RequestMessage).ToMessage`. -/
def RequestMessage.ToMessage (rMsg : RequestMessage) : Message :=
  { ID := MsgRequest
    Payload := putUint32 rMsg.PieceID ++ putUint32 rMsg.BlockOffset ++
      putUint32 rMsg.BlockLength }

/-- The method `(*PieceMessage).ToMessage`. -/
def PieceMessage.ToMessage (pMsg : PieceMessage) : Message :=
  { ID := MsgPiece
    Payload := putUint32 pMsg.PieceID ++ putUint32 pMsg.BlockOffset ++ pMsg.Data }

/-- The function `ParseMessage`: the returned message (`none` is nil) and the
returned error. -/
def ParseMessage (buf : List Byte) : Option Message × Option Error :=
  if buf.length = 0 then (none, none)
  else if buf.length < 1 then (none, some .notAMessage)
  else
    let msg : Message := { ID := buf.headD 0, Payload := [] }
    if msg.ID > 8 then (none, some .notAMessage)
    else
      let msg : Message := if buf.length > 1 then { msg with Payload := buf.drop 1 } else msg
      (some msg, none)

/-- The function `ToRequestMessage`. -/
def ToRequestMessage (msg : Option Message) : Option RequestMessage × Option Error :=
  match msg with
  | none => (none, some .cantConvertRequest)
  | some msg =>
    if msg.ID ≠ MsgRequest ∨ msg.Payload.length ≠ 12 then (none, some .cantConvertRequest)
    else
      (some { PieceID := uint32BE (msg.Payload.take 4)
              BlockOffset := uint32BE ((msg.Payload.drop 4).take 4)
              BlockLength := uint32BE ((msg.Payload.drop 8).take 4) }, none)

/-- The function `ToPieceMessage`. -/
def ToPieceMessage (msg : Option Message) : Option PieceMessage × Option Error :=
  match msg with
  | none => (none, some .cantConvertPiece)
  | some msg =>
    if msg.ID ≠ MsgPiece ∨ msg.Payload.length < 9 then (none, some .cantConvertPiece)
    else
      (some { PieceID := uint32BE (msg.Payload.take 4)
              BlockOffset := uint32BE ((msg.Payload.drop 4).take 4)
              Data := msg.Payload.drop 8 }, none)

/-- The function `ToBitfieldMessage` followed by `BitfieldMessage.Bitfield`:
the payload of a Bitfield message. -/
def ToBitfieldMessage (msg : Option Message) : Option (List Byte) × Option Error :=
  match msg with
  | none => (none, some .cantConvertBitfield)
  | some msg =>
    if msg.ID ≠ MsgBitfield then (none, some .cantConvertBitfield)
    else (some msg.Payload, none)

/-- The function `NewRequestMessage`. -/
def NewRequestMessage (pieceID blockOffset blockLength : Nat) : RequestMessage :=
  { PieceID := pieceID, BlockOffset := blockOffset, BlockLength := blockLength }

/-- The struct `messages.Handshake`; the two arrays `[20]byte` are lists. -/
structure Handshake where
  Pstr : List Byte
  InfoHash : List Byte
  PeerID : List Byte
  deriving DecidableEq, Repr

/-- The bytes of the string literal "BitTorrent protocol". -/
def protocolString : List Byte :=
  [66, 105, 116, 84, 111, 114, 114, 101, 110, 116, 32, 112, 114, 111, 116, 111, 99, 111, 108]

/-- The function `NewHandshake`. -/
def NewHandshake (infoHash peerID : List Byte) : Handshake :=
  { Pstr := protocolString, InfoHash := infoHash, PeerID := peerID }

/-- The number of elements the builtin `copy(dst[off:], src)` copies. -/
def copyCount (dst : List Byte) (off : Nat) (src : List Byte) : Nat :=
  min (dst.length - off) src.length

/-- The method `(*Handshake).Serialize`.  The cursor `curr` never exceeds the
length of the buffer, so no slice expression can fault. -/
def Handshake.Serialize (h : Handshake) : List Byte :=
  let hBytes : List Byte := List.replicate 68 0
  let hBytes := hBytes.set 0 (h.Pstr.length % 256)
  let curr := 1
  let n := copyCount hBytes curr h.Pstr
  let hBytes := copyAt hBytes curr h.Pstr
  let curr := curr + n
  let n := copyCount hBytes curr [0, 0, 0, 0, 0, 0, 0, 0]
  let hBytes := copyAt hBytes curr [0, 0, 0, 0, 0, 0, 0, 0]
  let curr := curr + n
  let n := copyCount hBytes curr h.InfoHash
  let hBytes := copyAt hBytes curr h.InfoHash
  let curr := curr + n
  copyAt hBytes curr h.PeerID

/-- The library function `io.ReadFull` on a stream that delivers the bytes `r`
and then ends: the `n` bytes read (or `none` when fewer are left, which is the
error case) and the rest of the stream. -/
def readFull (r : List Byte) (n : Nat) : Option (List Byte) × List Byte :=
  if n ≤ r.length then (some (r.take n), r.drop n) else (none, [])

/-- The function `ReadHandshake`: the handshake as far as it was filled in, the
returned error, and the rest of the stream. -/
def ReadHandshake (r : List Byte) : Handshake × Option Error × List Byte :=
  let h : Handshake :=
    { Pstr := [], InfoHash := List.replicate 20 0, PeerID := List.replicate 20 0 }
  match readFull r 68 with
  | (none, rest) => (h, some .io, rest)
  | (some hBytes, rest) =>
    if hBytes.headD 0 ≠ 19 then (h, some .handshakeFormat, rest)
    else
      let h := { h with Pstr := (hBytes.drop 1).take 19 }
      if h.Pstr ≠ protocolString then (h, some .handshakeFormat, rest)
      else
        let h := { h with InfoHash := copyAt h.InfoHash 0 ((hBytes.drop 28).take 20) }
        let h := { h with PeerID := copyAt h.PeerID 0 ((hBytes.drop 48).take 20) }
        (h, none, rest)

/-! ### Package `metadata` -/

/-- The struct `metadata.TorrentMetadata`. -/
structure TorrentMetadata where
  Announce : String
  InfoHash : List Byte
  PieceHashes : List (List Byte)
  PieceLength : Int
  Length : Int
  Name : String
  deriving DecidableEq, Repr

/-- The struct `metadata.bencodeInfo`; the string `Pieces` is its bytes. -/
structure bencodeInfo where
  Pieces : List Byte
  PieceLength : Int
  Length : Int
  Name : String
  deriving DecidableEq, Repr

/-- The struct `metadata.bencodeTorrent`. -/
structure bencodeTorrent where
  Announce : String
  Info : bencodeInfo
  deriving DecidableEq, Repr

/-- The loop of `toTorrentFile` over the pieces string: `io.ReadFull` fills the
20 bytes of `pieceHash`; on an error the loop ends, otherwise the hash is
appended.  Every iteration but the last consumes 20 bytes, so a fuel above the
length of the string is never used up (`pieceHashesLoop_chunks`). -/
def pieceHashesLoop : Nat → List Byte → List (List Byte) → List (List Byte)
  | 0, _, pieceHashes => pieceHashes
  | fuel + 1, reader, pieceHashes =>
    match readFull reader 20 with
    | (none, _) => pieceHashes
    | (some pieceHash, rest) => pieceHashesLoop fuel rest (pieceHashes ++ [pieceHash])

/-- The method `(*bencodeTorrent).toTorrentFile`.  The parameter `marshal` is
the library function `bencode.Marshal` on the info dictionary (`none` when it
returns an error); `sha1` is the SHA-1 function, whose value has 20 bytes, so
that the conversion to `[20]byte` keeps it as it is. -/
def bencodeTorrent.toTorrentFile (sha1 : List Byte → List Byte)
    (marshal : bencodeInfo → Option (List Byte)) (bt : bencodeTorrent) :
    TorrentMetadata × Option Error :=
  let t : TorrentMetadata :=
    { Announce := bt.Announce
      InfoHash := List.replicate 20 0
      PieceHashes := []
      PieceLength := bt.Info.PieceLength
      Length := bt.Info.Length
      Name := bt.Info.Name }
  match marshal bt.Info with
  | none => (t, some .bencode)
  | some info =>
    let t := { t with InfoHash := sha1 info }
    let reader := bt.Info.Pieces
    let t := { t with PieceHashes := pieceHashesLoop (reader.length + 1) reader t.PieceHashes }
    (t, none)

/-- The library function `io.ReadFull` with a buffer of `n` bytes on a stream
that delivers the bytes `r` and then ends, keeping the bytes of a short read:
the bytes read (their number is the returned `n`), whether an error is
returned (fewer than `n` bytes were left), and the rest of the stream. -/
def readFullPartial (r : List Byte) (n : Nat) : List Byte × Bool × List Byte :=
  (r.take n, decide (r.length < n), r.drop n)

/-- The loop of `GenerateTorrent` for a piece length that is not negative: the
bytes of `pieceHashes` and the value of `length` when the loop breaks.  With a
piece length of zero the loop of the source never ends (`io.ReadFull` reads
nothing and returns no error); the embedding then uses up its fuel. -/
def generateLoop (sha1 : List Byte → List Byte) (pieceLength : Nat) :
    Nat → List Byte → List Byte → Int → Except Panic (List Byte × Int)
  | 0, _, _, _ => .error .fuel
  | fuel + 1, source, pieceHashes, length =>
    match readFullPartial source pieceLength with
    | (piece, err, rest) =>
      let n := piece.length
      let length := if n > 0 then length + (n : Int) else length
      let pieceHashes := if n > 0 then pieceHashes ++ sha1 piece else pieceHashes
      if err then .ok (pieceHashes, length)
      else generateLoop sha1 pieceLength fuel rest pieceHashes length

/-- The function `GenerateTorrent` on a source that delivers the bytes `source`
and then ends.  `make([]byte, pieceLength)` faults on a negative length. -/
def GenerateTorrent (sha1 : List Byte → List Byte)
    (marshal : bencodeInfo → Option (List Byte))
    (source : List Byte) (announce name : String) (pieceLength : Int) :
    Except Panic (TorrentMetadata × Option Error) :=
  let bi : bencodeInfo := { Pieces := [], PieceLength := pieceLength, Length := 0, Name := name }
  let bt : bencodeTorrent := { Announce := announce, Info := bi }
  if pieceLength < 0 then .error .negativeLen
  else
    match generateLoop sha1 pieceLength.toNat (source.length + 1) source [] 0 with
    | .error f => .error f
    | .ok (pieceHashes, length) =>
      let bt := { bt with Info := { bt.Info with Length := length } }
      let bt := { bt with Info := { bt.Info with Pieces := pieceHashes } }
      .ok (bt.toTorrentFile sha1 marshal)

/-! ### Package `peer` -/

/-- A connection `net.Conn` as the program sees it: the bytes the remote end
still delivers before the stream ends, the bytes written so far, and the
outcomes of the coming `Write` and `SetDeadline` calls (`true` is a failure; a
call beyond the end of the list succeeds). -/
structure Conn where
  input : List Byte
  output : List Byte
  writeErrs : List Bool
  deadlineErrs : List Bool
  deriving DecidableEq, Repr

/-- A fresh connection that delivers the bytes `bs` and on which every `Write`
and `SetDeadline` succeeds. -/
def Conn.ofInput (bs : List Byte) : Conn :=
  { input := bs, output := [], writeErrs := [], deadlineErrs := [] }

/-- The method `Write` of a connection. -/
def Conn.Write (c : Conn) (b : List Byte) : Conn × Option Error :=
  match c.writeErrs with
  | true :: rest => ({ c with writeErrs := rest }, some .io)
  | false :: rest => ({ c with output := c.output ++ b, writeErrs := rest }, none)
  | [] => ({ c with output := c.output ++ b }, none)

/-- The method `SetDeadline` of a connection. -/
def Conn.SetDeadline (c : Conn) : Conn × Option Error :=
  match c.deadlineErrs with
  | true :: rest => ({ c with deadlineErrs := rest }, some .io)
  | false :: rest => ({ c with deadlineErrs := rest }, none)
  | [] => (c, none)

/-- The function `io.ReadFull` applied to a connection. -/
def Conn.ReadFull (c : Conn) (n : Nat) : Conn × Option (List Byte) :=
  ({ c with input := (readFull c.input n).2 }, (readFull c.input n).1)

/-- The function `HandshakePeer`: the connection afterwards and the returned
error. -/
def HandshakePeer (peer : Conn) (tmeta : TorrentMetadata) (peerID : List Byte) :
    Conn × Option Error :=
  let hshake := NewHandshake tmeta.InfoHash peerID
  match peer.Write hshake.Serialize with
  | (peer, some err) => (peer, some err)
  | (peer, none) =>
    match ReadHandshake peer.input with
    | (_, some err, rest) => ({ peer with input := rest }, some err)
    | (respHshake, none, rest) =>
      if hshake.InfoHash ≠ respHshake.InfoHash then
        ({ peer with input := rest }, some .infoHashesDifferent)
      else ({ peer with input := rest }, none)

/-- The constant `maxMsgLen` of `ReceiveMessage`. -/
def maxMsgLen : Nat := 20000

/-- The function `ReceiveMessage`: the connection afterwards, the returned
message (`none` is nil) and the returned error. -/
def ReceiveMessage (peer : Conn) : Conn × Option Message × Option Error :=
  match peer.ReadFull 4 with
  | (peer, none) => (peer, none, some .io)
  | (peer, some msgLenBuf) =>
    let msgLen := uint32BE msgLenBuf
    if msgLen > maxMsgLen then (peer, none, some .messageTooLong)
    else
      match peer.ReadFull msgLen with
      | (peer, none) => (peer, none, some .io)
      | (peer, some msgBuf) =>
        match ParseMessage msgBuf with
        | (_, some err) => (peer, none, some err)
        | (msg, none) => (peer, msg, none)

/-! ### Package `torrent`: the piece assembler -/

/-- The struct `torrent.Piece`. -/
structure Piece where
  ID : Nat
  Data : List Byte
  deriving DecidableEq, Repr

/-- The struct `torrent.pieceDownloadingInfo`. -/
structure pieceDownloadingInfo where
  ID : Nat
  Hash : List Byte
  Blocks : List Bool
  Data : List Byte
  maxPieceLen : Nat
  pieceLen : Nat
  blocksCount : Nat
  downloaded : Int
  requested : Int
  deriving DecidableEq, Repr

/-- The constructor `NewPieceDownloadInfo(id, maxPieceLen)`. -/
def NewPieceDownloadInfo (id maxPieceLen : Nat) : pieceDownloadingInfo :=
  { ID := id
    Hash := []
    Blocks := List.replicate (maxPieceLen / BlockSize) false
    Data := List.replicate maxPieceLen 0
    maxPieceLen := maxPieceLen
    pieceLen := 0
    blocksCount := 0
    downloaded := 0
    requested := 0 }

/-- The method `(*pieceDownloadingInfo).AddBlock`.  The result is the receiver
after the call and the returned error; indexing `p.Blocks[blockID]` out of range
and slicing `p.Data[pmsg.BlockOffset:]` out of range are panics. -/
def pieceDownloadingInfo.AddBlock (p : pieceDownloadingInfo) (pmsg : PieceMessage) :
    Except Panic (pieceDownloadingInfo × Option Error) :=
  if pmsg.PieceID ≠ p.ID then
    .ok (p, some .anotherPiece)
  else if u32 p.Data.length < u32 (pmsg.BlockOffset + u32 pmsg.Data.length) then
    .ok (p, some .maxLengthExceeded)
  else
    let blockID := pmsg.BlockOffset / BlockSize
    match p.Blocks[blockID]? with
    | none => .error .indexOutOfRange
    | some true => .ok (p, some .rewriteBlock)
    | some false =>
      if p.Data.length < pmsg.BlockOffset then
        .error .sliceBounds
      else
        .ok ({ p with
                Data := copyAt p.Data pmsg.BlockOffset pmsg.Data
                pieceLen := u32 (p.pieceLen + u32 pmsg.Data.length)
                blocksCount := u32 (p.blocksCount + 1)
                Blocks := p.Blocks.set blockID true }, none)

/-- The method `(*pieceDownloadingInfo).Completed`. -/
def pieceDownloadingInfo.Completed (p : pieceDownloadingInfo) : Bool :=
  decide (p.blocksCount = p.maxPieceLen / BlockSize)

/-- The method `(*pieceDownloadingInfo).Piece`: slicing `p.Data[:p.pieceLen]`
beyond the buffer is a panic. -/
def pieceDownloadingInfo.Piece (p : pieceDownloadingInfo) : Except Panic Piece :=
  if p.Data.length < p.pieceLen then .error .sliceBounds
  else .ok { ID := p.ID, Data := p.Data.take p.pieceLen }

/-- States of a piece-in-progress reached from `p` by a sequence of `AddBlock`
calls that return (with or without an error). -/
inductive ReachableFrom (p : pieceDownloadingInfo) : pieceDownloadingInfo → Prop where
  | start : ReachableFrom p p
  | call (q r : pieceDownloadingInfo) (m : PieceMessage) (e : Option Error) :
      ReachableFrom p q → q.AddBlock m = .ok (r, e) → ReachableFrom p r

/-! ### Package `bitfield` -/

/-- The type `bitfield.Bitfield`. -/
abbrev Bitfield := List Byte

/-- The method `Bitfield.HavePiece`; the operators `/` and `%` of Go truncate
toward zero, so the shift count `7 - offset` is never negative. -/
def Bitfield.HavePiece (bf : Bitfield) (pieceIdx : Int) : Bool :=
  let byteIdx := Int.tdiv pieceIdx 8
  let offset := Int.tmod pieceIdx 8
  if byteIdx < 0 ∨ byteIdx ≥ bf.length then false
  else decide ((bf.getD byteIdx.toNat 0 >>> (7 - offset).toNat) &&& 1 ≠ 0)

/-- The method `Bitfield.HavePiece` with the run-time checks of Go written out:
indexing `bf[byteIdx]` out of range and a negative shift count are panics. -/
def Bitfield.HavePieceChecked (bf : Bitfield) (pieceIdx : Int) : Except Panic Bool :=
  let byteIdx := Int.tdiv pieceIdx 8
  let offset := Int.tmod pieceIdx 8
  if byteIdx < 0 ∨ byteIdx ≥ bf.length then .ok false
  else
    match bf[byteIdx.toNat]? with
    | none => .error .indexOutOfRange
    | some b =>
      if 7 - offset < 0 then .error .negativeShift
      else .ok (decide ((b >>> (7 - offset).toNat) &&& 1 ≠ 0))

/-! ### Package `peer`: the peer session -/

/-- The struct `peer.PeerAddr`. -/
structure PeerAddr where
  IP : List Byte
  Port : Nat
  deriving DecidableEq, Repr

/-- The struct `peer.Peer`. -/
structure Peer where
  Con : Conn
  Choking : Bool
  Bitfield : Bitfield
  Addr : PeerAddr
  deriving DecidableEq, Repr

/-- The method `(*Peer).SendMessage`. -/
def Peer.SendMessage (p : Peer) (m : Option Message) : Except Panic (Peer × Option Error) :=
  match Message.Serialize m with
  | .error f => .error f
  | .ok bytes =>
    match p.Con.Write bytes with
    | (c, err) => .ok ({ p with Con := c }, err)

/-- The method `(*Peer).ReceiveMessage`. -/
def Peer.ReceiveMessage (p : Peer) : Peer × Option Message × Option Error :=
  match Torrent.ReceiveMessage p.Con with
  | (c, msg, err) => ({ p with Con := c }, msg, err)

/-- The function `ReceiveBitfield`. -/
def ReceiveBitfield (peer : Conn) : Conn × Bitfield × Option Error :=
  match ReceiveMessage peer with
  | (c, _, some err) => (c, [], some err)
  | (c, msg, none) =>
    match ToBitfieldMessage msg with
    | (_, some err) => (c, [], some err)
    | (none, none) => (c, [], none)
    | (some bf, none) => (c, bf, none)

/-- The function `Connect`, from the result of `net.DialTimeout` on (`none` when
the dial failed).  The deferred function clears the deadline when no error
occurred and its error becomes the returned error. -/
def Connect (dial : Option Conn) (addr : PeerAddr) (tmeta : TorrentMetadata)
    (peerID : List Byte) : Option Peer × Option Error :=
  match dial with
  | none => (none, some .io)
  | some peer =>
    match peer.SetDeadline with
    | (_, some err) => (none, some err)
    | (peer, none) =>
      match HandshakePeer peer tmeta peerID with
      | (_, some err) => (none, some err)
      | (peer, none) =>
        match ReceiveBitfield peer with
        | (_, _, some err) => (none, some err)
        | (peer, bitfield, none) =>
          match peer.SetDeadline with
          | (peer, err) =>
            (some { Con := peer, Choking := true, Bitfield := bitfield, Addr := addr }, err)

/-! ### Package `tracker` -/

/-- The library function `binary.BigEndian.Uint16` on a slice of two bytes. -/
def uint16BE (b : List Byte) : Nat := b.getD 0 0 * 256 + b.getD 1 0

/-- The struct `tracker.trackerResponse`; the string `Peers` is its bytes. -/
structure trackerResponse where
  Interval : Int
  Peers : List Byte
  deriving DecidableEq, Repr

/-- The method `(*trackerResponse).parsePeers`. -/
def trackerResponse.parsePeers (tr : trackerResponse) : List PeerAddr × Option Error :=
  let peersBin := tr.Peers
  let peerSize := 6
  if peersBin.length % peerSize ≠ 0 then ([], some .malformedPeers)
  else
    let numPeers := peersBin.length / peerSize
    let peers : List PeerAddr := List.replicate numPeers { IP := [], Port := 0 }
    ((List.range numPeers).foldl
      (fun peers i =>
        let offset := i * peerSize
        peers.set i { IP := (peersBin.drop offset).take 4
                      Port := uint16BE ((peersBin.drop (offset + 4)).take 2) })
      peers, none)

/-! ### Package `torrent`: the peer worker -/

/-- The variable `PeerID`: the bytes of "-xx2940-k8xj0xgex6xx". -/
def PeerID : List Byte :=
  [45, 120, 120, 50, 57, 52, 48, 45, 107, 56, 120, 106, 48, 120, 103, 101, 120, 54, 120, 120]

/-- The conversion `uint32(x)` of an `int`. -/
def u32OfInt (x : Int) : Nat := (x % 4294967296).toNat

/-- The local `maxBacklog` of `downloadPiece`. -/
def maxBacklog : Int := 5

/-- The variables of the loop of `downloadPiece`: the peer, the assembler (with
its counters `downloaded` and `requested`) and `backlog`. -/
structure LoopState where
  p : Peer
  pdInfo : pieceDownloadingInfo
  backlog : Int
  deriving DecidableEq, Repr

/-- How one iteration of the loop of `downloadPiece` ends: at the end of the
body or at `continue`, at a `return nil, err`, or in a panic. -/
inductive StepResult where
  | next (s : LoopState)
  | ret (s : LoopState) (err : Error)
  | panic (s : LoopState) (f : Panic)
  deriving DecidableEq, Repr

/-- The request that the loop of `downloadPiece` builds at the top of an
iteration, in 32-bit arithmetic. -/
def requestOf (pieceID : Nat) (tmeta : TorrentMetadata) (s : LoopState) : RequestMessage :=
  let pieceOffset := u32 (u32OfInt tmeta.PieceLength * pieceID)
  let blockOffset := u32OfInt (s.pdInfo.requested * BlockSize)
  let offset := u32 (pieceOffset + blockOffset)
  let blockLength :=
    if u32 (offset + BlockSize) > u32OfInt tmeta.Length then
      u32 (u32OfInt tmeta.Length + 4294967296 - offset)
    else BlockSize
  NewRequestMessage pieceID blockOffset blockLength

/-- One iteration of the loop of `downloadPiece`, entered with the loop
condition true. -/
def downloadPieceStep (pieceID : Nat) (tmeta : TorrentMetadata) (s : LoopState) : StepResult :=
  let blocksCount := u32OfInt tmeta.PieceLength / BlockSize
  match s.p.Con.SetDeadline with
  | (c, some _) => .ret { s with p := { s.p with Con := c } } (.wrap .network)
  | (c, none) =>
    let s := { s with p := { s.p with Con := c } }
    let rmsg := requestOf pieceID tmeta s
    if s.p.Choking = false ∧ s.backlog < maxBacklog ∧ s.pdInfo.requested < blocksCount then
      match s.p.SendMessage (some rmsg.ToMessage) with
      | .error f => .panic s f
      | .ok (p, some _) => .ret { s with p := p } (.wrap .network)
      | .ok (p, none) =>
        .next { p := p
                pdInfo := { s.pdInfo with requested := s.pdInfo.requested + 1 }
                backlog := s.backlog + 1 }
    else
      match s.p.ReceiveMessage with
      | (p, _, some _) => .ret { s with p := p } (.wrap .network)
      | (p, none, none) =>
        match p.SendMessage none with
        | .error f => .panic { s with p := p } f
        | .ok (p, some err) => .ret { s with p := p } (.wrap err)
        | .ok (p, none) => .panic { s with p := p } .nilDereference
      | (p, some msg, none) =>
        let s := { s with p := p }
        if msg.ID = MsgPiece then
          let s := { s with
                      backlog := s.backlog - 1
                      pdInfo := { s.pdInfo with downloaded := s.pdInfo.downloaded + 1 } }
          match ToPieceMessage (some msg) with
          | (_, some err) => .ret s (.wrap err)
          | (none, none) => .panic s .nilDereference
          | (some pmsg, none) =>
            match s.pdInfo.AddBlock pmsg with
            | .error f => .panic s f
            | .ok (pd, some err) => .ret { s with pdInfo := pd } (.wrap err)
            | .ok (pd, none) => .next { s with pdInfo := pd }
        else if msg.ID = MsgChoke then .next { s with p := { s.p with Choking := true } }
        else if msg.ID = MsgUnchoke then .next { s with p := { s.p with Choking := false } }
        else .next s

/-- The loop of `downloadPiece`, for at most `fuel` iterations: the state when
the loop condition fails (no error), or the state and the error of a
`return nil, err` in the body. -/
def downloadPieceLoop (pieceID : Nat) (tmeta : TorrentMetadata) :
    Nat → LoopState → Except Panic (LoopState × Option Error)
  | 0, _ => .error .fuel
  | fuel + 1, s =>
    if s.pdInfo.downloaded < ((u32OfInt tmeta.PieceLength / BlockSize : Nat) : Int) then
      match downloadPieceStep pieceID tmeta s with
      | .next s => downloadPieceLoop pieceID tmeta fuel s
      | .ret s err => .ok (s, some err)
      | .panic _ f => .error f
    else .ok (s, none)

/-- The function `downloadPiece`; `sha1` is the library function `sha1.Sum`.
Every iteration of the loop either emits one of the at most `blocksCount`
requests or consumes at least four bytes of the stream, which bounds the
iterations by the fuel given here. -/
def downloadPiece (sha1 : List Byte → List Byte) (pieceID : Nat) (p : Peer)
    (tmeta : TorrentMetadata) : Except Panic (Peer × Option Piece × Option Error) :=
  if Bitfield.HavePiece p.Bitfield pieceID = false then
    .ok (p, none, some (.wrap .downloading))
  else
    let pdInfo := NewPieceDownloadInfo pieceID (u32OfInt tmeta.PieceLength)
    let fuel := u32OfInt tmeta.PieceLength / BlockSize + p.Con.input.length + 1
    match downloadPieceLoop pieceID tmeta fuel { p := p, pdInfo := pdInfo, backlog := 0 } with
    | .error f => .error f
    | .ok (s, some err) => .ok (s.p, none, some err)
    | .ok (s, none) =>
      if s.pdInfo.Completed = false then .ok (s.p, none, some (.wrap .downloading))
      else
        match s.pdInfo.Piece with
        | .error f => .error f
        | .ok piece =>
          match tmeta.PieceHashes[pieceID]? with
          | none => .error .indexOutOfRange
          | some pieceHash =>
            if sha1 piece.Data ≠ pieceHash then .ok (s.p, none, some (.wrap .downloading))
            else .ok (s.p, some piece, none)

/-- What a worker does on its two channels: it sends a piece ID back on the work
queue, or it sends a piece pointer (`none` is nil) on the piece-result channel. -/
inductive WorkerEvent where
  | requeue (pieceID : Nat)
  | publish (piece : Option Piece)
  deriving DecidableEq, Repr

/-- The loop of `communicateWithPeer` over the piece IDs the worker draws from
the work queue, in the order it draws them: the events on the two channels. -/
def communicateWithPeerLoop (sha1 : List Byte → List Byte) (tm : TorrentMetadata) :
    List Nat → Peer → Except Panic (List WorkerEvent)
  | [], _ => .ok []
  | pieceID :: draws, p =>
    match downloadPiece sha1 pieceID p tm with
    | .error f => .error f
    | .ok (p, piece, some err) =>
      if err.Is .network then .ok [.requeue pieceID]
      else if err.Is .downloading then
        (communicateWithPeerLoop sha1 tm draws p).map (fun evs => .requeue pieceID :: evs)
      else
        (communicateWithPeerLoop sha1 tm draws p).map
          (fun evs => .requeue pieceID :: .publish piece :: evs)
    | .ok (p, piece, none) =>
      (communicateWithPeerLoop sha1 tm draws p).map (fun evs => .publish piece :: evs)

/-- The function `communicateWithPeer`, from the result of the dial and the
piece IDs the worker draws. -/
def communicateWithPeer (sha1 : List Byte → List Byte) (dial : Option Conn)
    (peerAddr : PeerAddr) (tm : TorrentMetadata) (draws : List Nat) :
    Except Panic (List WorkerEvent) :=
  match Connect dial peerAddr tm PeerID with
  | (_, some _) => .ok []
  | (none, none) => .error .nilDereference
  | (some p, none) => communicateWithPeerLoop sha1 tm draws p

/-! ### Package `torrent`: the writer -/

/-- The function `calcPieceBoundaries`; the product and the sum are operations on
`int` and wrap. -/
def calcPieceBoundaries (pieceID : Nat) (tmeta : TorrentMetadata) : Int × Int :=
  let beg := i64 ((pieceID : Int) * tmeta.PieceLength)
  let fin := i64 (beg + tmeta.PieceLength)
  (beg, min fin tmeta.Length)

/-- The method `(*os.File).ReadAt` into a buffer of `n` bytes: a negative offset
is an error, an empty buffer reads nothing, and fewer than `n` bytes at the
offset is an error (`none`). -/
def readAt (file : List Byte) (n : Nat) (off : Int) : Option (List Byte) :=
  if off < 0 then none
  else if n = 0 then some []
  else if off.toNat + n ≤ file.length then some ((file.drop off.toNat).take n)
  else none

/-- The method `(*os.File).WriteAt`: a negative offset is an error, an empty
buffer writes nothing, and a write beyond the end of the file fills the gap with
zero bytes. -/
def writeAt (file : List Byte) (b : List Byte) (off : Int) : List Byte × Option Error :=
  if off < 0 then (file, some .io)
  else if b.length = 0 then (file, none)
  else
    (file.take off.toNat ++ List.replicate (off.toNat - file.length) 0 ++ b ++
      file.drop (off.toNat + b.length), none)

/-- The struct `torrent.TorrentData`; the file is its content. -/
structure TorrentData where
  File : List Byte
  TorrentMetadata : TorrentMetadata
  deriving DecidableEq, Repr

/-- The method `(*TorrentData).Piece`; the difference of the boundaries is an
operation on `int` and wraps, and `make` panics on a negative length. -/
def TorrentData.Piece (td : TorrentData) (id : Int) :
    Except Panic (Option (List Byte) × Option Error) :=
  let (beg, fin) := calcPieceBoundaries (u32OfInt id) td.TorrentMetadata
  let pieceLen := i64 (fin - beg)
  if pieceLen < 0 then .error .negativeLen
  else
    match readAt td.File pieceLen.toNat beg with
    | none => .ok (none, some .io)
    | some piece => .ok (some piece, none)

/-- The method `(*TorrentData).WritePiece`; the product is an operation on `int`
and wraps. -/
def TorrentData.WritePiece (td : TorrentData) (id : Int) (piece : List Byte) :
    TorrentData × Option Error :=
  let offset := i64 (id * td.TorrentMetadata.PieceLength)
  match writeAt td.File piece offset with
  | (file, err) => ({ td with File := file }, err)

/-- The struct `torrent.downloadingInfo`. -/
structure downloadingInfo where
  downloaded : Int
  isDone : Bool
  TorrentMetadata : TorrentMetadata
  deriving DecidableEq, Repr

/-- The method `(*downloadingInfo).PieceDownloaded`; the sum is an operation on
`int` and wraps. -/
def downloadingInfo.PieceDownloaded (di : downloadingInfo) (piece : Piece) : downloadingInfo :=
  let di := { di with downloaded := i64 (di.downloaded + piece.Data.length) }
  if di.downloaded = di.TorrentMetadata.Length then { di with isDone := true } else di

/-- The variables of the writer loop of `download`: the output file, the
progress record, and whether the piece-result channel has been closed. -/
structure WriterState where
  tdata : TorrentData
  info : downloadingInfo
  closed : Bool
  deriving DecidableEq, Repr

/-- The state in which `download` enters its writer loop: `os.Create` has
truncated the output file and nothing is downloaded. -/
def WriterState.initial (tm : TorrentMetadata) : WriterState :=
  { tdata := { File := [], TorrentMetadata := tm }
    info := { downloaded := 0, isDone := false, TorrentMetadata := tm }
    closed := false }

/-- One iteration of the writer loop of `download` on a value received from the
piece-result channel (`none` is a nil pointer).  The update of the speed
tracker touches none of these variables and is left out. -/
def writerStep (s : WriterState) (piece : Option Piece) : Except Panic WriterState :=
  match piece with
  | none => .error .nilDereference
  | some piece =>
    match s.tdata.WritePiece piece.ID piece.Data with
    | (_, some _) => .error .logFatal
    | (tdata, none) =>
      let info := s.info.PieceDownloaded piece
      if info.isDone then
        if s.closed then .error .closeOfClosedChannel
        else .ok { tdata := tdata, info := info, closed := true }
      else .ok { tdata := tdata, info := info, closed := s.closed }

/-- The writer loop of `download` over the values it receives, in order. -/
def writerLoop : WriterState → List (Option Piece) → Except Panic WriterState
  | s, [] => .ok s
  | s, piece :: rest =>
    match writerStep s piece with
    | .error f => .error f
    | .ok s => writerLoop s rest

/-! ### Package `torrent`: the speed tracker -/

/-- The struct `torrent.trackerRecord`; the elapsed seconds are an exact
rational number. -/
structure trackerRecord where
  downloaded : Int
  elapsedSeconds : ℚ
  deriving DecidableEq, Repr

/-- The struct `torrent.speedTracker` without its mutex.  A time is the number
of seconds since some instant, an exact rational number; `none` is the zero
value of `time.Time`, which `time.Now()` never returns. -/
structure speedTracker where
  lastDownloadSpeedUpdate : Option ℚ
  history : List trackerRecord
  maxHistoryLen : Int
  speedRecordCount : Int
  deriving DecidableEq, Repr

/-- The constructor `NewSpeedTracker`. -/
def NewSpeedTracker (avgOf : Int) : speedTracker :=
  { lastDownloadSpeedUpdate := none, history := [], maxHistoryLen := avgOf,
    speedRecordCount := 0 }

/-- The method `(*speedTracker).updateDownloadingSpeed`, with the value `now` of
`time.Now()` as an argument.  The operator `%` panics on a zero divisor and
takes the sign of the dividend; indexing `st.history` out of range is a panic. -/
def speedTracker.updateDownloadingSpeed (st : speedTracker) (now : ℚ) (bytesDownloaded : Int) :
    Except Panic speedTracker :=
  match st.lastDownloadSpeedUpdate with
  | none => .ok { st with lastDownloadSpeedUpdate := some now }
  | some last =>
    let timeDiff := now - last
    let history : Except Panic (List trackerRecord) :=
      if timeDiff > 0 then
        let record : trackerRecord :=
          { downloaded := bytesDownloaded, elapsedSeconds := timeDiff }
        if (st.history.length : Int) > st.maxHistoryLen then
          if st.maxHistoryLen = 0 then .error .divideByZero
          else
            let idx := Int.tmod st.speedRecordCount st.maxHistoryLen
            if idx < 0 ∨ idx ≥ (st.history.length : Int) then .error .indexOutOfRange
            else .ok (st.history.set idx.toNat record)
        else .ok (st.history ++ [record])
      else .ok st.history
    match history with
    | .error f => .error f
    | .ok history =>
      .ok { st with
              history := history
              lastDownloadSpeedUpdate := some now
              speedRecordCount := st.speedRecordCount + 1 }

/-! ### Auxiliary definitions of the statements -/

/-- The invariant of the assembler: sizes fixed by the constructor, and the
counter of filled blocks counts the flags that are set. -/
def AssemblerInv (id L : Nat) (p : pieceDownloadingInfo) : Prop :=
  p.ID = id ∧ p.maxPieceLen = L ∧ p.Data.length = L ∧ p.Blocks.length = L / BlockSize ∧
    p.blocksCount = p.Blocks.count true

/-- The state of the assembler of a one-block piece after its block was accepted. -/
def oneBlockFilled : pieceDownloadingInfo :=
  { NewPieceDownloadInfo 1 16384 with
      Data := copyAt (List.replicate 16384 0) 0 [7]
      pieceLen := 1
      blocksCount := 1
      Blocks := [true] }

/-- A descriptor of a file of one piece of one block. -/
def rogueMeta : TorrentMetadata :=
  { Announce := "", InfoHash := List.replicate 20 3, PieceHashes := [List.replicate 20 9],
    PieceLength := 16384, Length := 16384, Name := "out" }

/-- What a peer sends that answers the handshake, announces every piece in its
bitfield and then sends one block of piece 1 that nobody requested: a Piece
message with piece index 1, offset 0 and one byte of data. -/
def rogueStream : List Byte :=
  (NewHandshake (List.replicate 20 3) (List.replicate 20 4)).Serialize ++
    [0, 0, 0, 2, 5, 255] ++ [0, 0, 0, 10, 7, 0, 0, 0, 1, 0, 0, 0, 0, 0]

/-- The content of a file after a write of `b` at offset `off`. -/
def writeNat (file : List Byte) (off : Nat) (b : List Byte) : List Byte :=
  if b.length = 0 then file
  else file.take off ++ List.replicate (off - file.length) 0 ++ b ++ file.drop (off + b.length)

/-- The result of reading `n` bytes of a file at offset `off`. -/
def readNat (file : List Byte) (n off : Nat) : Option (List Byte) :=
  if n = 0 then some []
  else if off + n ≤ file.length then some ((file.drop off).take n)
  else none

/-- The length of piece `i` of a file of `len` bytes cut into pieces of `pl` bytes. -/
def spanNat (pl len i : Nat) : Nat := min (i * pl + pl) len - i * pl

/-- What holds of the writer after it has consumed the pieces `ps`. -/
def WriterInv (tm : TorrentMetadata) (pl : Nat) (ps : List Piece) (st : WriterState) : Prop :=
  st.tdata.TorrentMetadata = tm ∧ st.info.TorrentMetadata = tm ∧
  st.info.downloaded = ((ps.map (fun p => p.Data.length)).sum : Nat) ∧
  (st.info.isDone = true → (((ps.map (fun p => p.Data.length)).sum : Nat) : Int) = tm.Length) ∧
  st.closed = st.info.isDone ∧
  (ps ≠ [] → (((ps.map (fun p => p.Data.length)).sum : Nat) : Int) = tm.Length →
    st.info.isDone = true) ∧
  (st.tdata.File.length : Int) ≤ max tm.Length 0 ∧
  ∀ p ∈ ps, readNat st.tdata.File p.Data.length (p.ID * pl) = some p.Data

/-- The piece `i`, filled with zero bytes, of a file of `2 ^ 63 - 1` bytes cut into
pieces of `2 ^ 31` bytes. -/
def farPiece (i : Nat) : Piece :=
  { ID := i, Data := List.replicate (spanNat 2147483648 9223372036854775807 i) 0 }

/-- A descriptor of a file of `len` bytes made of the pieces `f 0 .. f (n - 1)`,
of `pl` bytes each. -/
def piecesMeta (sha1 : List Byte → List Byte) (f : Nat → Piece) (n : Nat) (pl len : Int) :
    TorrentMetadata :=
  { Announce := "", InfoHash := List.replicate 20 0,
    PieceHashes := (List.range n).map (fun i => sha1 (f i).Data),
    PieceLength := pl, Length := len, Name := "out" }

/-- A descriptor of the zero-filled file of `2 ^ 63 - 1` bytes, the largest
`Length` an `int` holds, in `2 ^ 32` pieces of `2 ^ 31` bytes. -/
def farMeta (sha1 : List Byte → List Byte) : TorrentMetadata :=
  piecesMeta sha1 farPiece 4294967296 2147483648 9223372036854775807

/-- A descriptor of a two-byte file in two pieces of one byte. -/
def twoPieceMeta (sha1 : List Byte → List Byte) : TorrentMetadata :=
  { Announce := "", InfoHash := List.replicate 20 0, PieceHashes := [sha1 [7], sha1 [8]],
    PieceLength := 1, Length := 2, Name := "out" }

/-- The number of loop iterations that `downloadPiece` can still make: requests
not yet emitted plus bytes not yet read. -/
def loopMeasure (tmeta : TorrentMetadata) (s : LoopState) : Nat :=
  (((u32OfInt tmeta.PieceLength / BlockSize : Nat) : Int) - s.pdInfo.requested).toNat +
    s.p.Con.input.length

/-- A connected peer that announces every piece, still choking, from which the
bytes `bs` arrive. -/
def peerSending (bs : List Byte) : Peer :=
  { Con := Conn.ofInput bs, Choking := true, Bitfield := [255],
    Addr := { IP := [127, 0, 0, 1], Port := 6881 } }

/-- A descriptor of a file of 40000 bytes in two pieces of 32768 bytes: the
last piece has 7232 bytes. -/
def tailMeta : TorrentMetadata :=
  { Announce := "", InfoHash := List.replicate 20 3,
    PieceHashes := [List.replicate 20 8, List.replicate 20 9],
    PieceLength := 32768, Length := 40000, Name := "out" }

/-- The state of the loop of `downloadPiece` for piece `pieceID` of `tmeta` after
`requested` requests, with nothing received yet. -/
def afterRequests (pieceID : Nat) (tmeta : TorrentMetadata) (requested : Nat) : LoopState :=
  { p := { peerSending [] with Choking := false }
    pdInfo := { NewPieceDownloadInfo pieceID (u32OfInt tmeta.PieceLength) with
                  requested := requested }
    backlog := requested }

/-- A descriptor of a file of `2 ^ 63 - 1` bytes in pieces of `2 ^ 31` bytes. -/
def farTailMeta : TorrentMetadata :=
  { Announce := "test", InfoHash := List.replicate 20 0, PieceHashes := [],
    PieceLength := 2147483648, Length := 9223372036854775807, Name := "test" }

/-- A descriptor of a one-byte file with a piece length of `2 ^ 62`, whose product
with 4 is zero in an `int`. -/
def wrapZeroMeta : TorrentMetadata :=
  { Announce := "test", InfoHash := List.replicate 20 0, PieceHashes := [],
    PieceLength := 4611686018427387904, Length := 1, Name := "test" }

/-- A descriptor of a file of `2 ^ 63 - 1` bytes in two pieces of `2 ^ 62` bytes. -/
def farTwoMeta : TorrentMetadata :=
  { Announce := "test", InfoHash := List.replicate 20 0, PieceHashes := [],
    PieceLength := 4611686018427387904, Length := 9223372036854775807, Name := "test" }

/-- The descriptor of the seven-byte file of `TestTorrentDataPiece`, in pieces
of two bytes. -/
def sevenByteMeta : TorrentMetadata :=
  { Announce := "test", InfoHash := List.replicate 20 0, PieceHashes := [],
    PieceLength := 2, Length := 7, Name := "test" }

/-- The hashes of the pieces of `s` cut at every `p` bytes, in order. -/
def sourceHashes (sha1 : List Byte → List Byte) (s : List Byte) (p : Nat) : List (List Byte) :=
  (List.range ((s.length + p - 1) / p)).map (fun i => sha1 ((s.drop (i * p)).take p))

/-- A stand-in for SHA-1 in evaluations: 20 bytes made of the length and the
first byte of the data. -/
def toyHash (d : List Byte) : List Byte :=
  d.length % 256 :: d.headD 0 :: List.replicate 18 0

/-- A descriptor with a pieces string of 25 bytes, a length of 100 and a piece
length of 10. -/
def oddDescriptor : bencodeTorrent :=
  { Announce := "http://tracker/announce"
    Info := { Pieces := [0, 1, 2, 3, 4, 5, 6, 7, 8, 9, 10, 11, 12, 13, 14, 15, 16, 17, 18, 19,
                         20, 21, 22, 23, 24]
              PieceLength := 10, Length := 100, Name := "out" } }

/-- The file after the writes of the pieces `ps` (piece ID and data), in order. -/
def writeAll (td : TorrentData) (ps : List (Nat × List Byte)) : TorrentData :=
  ps.foldl (fun t p => (t.WritePiece (p.1 : Int) p.2).1) td

/-- A sequence of calls of `updateDownloadingSpeed`, each with the time of the
call and the bytes it reports. -/
def runUpdates : speedTracker → List (ℚ × Int) → Except Panic speedTracker
  | st, [] => .ok st
  | st, (now, bytes) :: rest =>
    match st.updateDownloadingSpeed now bytes with
    | .error f => .error f
    | .ok st => runUpdates st rest

/-- The state that the result of an iteration carries. -/
def StepResult.state : StepResult → LoopState
  | .next s => s
  | .ret s _ => s
  | .panic s _ => s

/-- The states of the loop of `downloadPiece` reached from `s0`: every
iteration is entered with the loop condition true and ends at the end of the
body or at `continue`. -/
inductive LoopReachable (pieceID : Nat) (tmeta : TorrentMetadata) (s0 : LoopState) :
    LoopState → Prop where
  | start : LoopReachable pieceID tmeta s0 s0
  | iter (s t : LoopState) : LoopReachable pieceID tmeta s0 s →
      s.pdInfo.downloaded < ((u32OfInt tmeta.PieceLength / BlockSize : Nat) : Int) →
      downloadPieceStep pieceID tmeta s = .next t → LoopReachable pieceID tmeta s0 t

/-! ## Part 2: theorems -/

/-! ### The piece assembler -/

theorem length_copyAt (dst src : List Byte) (off : Nat) (h : off ≤ dst.length) :
    (copyAt dst off src).length = dst.length := by
  simp only [copyAt, List.length_append, List.length_take, List.length_drop]
  omega

/-- When the source fits, `copy` writes all of it. -/
theorem copyAt_of_fits (dst src : List Byte) (off : Nat) (h : off + src.length ≤ dst.length) :
    copyAt dst off src = dst.take off ++ src ++ dst.drop (off + src.length) := by
  have : src.take (dst.length - off) = src := List.take_of_length_le (by omega)
  simp [copyAt, this]

theorem getElem?_copyAt_of_fits (dst src : List Byte) (off i : Nat)
    (h : off + src.length ≤ dst.length) :
    (copyAt dst off src)[i]? =
      if off ≤ i ∧ i < off + src.length then src[i - off]? else dst[i]? := by
  rw [copyAt_of_fits dst src off h]
  have h1 : min off dst.length = off := Nat.min_eq_left (by omega)
  simp only [List.getElem?_append, List.length_append, List.length_take, List.getElem?_take,
    List.getElem?_drop, h1]
  by_cases c1 : i < off
  · have c2 : i < off + src.length := by omega
    have c3 : ¬ off ≤ i := by omega
    simp [c1, c2, c3]
  · by_cases c2 : i < off + src.length
    · have c3 : off ≤ i := by omega
      simp [c1, c2, c3]
    · have c3 : off + src.length + (i - (off + src.length)) = i := by omega
      simp [c1, c2, c3]

/-- The three ways in which `AddBlock` returns. -/
theorem AddBlock_ok_cases (p q : pieceDownloadingInfo) (m : PieceMessage) (e : Option Error)
    (h : p.AddBlock m = .ok (q, e)) :
    (q = p ∧ e ≠ none) ∨
    (e = none ∧ m.PieceID = p.ID ∧
      ¬ u32 p.Data.length < u32 (m.BlockOffset + u32 m.Data.length) ∧
      p.Blocks[m.BlockOffset / BlockSize]? = some false ∧
      m.BlockOffset ≤ p.Data.length ∧
      q = { p with
              Data := copyAt p.Data m.BlockOffset m.Data
              pieceLen := u32 (p.pieceLen + u32 m.Data.length)
              blocksCount := u32 (p.blocksCount + 1)
              Blocks := p.Blocks.set (m.BlockOffset / BlockSize) true }) := by
  unfold pieceDownloadingInfo.AddBlock at h
  split at h
  · simp only [Except.ok.injEq, Prod.mk.injEq] at h
    exact Or.inl ⟨h.1.symm, by simp [← h.2]⟩
  · rename_i hid
    split at h
    · simp only [Except.ok.injEq, Prod.mk.injEq] at h
      exact Or.inl ⟨h.1.symm, by simp [← h.2]⟩
    · rename_i hov
      simp only at h
      split at h
      · cases h
      · simp only [Except.ok.injEq, Prod.mk.injEq] at h
        exact Or.inl ⟨h.1.symm, by simp [← h.2]⟩
      · rename_i hb
        split at h
        · cases h
        · rename_i hs
          simp only [Except.ok.injEq, Prod.mk.injEq] at h
          refine Or.inr ⟨h.2.symm, ?_, hov, hb, by omega, h.1.symm⟩
          simpa using hid

/-- A call that passes the three checks is accepted. -/
theorem AddBlock_accept (p : pieceDownloadingInfo) (m : PieceMessage)
    (hid : m.PieceID = p.ID)
    (hov : ¬ u32 p.Data.length < u32 (m.BlockOffset + u32 m.Data.length))
    (hb : p.Blocks[m.BlockOffset / BlockSize]? = some false)
    (hs : m.BlockOffset ≤ p.Data.length) :
    p.AddBlock m = .ok ({ p with
              Data := copyAt p.Data m.BlockOffset m.Data
              pieceLen := u32 (p.pieceLen + u32 m.Data.length)
              blocksCount := u32 (p.blocksCount + 1)
              Blocks := p.Blocks.set (m.BlockOffset / BlockSize) true }, none) := by
  unfold pieceDownloadingInfo.AddBlock
  rw [if_neg (by simpa using hid), if_neg hov]
  simp only [hb]
  rw [if_neg (by omega)]

/-- A call never changes the identity, the capacity or the sizes of the buffers. -/
theorem AddBlock_frame (p q : pieceDownloadingInfo) (m : PieceMessage) (e : Option Error)
    (h : p.AddBlock m = .ok (q, e)) :
    q.ID = p.ID ∧ q.maxPieceLen = p.maxPieceLen ∧ q.Blocks.length = p.Blocks.length ∧
      q.Data.length = p.Data.length := by
  rcases AddBlock_ok_cases p q m e h with ⟨rfl, _⟩ | ⟨_, _, _, _, hs, rfl⟩
  · simp
  · simp [length_copyAt _ _ _ hs]

/-- A filled slot stays filled. -/
theorem AddBlock_keeps_flag (p q : pieceDownloadingInfo) (m : PieceMessage) (e : Option Error)
    (k : Nat) (h : p.AddBlock m = .ok (q, e)) (hk : p.Blocks[k]? = some true) :
    q.Blocks[k]? = some true := by
  rcases AddBlock_ok_cases p q m e h with ⟨rfl, _⟩ | ⟨_, _, _, hb, _, rfl⟩
  · exact hk
  · simp only [List.getElem?_set]
    split
    · rename_i hkk
      subst hkk
      rw [hk] at hb
      cases hb
    · exact hk

theorem ReachableFrom_keeps_flag (p q : pieceDownloadingInfo) (k : Nat)
    (h : ReachableFrom p q) (hk : p.Blocks[k]? = some true) : q.Blocks[k]? = some true := by
  induction h with
  | start => exact hk
  | call q r m e _ hstep ih => exact AddBlock_keeps_flag q r m e k hstep ih

theorem ReachableFrom_trans (p q r : pieceDownloadingInfo)
    (h1 : ReachableFrom p q) (h2 : ReachableFrom q r) : ReachableFrom p r := by
  induction h2 with
  | start => exact h1
  | call s t m e _ hstep ih => exact ReachableFrom.call s t m e ih hstep

theorem AssemblerInv_new (id L : Nat) : AssemblerInv id L (NewPieceDownloadInfo id L) := by
  simp [AssemblerInv, NewPieceDownloadInfo, List.count_replicate]

theorem count_set_true (bs : List Bool) (k : Nat) (h : bs[k]? = some false) :
    (bs.set k true).count true = bs.count true + 1 ∧ bs.count true < bs.length := by
  induction bs generalizing k with
  | nil => simp at h
  | cons b bs ih =>
    cases k with
    | zero =>
      simp only [List.getElem?_cons_zero, Option.some.injEq] at h
      subst h
      have := List.count_le_length true bs
      simp [List.count_cons]
      omega
    | succ k =>
      simp only [List.getElem?_cons_succ] at h
      have := ih k h
      cases b <;> simp [List.count_cons, this.1] <;> omega

theorem AssemblerInv_step (id L : Nat) (hL : L < 4294967296) (p q : pieceDownloadingInfo)
    (m : PieceMessage) (e : Option Error) (hp : AssemblerInv id L p)
    (h : p.AddBlock m = .ok (q, e)) : AssemblerInv id L q := by
  obtain ⟨h1, h2, h3, h4, h5⟩ := hp
  rcases AddBlock_ok_cases p q m e h with ⟨rfl, _⟩ | ⟨_, _, _, hb, hs, rfl⟩
  · exact ⟨h1, h2, h3, h4, h5⟩
  · have hc := count_set_true p.Blocks _ hb
    refine ⟨h1, h2, ?_, ?_, ?_⟩
    · simp [length_copyAt _ _ _ hs, h3]
    · simp [h4]
    · simp only [hc.1, h5, u32]
      have : L / BlockSize ≤ L := Nat.div_le_self _ _
      omega

theorem AssemblerInv_reachable (id L : Nat) (hL : L < 4294967296) (p : pieceDownloadingInfo)
    (h : ReachableFrom (NewPieceDownloadInfo id L) p) : AssemblerInv id L p := by
  induction h with
  | start => exact AssemblerInv_new id L
  | call q r m e _ hstep ih => exact AssemblerInv_step id L hL q r m e ih hstep

/-- C3 (overflow rejection), evaluated at a block whose offset plus length
exceeds the buffer by wrapping around `2 ^ 32`: piece length 16384, block offset
`2 ^ 32 - 1`, one byte of data.  The 32-bit sum is 0, the overflow check lets the
block through, and indexing `Blocks[262143]` faults: no error is returned. -/
theorem C3_overflow_check_wraps_and_faults :
    (NewPieceDownloadInfo 0 16384).AddBlock
        { PieceID := 0, BlockOffset := 4294967295, Data := [1] } =
      .error .indexOutOfRange ∧
    16384 < 4294967295 + [1].length := by
  refine ⟨?_, by decide⟩
  unfold pieceDownloadingInfo.AddBlock
  simp only [NewPieceDownloadInfo, List.length_replicate, List.getElem?_replicate]
  rfl

/-- C4 (duplicate rejection): once a block has been accepted in slot
`BlockOffset / 16384`, every later `AddBlock` for that slot, in whatever state
the assembler has reached since, returns an error and leaves the assembler
exactly as it was. -/
theorem C4_duplicate_block_rejected (p p1 q : pieceDownloadingInfo) (m m2 : PieceMessage)
    (hacc : p.AddBlock m = .ok (p1, none)) (hreach : ReachableFrom p1 q)
    (hslot : m2.BlockOffset / BlockSize = m.BlockOffset / BlockSize) :
    ∃ e, q.AddBlock m2 = .ok (q, some e) := by
  have hflag : q.Blocks[m2.BlockOffset / BlockSize]? = some true := by
    apply ReachableFrom_keeps_flag p1 q _ hreach
    rw [hslot]
    rcases AddBlock_ok_cases p p1 m none hacc with ⟨_, hne⟩ | ⟨_, _, _, hb, _, rfl⟩
    · exact absurd rfl hne
    · have hlt : m.BlockOffset / BlockSize < p.Blocks.length := by
        by_contra hcon
        rw [List.getElem?_eq_none (by omega)] at hb
        cases hb
      simp [List.getElem?_set, hlt]
  unfold pieceDownloadingInfo.AddBlock
  split
  · exact ⟨_, rfl⟩
  · split
    · exact ⟨_, rfl⟩
    · simp only [hflag]
      exact ⟨_, rfl⟩

theorem oneBlock_accepts :
    (NewPieceDownloadInfo 1 16384).AddBlock { PieceID := 1, BlockOffset := 0, Data := [7] } =
      .ok (oneBlockFilled, none) := by
  unfold pieceDownloadingInfo.AddBlock
  simp only [NewPieceDownloadInfo, List.length_replicate, List.getElem?_replicate]
  rfl

theorem C4_duplicate_block_rejected_witness :
    ∃ e, oneBlockFilled.AddBlock { PieceID := 1, BlockOffset := 5, Data := [9] } =
      .ok (oneBlockFilled, some e) :=
  C4_duplicate_block_rejected (NewPieceDownloadInfo 1 16384) oneBlockFilled oneBlockFilled
    { PieceID := 1, BlockOffset := 0, Data := [7] }
    { PieceID := 1, BlockOffset := 5, Data := [9] }
    oneBlock_accepts ReachableFrom.start (by decide)

/-- An accepted block that does not fit in the buffer is not what the buffer
holds at its offset afterwards. -/
theorem AddBlock_accepted_oversize (p q : pieceDownloadingInfo) (m : PieceMessage)
    (hacc : p.AddBlock m = .ok (q, none))
    (hbig : p.Data.length < m.BlockOffset + m.Data.length) :
    (q.Data.drop m.BlockOffset).take m.Data.length ≠ m.Data := by
  rcases AddBlock_ok_cases p q m none hacc with ⟨_, hne⟩ | ⟨_, _, _, _, hs, rfl⟩
  · exact absurd rfl hne
  · intro hEq
    have hlen := congrArg List.length hEq
    simp only [List.length_take, List.length_drop, length_copyAt _ _ _ hs] at hlen
    omega

/-- In a buffer of `2 ^ 32 - 1` bytes every block of 16385 bytes at offset
`2 ^ 32 - 16385` is accepted, the 32-bit sum of offset and length being 0. -/
theorem AddBlock_wrapped_sum_accepted (d : List Byte) (hd : d.length = 16385) :
    ∃ q, (NewPieceDownloadInfo 0 4294967295).AddBlock
          { PieceID := 0, BlockOffset := 4294950911, Data := d } = .ok (q, none) ∧
      (q.Data.drop 4294950911).take d.length ≠ d := by
  have hlenData : (NewPieceDownloadInfo 0 4294967295).Data.length = 4294967295 :=
    List.length_replicate _ _
  have hacc := AddBlock_accept (NewPieceDownloadInfo 0 4294967295)
    { PieceID := 0, BlockOffset := 4294950911, Data := d } rfl
    (by rw [hlenData]; simp only [hd]; decide)
    (by simp only [NewPieceDownloadInfo, List.getElem?_replicate, BlockSize]; decide)
    (by rw [hlenData]; show 4294950911 ≤ 4294967295; decide)
  refine ⟨_, hacc, ?_⟩
  exact AddBlock_accepted_oversize _ _ _ hacc
    (by rw [hlenData]; simp only [hd]; decide)

/-- C5 (effect of an accepted block), evaluated where the overflow check wraps:
in a buffer of `2 ^ 32 - 1` bytes a block of 16385 bytes at offset
`2 ^ 32 - 16385` passes the overflow check, because the 32-bit sum of offset and
length is 0, and is accepted although only 16384 of its bytes fit: the range of
the buffer from the offset on is not the data of the message. -/
theorem C5_wrapped_sum_accepts_oversize_block :
    ∃ q, (NewPieceDownloadInfo 0 4294967295).AddBlock
          { PieceID := 0, BlockOffset := 4294950911, Data := List.replicate 16385 1 } =
        .ok (q, none) ∧
      (q.Data.drop 4294950911).take 16385 ≠ List.replicate 16385 1 := by
  obtain ⟨q, h1, h2⟩ :=
    AddBlock_wrapped_sum_accepted (List.replicate 16385 1) (List.length_replicate _ _)
  rw [List.length_replicate] at h2
  exact ⟨q, h1, h2⟩

/-- The effect of an accepted block where the overflow check does not wrap: in a
state reached from `NewPieceDownloadInfo id L`, an accepted block whose offset
plus length stays below `2 ^ 32` is copied whole to its offset and changes no
other byte; its slot flag is set and no other flag changes; the byte counter, a
`uint32`, grows by the length of the data modulo `2 ^ 32` and the block counter
by exactly one.
A message for another piece is always rejected and changes nothing. -/
theorem AddBlock_accepted_effect (id L : Nat) (p q : pieceDownloadingInfo) (m : PieceMessage)
    (hL : L < 4294967296) (hreach : ReachableFrom (NewPieceDownloadInfo id L) p)
    (hnowrap : m.BlockOffset + m.Data.length < 4294967296)
    (hacc : p.AddBlock m = .ok (q, none)) :
    (∀ i, q.Data[i]? =
        if m.BlockOffset ≤ i ∧ i < m.BlockOffset + m.Data.length
        then m.Data[i - m.BlockOffset]? else p.Data[i]?) ∧
    q.Data.length = p.Data.length ∧
    q.Blocks[m.BlockOffset / BlockSize]? = some true ∧
    (∀ j, j ≠ m.BlockOffset / BlockSize → q.Blocks[j]? = p.Blocks[j]?) ∧
    q.pieceLen = (p.pieceLen + m.Data.length) % 4294967296 ∧
    q.blocksCount = p.blocksCount + 1 ∧
    (∀ (p2 : pieceDownloadingInfo) (m2 : PieceMessage), m2.PieceID ≠ p2.ID →
        p2.AddBlock m2 = .ok (p2, some .anotherPiece)) := by
  obtain ⟨_, _, h3, h4, h5⟩ := AssemblerInv_reachable id L hL p hreach
  rcases AddBlock_ok_cases p q m none hacc with ⟨_, hne⟩ | ⟨_, _, hov, hb, hs, rfl⟩
  · exact absurd rfl hne
  · have hfit : m.BlockOffset + m.Data.length ≤ p.Data.length := by
      simp only [u32] at hov
      omega
    have hlt : m.BlockOffset / BlockSize < p.Blocks.length := by
      by_contra hcon
      rw [List.getElem?_eq_none (by omega)] at hb
      cases hb
    have hc := count_set_true p.Blocks _ hb
    refine ⟨fun i => getElem?_copyAt_of_fits _ _ _ i hfit, length_copyAt _ _ _ hs, ?_, ?_, ?_,
      ?_, ?_⟩
    · simp [List.getElem?_set, hlt]
    · intro j hj
      simp [List.getElem?_set, Ne.symm hj]
    · simp only [u32]
      omega
    · simp only [u32]
      have : L / BlockSize ≤ L := Nat.div_le_self _ _
      omega
    · intro p2 m2 hne
      unfold pieceDownloadingInfo.AddBlock
      rw [if_pos hne]

theorem AddBlock_accepted_effect_oneBlock :
    (∀ i, oneBlockFilled.Data[i]? =
        if 0 ≤ i ∧ i < 0 + [7].length
        then [7][i - 0]? else (NewPieceDownloadInfo 1 16384).Data[i]?) ∧
    oneBlockFilled.Data.length = (NewPieceDownloadInfo 1 16384).Data.length ∧
    oneBlockFilled.Blocks[0 / BlockSize]? = some true ∧
    (∀ j, j ≠ 0 / BlockSize →
        oneBlockFilled.Blocks[j]? = (NewPieceDownloadInfo 1 16384).Blocks[j]?) ∧
    oneBlockFilled.pieceLen = ((NewPieceDownloadInfo 1 16384).pieceLen + [7].length) % 4294967296 ∧
    oneBlockFilled.blocksCount = (NewPieceDownloadInfo 1 16384).blocksCount + 1 ∧
    (∀ (p2 : pieceDownloadingInfo) (m2 : PieceMessage), m2.PieceID ≠ p2.ID →
        p2.AddBlock m2 = .ok (p2, some .anotherPiece)) :=
  AddBlock_accepted_effect 1 16384 (NewPieceDownloadInfo 1 16384) oneBlockFilled
    { PieceID := 1, BlockOffset := 0, Data := [7] } (by decide) ReachableFrom.start (by decide)
    oneBlock_accepts

/-- C6 (completion): in every state reached from `NewPieceDownloadInfo id L` by
`AddBlock` calls, `Completed` holds exactly when every flag of `Blocks` is set;
the block counter is the number of set flags and there are `L / 16384` slots. -/
theorem C6_completed_iff_all_blocks (id L : Nat) (p : pieceDownloadingInfo)
    (hL : L < 4294967296) (hreach : ReachableFrom (NewPieceDownloadInfo id L) p) :
    (p.Completed = true ↔ ∀ b ∈ p.Blocks, b = true) ∧
    p.blocksCount = p.Blocks.count true ∧
    p.Blocks.length = L / BlockSize := by
  obtain ⟨_, h2, _, h4, h5⟩ := AssemblerInv_reachable id L hL p hreach
  refine ⟨?_, h5, h4⟩
  unfold pieceDownloadingInfo.Completed
  rw [decide_eq_true_iff, h5, h2, ← h4, List.count_eq_length]
  constructor
  · intro h b hb
    exact (h b hb).symm
  · intro h b hb
    exact (h b hb).symm

theorem C6_completed_iff_all_blocks_witness :
    (oneBlockFilled.Completed = true ↔ ∀ b ∈ oneBlockFilled.Blocks, b = true) ∧
    oneBlockFilled.blocksCount = oneBlockFilled.Blocks.count true ∧
    oneBlockFilled.Blocks.length = 16384 / BlockSize :=
  C6_completed_iff_all_blocks 1 16384 oneBlockFilled (by decide)
    (ReachableFrom.call _ _ _ _ ReachableFrom.start oneBlock_accepts)

/-! ### The message codec and the handshake -/

theorem uint32BE_putUint32 (v : Nat) (h : v < 4294967296) : uint32BE (putUint32 v) = v := by
  simp only [uint32BE, putUint32, List.getD_cons_zero, List.getD_cons_succ]
  omega

theorem Serialize_some (m : Message) (hlen : m.Payload.length + 5 < 4294967296) :
    Message.Serialize (some m) =
      .ok (putUint32 (m.Payload.length + 1) ++ m.ID :: m.Payload) := by
  have h1 : u32 (m.Payload.length + 1) = m.Payload.length + 1 := by
    simp only [u32]; omega
  have h2 : u32 (m.Payload.length + 1 + 4) = m.Payload.length + 5 := by
    simp only [u32]; omega
  simp only [Message.Serialize, h1, h2, List.length_replicate]
  simp [putUint32, copyAt, List.replicate_succ]
  rw [if_neg (by omega), List.drop_eq_nil_of_le (by simp; omega)]
  simp

theorem Serialize_faults (m : Message) (hlen : m.Payload.length = 4294967295) :
    Message.Serialize (some m) = .error .indexOutOfRange := by
  simp only [Message.Serialize, hlen]
  rfl

theorem ParseMessage_cons (b : Nat) (rest : List Byte) (h : b ≤ 8) :
    ParseMessage (b :: rest) = (some { ID := b, Payload := rest }, none) := by
  have h8 : ¬ 8 < b := by omega
  cases rest <;> simp [ParseMessage, h8]

theorem ParseMessage_error_iff (buf : List Byte) :
    (ParseMessage buf).2 ≠ none ↔ ∃ b rest, buf = b :: rest ∧ 8 < b := by
  cases buf with
  | nil => simp [ParseMessage]
  | cons b rest =>
    by_cases h : 8 < b
    · simp [ParseMessage, h]
    · simp [ParseMessage, h]


theorem take_drop_take (r : List Byte) (a n k : Nat) (h : a + n ≤ k) :
    ((r.take k).drop a).take n = (r.drop a).take n := by
  rw [List.drop_take, List.take_take]
  congr 1
  omega

theorem copyAt_zero_full (dst src : List Byte) (h : src.length = dst.length) :
    copyAt dst 0 src = src := by
  simp [copyAt, h, List.take_of_length_le, List.drop_of_length_le]

theorem ReadHandshake_short (r : List Byte) (h : r.length < 68) :
    (ReadHandshake r).2.1 = some .io := by
  have : ¬ 68 ≤ r.length := by omega
  simp [ReadHandshake, readFull, this]

theorem ReadHandshake_long (r : List Byte) (h : 68 ≤ r.length) :
    ReadHandshake r =
      if r[0]? ≠ some 19 then
        ({ Pstr := [], InfoHash := List.replicate 20 0, PeerID := List.replicate 20 0 },
          some .handshakeFormat, r.drop 68)
      else if (r.drop 1).take 19 ≠ protocolString then
        ({ Pstr := (r.drop 1).take 19, InfoHash := List.replicate 20 0,
           PeerID := List.replicate 20 0 }, some .handshakeFormat, r.drop 68)
      else
        ({ Pstr := (r.drop 1).take 19, InfoHash := (r.drop 28).take 20,
           PeerID := (r.drop 48).take 20 }, none, r.drop 68) := by
  have hhead : (r.take 68).headD 0 = 19 ↔ r[0]? = some 19 := by
    cases r with
    | nil => simp at h
    | cons a t => simp
  have h1 : ((r.take 68).drop 1).take 19 = (r.drop 1).take 19 := take_drop_take r 1 19 68 (by omega)
  have h2 : ((r.take 68).drop 28).take 20 = (r.drop 28).take 20 := take_drop_take r 28 20 68 (by omega)
  have h3 : ((r.take 68).drop 48).take 20 = (r.drop 48).take 20 := take_drop_take r 48 20 68 (by omega)
  have l2 : ((r.drop 28).take 20).length = 20 := by simp; omega
  have l3 : ((r.drop 48).take 20).length = 20 := by simp; omega
  simp only [ReadHandshake, readFull, if_pos h, h1, h2, h3, ne_eq, hhead]
  rw [copyAt_zero_full _ _ (by simp [l2]), copyAt_zero_full _ _ (by simp [l3])]


/-- C7 as stated fails for a payload of `2 ^ 32 - 1` bytes: the 32-bit length
`len(payload) + 1` is 0, the buffer has four bytes, and writing the identifier
at index 4 faults. -/
theorem C7_counterexample :
    Message.Serialize (some { ID := 0, Payload := List.replicate 4294967295 0 }) =
      .error .indexOutOfRange :=
  Serialize_faults _ (List.length_replicate _ _)

/-- C7 (message round trip), amended: for every message with an identifier in
0..8 and a payload shorter than `2 ^ 32 - 5` bytes, `Serialize` is the
big-endian encoding of `len(payload) + 1`, the identifier and the payload, of
total length `len(payload) + 5`, and `ParseMessage` of the bytes after the
length prefix is the message; the nil message serializes to four zero bytes and
the empty body parses to the nil message; `ParseMessage` returns an error
exactly when the body is not empty and its first byte exceeds 8. -/
theorem C7_message_round_trip (m : Message) (hid : m.ID ≤ 8)
    (hlen : m.Payload.length + 5 < 4294967296) :
    Message.Serialize (some m) =
      .ok (putUint32 (m.Payload.length + 1) ++ m.ID :: m.Payload) ∧
    uint32BE (putUint32 (m.Payload.length + 1)) = m.Payload.length + 1 ∧
    (putUint32 (m.Payload.length + 1) ++ m.ID :: m.Payload).length = m.Payload.length + 5 ∧
    ParseMessage ((putUint32 (m.Payload.length + 1) ++ m.ID :: m.Payload).drop 4) =
      (some m, none) ∧
    Message.Serialize none = .ok [0, 0, 0, 0] ∧
    ParseMessage [] = (none, none) ∧
    (∀ buf, (ParseMessage buf).2 ≠ none ↔ ∃ b rest, buf = b :: rest ∧ 8 < b) := by
  refine ⟨Serialize_some m hlen, uint32BE_putUint32 _ (by omega), ?_, ?_, rfl, rfl,
    ParseMessage_error_iff⟩
  · simp [putUint32]
  · have : (putUint32 (m.Payload.length + 1) ++ m.ID :: m.Payload).drop 4 =
        m.ID :: m.Payload := by simp [putUint32]
    rw [this]
    exact ParseMessage_cons m.ID m.Payload hid

theorem C7_message_round_trip_witness :
    Message.Serialize (some { ID := 7, Payload := [1, 2] }) = .ok [0, 0, 0, 3, 7, 1, 2] ∧
    ParseMessage ([0, 0, 0, 3, 7, 1, 2].drop 4) = (some { ID := 7, Payload := [1, 2] }, none) :=
  have h := C7_message_round_trip { ID := 7, Payload := [1, 2] } (by decide) (by decide)
  ⟨h.1, h.2.2.2.1⟩

/-- C8 (frame limit): a length prefix above 20000 makes `ReceiveMessage` return
an error with nothing read after the four prefix bytes; a serialized message
with an identifier in 0..8 and a body of at most 20000 bytes is received as that
message, and the frame of four zero bytes as the nil message. -/
theorem C8_frame_limit :
    (∀ c : Conn, 4 ≤ c.input.length → uint32BE (c.input.take 4) > 20000 →
      ReceiveMessage c = ({ c with input := c.input.drop 4 }, none, some .messageTooLong)) ∧
    (∀ m : Message, m.ID ≤ 8 → m.Payload.length + 1 ≤ 20000 →
      ∃ bytes, Message.Serialize (some m) = .ok bytes ∧
        ∀ (c : Conn) (rest : List Byte), c.input = bytes ++ rest →
          ReceiveMessage c = ({ c with input := rest }, some m, none)) ∧
    (∃ bytes, Message.Serialize none = .ok bytes ∧ bytes = [0, 0, 0, 0] ∧
        ∀ (c : Conn) (rest : List Byte), c.input = bytes ++ rest →
          ReceiveMessage c = ({ c with input := rest }, none, none)) := by
  refine ⟨?_, ?_, ?_⟩
  · intro c h4 hbig
    have hbig2 : uint32BE (List.take 4 c.input) > maxMsgLen := hbig
    simp only [ReceiveMessage, Conn.ReadFull, readFull, if_pos h4, if_pos hbig2]
  · intro m hid hlen
    refine ⟨_, Serialize_some m (by omega), ?_⟩
    intro c rest hc
    have hdec := uint32BE_putUint32 (m.Payload.length + 1) (by omega)
    have hsmall : ¬ m.Payload.length + 1 > maxMsgLen := by
      simp only [maxMsgLen]; omega
    have hp := ParseMessage_cons m.ID m.Payload hid
    have hin : c.input = putUint32 (m.Payload.length + 1) ++ (m.ID :: m.Payload ++ rest) := by
      rw [hc]; simp
    have hl4 : (putUint32 (m.Payload.length + 1)).length = 4 := by simp [putUint32]
    have ht : List.take 4 c.input = putUint32 (m.Payload.length + 1) := by
      rw [hin, List.take_append_of_le_length (by omega), List.take_of_length_le (by omega)]
    have hd : List.drop 4 c.input = m.ID :: m.Payload ++ rest := by
      rw [hin, List.drop_append_of_le_length (by omega), List.drop_of_length_le (by omega)]
      rfl
    have hge : 4 ≤ c.input.length := by
      rw [hin, List.length_append]; omega
    have ht2 : List.take (m.Payload.length + 1) (m.ID :: m.Payload ++ rest) =
        m.ID :: m.Payload := by
      rw [List.take_append_of_le_length (by simp), List.take_of_length_le (by simp)]
    have hd2 : List.drop (m.Payload.length + 1) (m.ID :: m.Payload ++ rest) = rest := by
      rw [List.drop_append_of_le_length (by simp), List.drop_of_length_le (by simp)]
      rfl
    have hge2 : m.Payload.length + 1 ≤ (m.ID :: m.Payload ++ rest).length := by
      simp
    simp only [ReceiveMessage, Conn.ReadFull, readFull, if_pos hge, ht, hd, hdec, if_neg hsmall,
      if_pos hge2, ht2, hd2, hp]
  · refine ⟨_, rfl, rfl, ?_⟩
    intro c rest hc
    have hge : 4 ≤ c.input.length := by rw [hc]; simp
    have ht : List.take 4 c.input = [0, 0, 0, 0] := by rw [hc]; rfl
    have hd : List.drop 4 c.input = rest := by rw [hc]; rfl
    have hu : uint32BE [0, 0, 0, 0] = 0 := rfl
    have hz : ¬ 0 > maxMsgLen := by decide
    simp only [ReceiveMessage, Conn.ReadFull, readFull, if_pos hge, ht, hd, hu, if_neg hz,
      Nat.zero_le, if_true, List.take_zero, List.drop_zero]
    rfl

theorem C8_frame_limit_witness :
    ReceiveMessage (Conn.ofInput [0, 0, 78, 33, 5]) =
      (Conn.ofInput [5], none, some .messageTooLong) ∧
    ReceiveMessage (Conn.ofInput [0, 0, 0, 3, 7, 1, 2, 9]) =
      (Conn.ofInput [9], some { ID := 7, Payload := [1, 2] }, none) := by
  refine ⟨C8_frame_limit.1 _ (by decide) (by decide), ?_⟩
  obtain ⟨bytes, hb, h⟩ := C8_frame_limit.2.1 { ID := 7, Payload := [1, 2] } (by decide)
    (by decide)
  have hbytes : bytes = [0, 0, 0, 3, 7, 1, 2] := by
    have h2 : Message.Serialize (some { ID := 7, Payload := [1, 2] }) =
        .ok [0, 0, 0, 3, 7, 1, 2] := rfl
    rw [h2] at hb
    exact (Except.ok.inj hb).symm
  exact h _ [9] (by rw [hbytes]; rfl)

/-- C9 (handshake layout): `NewHandshake(ih, pid).Serialize()` has 68 bytes:
19, the bytes of "BitTorrent protocol", eight zero bytes, the info digest and
the peer ID. -/
theorem C9_handshake_layout (ih pid : List Byte) (hih : ih.length = 20)
    (hpid : pid.length = 20) :
    (NewHandshake ih pid).Serialize =
      19 :: protocolString ++ List.replicate 8 0 ++ ih ++ pid ∧
    (NewHandshake ih pid).Serialize.length = 68 ∧
    (NewHandshake ih pid).Serialize[0]? = some 19 ∧
    ((NewHandshake ih pid).Serialize.drop 1).take 19 = protocolString ∧
    ((NewHandshake ih pid).Serialize.drop 20).take 8 = List.replicate 8 0 ∧
    ((NewHandshake ih pid).Serialize.drop 28).take 20 = ih ∧
    ((NewHandshake ih pid).Serialize.drop 48).take 20 = pid := by
  have hs : (NewHandshake ih pid).Serialize =
      19 :: protocolString ++ List.replicate 8 0 ++ ih ++ pid := by
    simp [Handshake.Serialize, NewHandshake, copyAt, copyCount, hih, hpid, protocolString,
      List.take_of_length_le, List.drop_of_length_le]
  rw [hs]
  refine ⟨rfl, ?_, ?_, ?_, ?_, ?_, ?_⟩
  · simp [protocolString, hih, hpid]
  · simp
  · simp [protocolString]
  · simp [protocolString]
  · simp [protocolString, List.take_append_of_le_length, hih, List.take_of_length_le]
  · simp [protocolString, List.drop_append_of_le_length, hih, hpid, List.take_of_length_le,
      List.drop_of_length_le]

theorem C9_handshake_layout_witness :
    (NewHandshake (List.replicate 20 3) (List.replicate 20 4)).Serialize =
      19 :: protocolString ++ List.replicate 8 0 ++ List.replicate 20 3 ++ List.replicate 20 4 :=
  (C9_handshake_layout (List.replicate 20 3) (List.replicate 20 4) (by decide) (by decide)).1

theorem ReadHandshake_error_iff (r : List Byte) :
    (ReadHandshake r).2.1 ≠ none ↔
      r.length < 68 ∨ r[0]? ≠ some 19 ∨ (r.drop 1).take 19 ≠ protocolString := by
  by_cases h : r.length < 68
  · simp [ReadHandshake_short r h, h]
  · rw [ReadHandshake_long r (by omega)]
    by_cases h0 : r[0]? = some 19
    · by_cases h1 : (r.drop 1).take 19 = protocolString
      · rw [if_neg (not_not.mpr h0), if_neg (not_not.mpr h1)]
        constructor
        · intro hne
          exact absurd rfl hne
        · rintro (hh | hh | hh)
          · exact absurd hh h
          · exact absurd h0 hh
          · exact absurd h1 hh
      · rw [if_neg (not_not.mpr h0), if_pos h1]
        exact ⟨fun _ => Or.inr (Or.inr h1), fun _ => by simp⟩
    · rw [if_pos h0]
      exact ⟨fun _ => Or.inr (Or.inl h0), fun _ => by simp⟩

/-- After a write that succeeds, `HandshakePeer` reads the reply from the same stream. -/
theorem HandshakePeer_of_write_ok (peer : Conn) (tmeta : TorrentMetadata) (peerID : List Byte)
    (hw : peer.writeErrs.head? ≠ some true) :
    (HandshakePeer peer tmeta peerID).2 =
      match ReadHandshake peer.input with
      | (_, some err, _) => some err
      | (respHshake, none, _) =>
        if tmeta.InfoHash ≠ respHshake.InfoHash then some .infoHashesDifferent else none := by
  have hsame : ∀ b, (peer.Write b).2 = none ∧ (peer.Write b).1.input = peer.input := by
    intro b
    unfold Conn.Write
    split
    · rename_i heq
      rw [heq] at hw
      exact absurd rfl hw
    · exact ⟨rfl, rfl⟩
    · exact ⟨rfl, rfl⟩
  obtain ⟨h1, h2⟩ := hsame (NewHandshake tmeta.InfoHash peerID).Serialize
  unfold HandshakePeer
  simp only []
  generalize peer.Write (NewHandshake tmeta.InfoHash peerID).Serialize = w at h1 h2 ⊢
  obtain ⟨c, e⟩ := w
  simp only at h1 h2
  subst h1
  simp only [h2, NewHandshake]
  generalize ReadHandshake peer.input = rh
  obtain ⟨hh, e, rest⟩ := rh
  cases e with
  | some err => rfl
  | none =>
    simp only
    split <;> rfl

/-- C10 (handshake acceptance): when the local handshake is written,
`HandshakePeer` returns nil exactly when the reply has 68 bytes, starts with 19
and the protocol string, and carries the local info digest in bytes 28..47;
`ReadHandshake` returns an error exactly when fewer than 68 bytes arrive, byte 0
is not 19, or bytes 1..19 are not the protocol string. -/
theorem C10_handshake_acceptance (peer : Conn) (tmeta : TorrentMetadata) (peerID : List Byte)
    (hw : peer.writeErrs.head? ≠ some true) :
    ((HandshakePeer peer tmeta peerID).2 = none ↔
      68 ≤ peer.input.length ∧ peer.input[0]? = some 19 ∧
        (peer.input.drop 1).take 19 = protocolString ∧
        (peer.input.drop 28).take 20 = tmeta.InfoHash) ∧
    (∀ r : List Byte, (ReadHandshake r).2.1 ≠ none ↔
      r.length < 68 ∨ r[0]? ≠ some 19 ∨ (r.drop 1).take 19 ≠ protocolString) := by
  refine ⟨?_, ReadHandshake_error_iff⟩
  rw [HandshakePeer_of_write_ok peer tmeta peerID hw]
  by_cases h : peer.input.length < 68
  · have hs := ReadHandshake_short peer.input h
    generalize ReadHandshake peer.input = rh at hs
    obtain ⟨hh, e, rest⟩ := rh
    simp only at hs
    subst hs
    simp only [false_iff, reduceCtorEq]
    omega
  · rw [ReadHandshake_long peer.input (by omega)]
    by_cases h0 : peer.input[0]? = some 19
    · by_cases h1 : (peer.input.drop 1).take 19 = protocolString
      · rw [if_neg (not_not.mpr h0), if_neg (not_not.mpr h1)]
        by_cases h2 : tmeta.InfoHash = (peer.input.drop 28).take 20
        · simp only [ne_eq, h2, not_true_eq_false, if_false, true_iff]
          exact ⟨by omega, h0, h1, trivial⟩
        · simp only [ne_eq, h2, not_false_eq_true, if_true, reduceCtorEq, false_iff]
          rintro ⟨_, _, _, h3⟩
          exact h2 h3.symm
      · rw [if_neg (not_not.mpr h0), if_pos h1]
        simp only [reduceCtorEq, false_iff]
        rintro ⟨_, _, h3, _⟩
        exact h1 h3
    · rw [if_pos h0]
      simp only [reduceCtorEq, false_iff]
      rintro ⟨_, h3, _, _⟩
      exact h0 h3

theorem C10_handshake_acceptance_witness :
    (HandshakePeer
        (Conn.ofInput (NewHandshake (List.replicate 20 3) (List.replicate 20 4)).Serialize)
        { Announce := "", InfoHash := List.replicate 20 3, PieceHashes := [], PieceLength := 1,
          Length := 1, Name := "" }
        (List.replicate 20 5)).2 = none := by
  have h := (C10_handshake_acceptance
    (Conn.ofInput (NewHandshake (List.replicate 20 3) (List.replicate 20 4)).Serialize)
    { Announce := "", InfoHash := List.replicate 20 3, PieceHashes := [], PieceLength := 1,
      Length := 1, Name := "" }
    (List.replicate 20 5) (by decide)).1
  exact h.mpr (by decide)

/-! ### The peer worker -/

theorem Conn.Write_input (c : Conn) (b : List Byte) : (c.Write b).1.input = c.input := by
  unfold Conn.Write
  split <;> rfl

theorem Conn.SetDeadline_input (c : Conn) : c.SetDeadline.1.input = c.input := by
  unfold Conn.SetDeadline
  split <;> rfl

theorem Peer.SendMessage_input (p q : Peer) (m : Option Message) (e : Option Error)
    (h : p.SendMessage m = .ok (q, e)) : q.Con.input = p.Con.input := by
  unfold Peer.SendMessage at h
  split at h
  · cases h
  · simp only [Except.ok.injEq, Prod.mk.injEq] at h
    rw [← h.1]
    exact Conn.Write_input _ _

theorem readFull_length (r : List Byte) (n : Nat) :
    (readFull r n).2.length ≤ r.length ∧
      ((readFull r n).1 ≠ none → (readFull r n).2.length + n = r.length) := by
  unfold readFull
  split
  · simp only [List.length_drop]
    refine ⟨by omega, fun _ => by omega⟩
  · simp

theorem ReceiveMessage_length (c d : Conn) (msg : Option Message) (e : Option Error)
    (h : ReceiveMessage c = (d, msg, e)) :
    d.input.length ≤ c.input.length ∧ (e = none → d.input.length + 4 ≤ c.input.length) := by
  have h1 := readFull_length c.input 4
  rcases hrf : readFull c.input 4 with ⟨o, rest⟩
  rw [hrf] at h1
  simp only at h1
  cases o with
  | none =>
    simp only [ReceiveMessage, Conn.ReadFull, hrf] at h
    simp only [Prod.mk.injEq] at h
    obtain ⟨rfl, _, rfl⟩ := h
    exact ⟨h1.1, fun hc => by cases hc⟩
  | some lenBuf =>
    have h2 := h1.2 (by simp)
    simp only [ReceiveMessage, Conn.ReadFull, hrf] at h
    split at h
    · simp only [Prod.mk.injEq] at h
      obtain ⟨rfl, _, rfl⟩ := h
      exact ⟨h1.1, fun hc => by cases hc⟩
    · have h3 := readFull_length rest (uint32BE lenBuf)
      rcases hrf2 : readFull rest (uint32BE lenBuf) with ⟨o2, rest2⟩
      rw [hrf2] at h3
      simp only at h3
      simp only [hrf2] at h
      cases o2 with
      | none =>
        simp only [Prod.mk.injEq] at h
        obtain ⟨rfl, _, rfl⟩ := h
        exact ⟨by simp only; omega, fun hc => by cases hc⟩
      | some body =>
        simp only at h
        split at h
        · simp only [Prod.mk.injEq] at h
          obtain ⟨rfl, _, rfl⟩ := h
          exact ⟨by simp only; omega, fun hc => by cases hc⟩
        · simp only [Prod.mk.injEq] at h
          obtain ⟨rfl, _, _⟩ := h
          exact ⟨by simp only; omega, fun _ => by simp only; omega⟩


theorem AddBlock_requested (p q : pieceDownloadingInfo) (m : PieceMessage) (e : Option Error)
    (h : p.AddBlock m = .ok (q, e)) : q.requested = p.requested ∧ q.downloaded = p.downloaded := by
  rcases AddBlock_ok_cases p q m e h with ⟨rfl, _⟩ | ⟨_, _, _, _, _, rfl⟩
  · exact ⟨rfl, rfl⟩
  · exact ⟨rfl, rfl⟩

/-- Every iteration that goes on to the next one uses up a request or input. -/
theorem downloadPieceStep_next_decreases (pieceID : Nat) (tmeta : TorrentMetadata)
    (s t : LoopState) (h : downloadPieceStep pieceID tmeta s = .next t) :
    loopMeasure tmeta t < loopMeasure tmeta s := by
  have hsd := Conn.SetDeadline_input s.p.Con
  rcases hd : s.p.Con.SetDeadline with ⟨c, e⟩
  rw [hd] at hsd
  simp only at hsd
  have hsdl : c.input.length = s.p.Con.input.length := by rw [hsd]
  unfold downloadPieceStep at h
  simp only [hd] at h
  cases e with
  | some err => simp only [reduceCtorEq] at h
  | none =>
    simp only at h
    split at h
    · rename_i hcond
      split at h
      · simp only [reduceCtorEq] at h
      · simp only [reduceCtorEq] at h
      · rename_i p hsend
        have hin := Peer.SendMessage_input _ _ _ _ hsend
        simp only [StepResult.next.injEq] at h
        subst h
        simp only [loopMeasure, hin, hsd]
        omega
    · rcases hr : Peer.ReceiveMessage { s.p with Con := c } with ⟨p, msg, e⟩
      have hlen : p.Con.input.length ≤ c.input.length ∧
          (e = none → p.Con.input.length + 4 ≤ c.input.length) := by
        unfold Peer.ReceiveMessage at hr
        rcases hrm : Torrent.ReceiveMessage c with ⟨d, msg2, e2⟩
        simp only [hrm, Prod.mk.injEq] at hr
        obtain ⟨rfl, _, rfl⟩ := hr
        exact ReceiveMessage_length c d msg2 e2 hrm
      simp only [hr] at h
      cases e with
      | some err => simp only [reduceCtorEq] at h
      | none =>
        have hlen4 := hlen.2 rfl
        cases msg with
        | none =>
          simp only at h
          split at h <;> simp only [reduceCtorEq] at h
        | some m =>
          simp only at h
          split at h
          · split at h
            · simp only [reduceCtorEq] at h
            · simp only [reduceCtorEq] at h
            · split at h
              · simp only [reduceCtorEq] at h
              · simp only [reduceCtorEq] at h
              · rename_i pd hadd
                have hreq := (AddBlock_requested _ _ _ _ hadd).1
                simp only [StepResult.next.injEq] at h
                subst h
                simp only [loopMeasure, hreq]
                omega
          · split at h
            · simp only [StepResult.next.injEq] at h
              subst h
              simp only [loopMeasure]
              omega
            · split at h
              · simp only [StepResult.next.injEq] at h
                subst h
                simp only [loopMeasure]
                omega
              · simp only [StepResult.next.injEq] at h
                subst h
                simp only [loopMeasure]
                omega

theorem Serialize_not_fuel (m : Option Message) : Message.Serialize m ≠ .error .fuel := by
  unfold Message.Serialize
  split
  · simp
  · simp only
    split
    · simp
    · split <;> simp

theorem SendMessage_not_fuel (p : Peer) (m : Option Message) :
    p.SendMessage m ≠ .error .fuel := by
  unfold Peer.SendMessage
  split
  · rename_i f hf
    intro hcon
    simp only [Except.error.injEq] at hcon
    subst hcon
    exact Serialize_not_fuel m hf
  · simp

theorem AddBlock_not_fuel (p : pieceDownloadingInfo) (m : PieceMessage) :
    p.AddBlock m ≠ .error .fuel := by
  unfold pieceDownloadingInfo.AddBlock
  split
  · simp
  · split
    · simp
    · simp only
      split
      · simp
      · simp
      · split <;> simp

/-- No iteration ends in the panic that stands for exhausted fuel. -/
theorem downloadPieceStep_not_fuel (pieceID : Nat) (tmeta : TorrentMetadata)
    (s t : LoopState) : downloadPieceStep pieceID tmeta s ≠ .panic t .fuel := by
  intro h
  unfold downloadPieceStep at h
  split at h
  · simp only [reduceCtorEq] at h
  · simp only at h
    split at h
    · split at h
      · rename_i f hsend
        simp only [StepResult.panic.injEq] at h
        rw [h.2] at hsend
        exact SendMessage_not_fuel _ _ hsend
      · simp only [reduceCtorEq] at h
      · simp only [reduceCtorEq] at h
    · split at h
      · simp only [reduceCtorEq] at h
      · split at h
        · rename_i f hsend
          simp only [StepResult.panic.injEq] at h
          rw [h.2] at hsend
          exact SendMessage_not_fuel _ _ hsend
        · simp only [reduceCtorEq] at h
        · simp only [StepResult.panic.injEq, reduceCtorEq, and_false] at h
      · split at h
        · split at h
          · simp only [reduceCtorEq] at h
          · simp only [StepResult.panic.injEq, reduceCtorEq, and_false] at h
          · split at h
            · rename_i f hadd
              simp only [StepResult.panic.injEq] at h
              rw [h.2] at hadd
              exact AddBlock_not_fuel _ _ hadd
            · simp only [reduceCtorEq] at h
            · simp only [reduceCtorEq] at h
        · split at h
          · simp only [reduceCtorEq] at h
          · split at h <;> simp only [reduceCtorEq] at h

/-- The loop of `downloadPiece` ends within `loopMeasure + 1` iterations: with
that much fuel it never runs out. -/
theorem downloadPieceLoop_fuel (pieceID : Nat) (tmeta : TorrentMetadata) (fuel : Nat)
    (s : LoopState) (h : loopMeasure tmeta s < fuel) :
    downloadPieceLoop pieceID tmeta fuel s ≠ .error .fuel := by
  induction fuel generalizing s with
  | zero => omega
  | succ fuel ih =>
    unfold downloadPieceLoop
    split
    · cases hstep : downloadPieceStep pieceID tmeta s with
      | next t =>
        have := downloadPieceStep_next_decreases pieceID tmeta s t hstep
        simp only
        exact ih t (by omega)
      | ret t err => simp
      | panic t f =>
        simp only [ne_eq, Except.error.injEq]
        intro hf
        subst hf
        exact downloadPieceStep_not_fuel pieceID tmeta s t hstep
    · simp

/-- The function `downloadPiece` gives its loop enough fuel: it returns or
panics as the source does, and never runs out of steps. -/
theorem downloadPiece_total (sha1 : List Byte → List Byte) (pieceID : Nat) (p : Peer)
    (tmeta : TorrentMetadata) : downloadPiece sha1 pieceID p tmeta ≠ .error .fuel := by
  unfold downloadPiece
  split
  · simp
  · simp only
    have hfuel := downloadPieceLoop_fuel pieceID tmeta
      (u32OfInt tmeta.PieceLength / BlockSize + p.Con.input.length + 1)
      { p := p, pdInfo := NewPieceDownloadInfo pieceID (u32OfInt tmeta.PieceLength),
        backlog := 0 }
      (by simp only [loopMeasure, NewPieceDownloadInfo, BlockSize]; omega)
    split
    · rename_i f hloop
      intro hcon
      simp only [Except.error.injEq] at hcon
      subst hcon
      exact hfuel hloop
    · simp
    · split
      · simp
      · split
        · rename_i f hpiece
          unfold pieceDownloadingInfo.Piece at hpiece
          split at hpiece
          · simp only [Except.error.injEq] at hpiece
            subst hpiece
            simp
          · cases hpiece
        · split
          · simp
          · split <;> simp

/-- C2 (only verified pieces are published), evaluated at a peer that sends a
block of another piece: `AddBlock` rejects the block, `downloadPiece` returns
that error, which wraps neither `errNetwork` nor `errDownloading`, and
`communicateWithPeer` requeues the piece ID and then sends the nil piece on the
piece-result channel. -/
theorem C2_unclassified_error_publishes_nil (sha1 : List Byte → List Byte) :
    communicateWithPeer sha1 (some (Conn.ofInput rogueStream))
        { IP := [127, 0, 0, 1], Port := 6881 } rogueMeta [0] =
      .ok [.requeue 0, .publish none] := by
  rfl

/-! ### The writer -/

theorem writeAt_natCast (file b : List Byte) (off : Nat) :
    writeAt file b (off : Int) = (writeNat file off b, none) := by
  unfold writeAt writeNat
  have h : ¬ ((off : Int) < 0) := by omega
  rw [if_neg h]
  split <;> simp

theorem readAt_natCast (file : List Byte) (n off : Nat) :
    readAt file n (off : Int) = readNat file n off := by
  unfold readAt readNat
  have h : ¬ ((off : Int) < 0) := by omega
  rw [if_neg h]
  simp

/-- Inside the range of `int` the wrap does nothing. -/
theorem i64_of_range (x : Int) (h1 : -9223372036854775808 ≤ x) (h2 : x < 9223372036854775808) :
    i64 x = x := by
  unfold i64
  omega

theorem i64_natCast (n : Nat) (h : n < 9223372036854775808) : i64 (n : Int) = (n : Int) := by
  unfold i64
  omega

theorem length_writeNat (file b : List Byte) (off : Nat) (hb : b.length ≠ 0) :
    (writeNat file off b).length = max file.length (off + b.length) := by
  unfold writeNat
  rw [if_neg hb]
  simp only [List.length_append, List.length_take, List.length_replicate, List.length_drop]
  omega

theorem writeNat_eq (file b : List Byte) (off : Nat) (hb : b.length ≠ 0) :
    ∃ P S : List Byte, writeNat file off b = P ++ (b ++ S) ∧ P.length = off ∧
      (∀ k, k < off → k < file.length → P[k]? = file[k]?) ∧
      (∀ k, S[k]? = file[off + b.length + k]?) := by
  refine ⟨file.take off ++ List.replicate (off - file.length) 0, file.drop (off + b.length),
    ?_, ?_, ?_, ?_⟩
  · unfold writeNat
    rw [if_neg hb]
    simp only [List.append_assoc]
  · simp only [List.length_append, List.length_take, List.length_replicate]
    omega
  · intro k h1 h2
    rw [List.getElem?_append_left (by simp only [List.length_take]; omega),
      List.getElem?_take_of_lt h1]
  · intro k
    rw [List.getElem?_drop]

theorem getElem?_writeNat_inside (file b : List Byte) (off k : Nat) (hb : b.length ≠ 0)
    (h1 : off ≤ k) (h2 : k < off + b.length) :
    (writeNat file off b)[k]? = b[k - off]? := by
  obtain ⟨P, S, hw, hP, _, _⟩ := writeNat_eq file b off hb
  rw [hw, List.getElem?_append_right (by omega), hP,
    List.getElem?_append_left (by omega)]

theorem getElem?_writeNat_outside (file b : List Byte) (off k : Nat) (hb : b.length ≠ 0)
    (hk : k < file.length) (hout : k < off ∨ off + b.length ≤ k) :
    (writeNat file off b)[k]? = file[k]? := by
  obtain ⟨P, S, hw, hP, hPk, hS⟩ := writeNat_eq file b off hb
  rw [hw]
  rcases hout with h | h
  · rw [List.getElem?_append_left (by omega)]
    exact hPk k h hk
  · rw [List.getElem?_append_right (by omega), hP,
      List.getElem?_append_right (by omega), hS]
    congr 1
    omega

theorem readNat_eq_some (file d : List Byte) (n off : Nat) (hn : n ≠ 0) (hd : d.length = n)
    (hfit : off + n ≤ file.length) (hget : ∀ j, j < n → file[off + j]? = d[j]?) :
    readNat file n off = some d := by
  unfold readNat
  rw [if_neg hn, if_pos hfit]
  congr 1
  apply List.ext_getElem?
  intro j
  rw [List.getElem?_take, List.getElem?_drop]
  split
  · rename_i hj
    exact hget j hj
  · rename_i hj
    rw [List.getElem?_eq_none (by omega)]

theorem readNat_some_iff (file d : List Byte) (n off : Nat) (hn : n ≠ 0)
    (h : readNat file n off = some d) :
    d.length = n ∧ off + n ≤ file.length ∧ ∀ j, j < n → file[off + j]? = d[j]? := by
  unfold readNat at h
  rw [if_neg hn] at h
  split at h
  · rename_i hfit
    simp only [Option.some.injEq] at h
    subst h
    refine ⟨by simp only [List.length_take, List.length_drop]; omega, hfit, ?_⟩
    intro j hj
    rw [List.getElem?_take, List.getElem?_drop, if_pos hj]
  · cases h

/-- A write is read back. -/
theorem readNat_writeNat_same (file b : List Byte) (off : Nat) (hb : b.length ≠ 0) :
    readNat (writeNat file off b) b.length off = some b := by
  apply readNat_eq_some _ _ _ _ hb rfl
  · rw [length_writeNat _ _ _ hb]
    omega
  · intro j hj
    rw [getElem?_writeNat_inside _ _ _ _ hb (by omega) (by omega)]
    congr 1
    omega

/-- A write leaves what is read from a disjoint range as it was. -/
theorem readNat_writeNat_disjoint (file b d : List Byte) (off n a : Nat)
    (h : readNat file n a = some d) (hdis : a + n ≤ off ∨ off + b.length ≤ a) :
    readNat (writeNat file off b) n a = some d := by
  by_cases hb : b.length = 0
  · unfold writeNat
    rw [if_pos hb]
    exact h
  · by_cases hn : n = 0
    · subst hn
      unfold readNat at h ⊢
      simpa using h
    · obtain ⟨hd, hfit, hget⟩ := readNat_some_iff file d n a hn h
      apply readNat_eq_some _ _ _ _ hn hd
      · rw [length_writeNat _ _ _ hb]
        omega
      · intro j hj
        rw [getElem?_writeNat_outside _ _ _ _ hb (by omega) (by omega)]
        exact hget j hj

theorem sum_spanNat_range (pl len k : Nat) :
    ((List.range k).map (spanNat pl len)).sum = min (k * pl) len := by
  induction k with
  | zero => simp
  | succ k ih =>
    rw [List.range_succ, List.map_append, List.sum_append, ih]
    simp only [List.map_cons, List.map_nil, List.sum_cons, List.sum_nil, spanNat]
    have : (k + 1) * pl = k * pl + pl := by ring
    rw [this]
    omega

/-- Distinct pieces among the first `N` whose lengths add up to the whole file
are all the `N` pieces. -/
theorem ids_cover_of_sum (pl len N : Nat) (ids : List Nat)
    (hcover : len ≤ N * pl) (hpos : ∀ i, i < N → 0 < spanNat pl len i)
    (hlt : ∀ i ∈ ids, i < N) (hnd : ids.Nodup)
    (hsum : (ids.map (spanNat pl len)).sum = len) :
    ∀ i, i < N → i ∈ ids := by
  intro i hi
  by_contra hni
  have htotal : ((List.range N).map (spanNat pl len)).sum = len := by
    rw [sum_spanNat_range]
    omega
  have h1 : (ids.map (spanNat pl len)).sum = ∑ j ∈ ids.toFinset, spanNat pl len j :=
    (List.sum_toFinset _ hnd).symm
  have h2 : ((List.range N).map (spanNat pl len)).sum = ∑ j ∈ Finset.range N, spanNat pl len j := by
    rw [← List.sum_toFinset _ (List.nodup_range N)]
    congr 1
    ext x
    simp
  have hsub : ids.toFinset ⊆ Finset.range N := by
    intro x hx
    simp only [List.mem_toFinset] at hx
    simpa using hlt x hx
  have hlt2 : ∑ j ∈ ids.toFinset, spanNat pl len j < ∑ j ∈ Finset.range N, spanNat pl len j :=
    Finset.sum_lt_sum_of_subset hsub (Finset.mem_range.mpr hi)
      (by simpa using hni) (hpos i hi) (fun j _ _ => Nat.zero_le _)
  omega

theorem writerLoop_append (s : WriterState) (xs : List (Option Piece)) (x : Option Piece) :
    writerLoop s (xs ++ [x]) =
      match writerLoop s xs with
      | .error f => .error f
      | .ok s2 => writerStep s2 x := by
  induction xs generalizing s with
  | nil =>
    simp only [List.nil_append, writerLoop]
    cases writerStep s x <;> rfl
  | cons y ys ih =>
    simp only [List.cons_append, writerLoop]
    cases writerStep s y with
    | error f => rfl
    | ok s2 => exact ih s2

theorem spanNat_le (pl len i : Nat) : spanNat pl len i ≤ pl := by
  unfold spanNat
  omega

theorem span_disjoint (pl len i j : Nat) (hij : i ≠ j) :
    i * pl + spanNat pl len i ≤ j * pl ∨ j * pl + spanNat pl len j ≤ i * pl := by
  have hi := spanNat_le pl len i
  have hj := spanNat_le pl len j
  rcases Nat.lt_or_gt_of_ne hij with h | h
  · left
    have : (i + 1) * pl ≤ j * pl := Nat.mul_le_mul_right pl h
    have h2 : (i + 1) * pl = i * pl + pl := by ring
    omega
  · right
    have : (j + 1) * pl ≤ i * pl := Nat.mul_le_mul_right pl h
    have h2 : (j + 1) * pl = j * pl + pl := by ring
    omega

/-- Distinct pieces of a file have no more bytes than the file. -/
theorem sum_spanNat_le (pl len : Nat) (ids : List Nat) (hnd : ids.Nodup) :
    (ids.map (spanNat pl len)).sum ≤ len := by
  have h1 : (ids.map (spanNat pl len)).sum = ∑ j ∈ ids.toFinset, spanNat pl len j :=
    (List.sum_toFinset _ hnd).symm
  have h2 : ((List.range (ids.toFinset.sup id + 1)).map (spanNat pl len)).sum =
      ∑ j ∈ Finset.range (ids.toFinset.sup id + 1), spanNat pl len j := by
    rw [← List.sum_toFinset _ (List.nodup_range _)]
    congr 1
    ext x
    simp
  have hsub : ids.toFinset ⊆ Finset.range (ids.toFinset.sup id + 1) := by
    intro x hx
    exact Finset.mem_range.mpr (Nat.lt_succ_of_le (Finset.le_sup (f := id) hx))
  have h3 := Finset.sum_le_sum_of_subset (f := spanNat pl len) hsub
  rw [sum_spanNat_range] at h2
  omega

theorem writerStep_ok (tm : TorrentMetadata) (pl len : Nat) (ps : List Piece) (p : Piece)
    (st : WriterState) (hpl : tm.PieceLength = (pl : Int))
    (hinv : WriterInv tm pl ps st) (hnot : st.info.isDone = false)
    (hne : p.Data.length ≠ 0)
    (hspan : ∀ q ∈ ps ++ [p], q.Data.length = spanNat pl len q.ID)
    (hnd : ∀ q ∈ ps, q.ID ≠ p.ID)
    (hlen : tm.Length = (len : Int)) (hin : p.ID * pl < len)
    (hoffB : p.ID * pl < 9223372036854775808)
    (hsumB : (ps.map (fun p => p.Data.length)).sum + p.Data.length < 9223372036854775808) :
    ∃ st2, writerStep st (some p) = .ok st2 ∧ WriterInv tm pl (ps ++ [p]) st2 := by
  obtain ⟨h1, h2, h3, h4, h5, _, h7, h6⟩ := hinv
  have hfile : ((writeNat st.tdata.File (p.ID * pl) p.Data).length : Int) ≤ max tm.Length 0 := by
    rw [length_writeNat _ _ _ hne, hspan p (by simp), hlen]
    rw [hlen] at h7
    unfold spanNat
    omega
  have hoff : i64 ((p.ID : Int) * st.tdata.TorrentMetadata.PieceLength) =
      ((p.ID * pl : Nat) : Int) := by
    rw [h1, hpl, ← Nat.cast_mul]
    exact i64_natCast _ hoffB
  have hdl : i64 ((((ps.map (fun p => p.Data.length)).sum : Nat) : Int) + (p.Data.length : Int)) =
      (((ps.map (fun p => p.Data.length)).sum : Nat) : Int) + (p.Data.length : Int) := by
    rw [← Nat.cast_add]
    exact i64_natCast _ hsumB
  have hclosed : st.closed = false := by rw [h5, hnot]
  have hsum : (((ps ++ [p]).map (fun p => p.Data.length)).sum : Nat) =
      (ps.map (fun p => p.Data.length)).sum + p.Data.length := by
    simp
  have hreads : ∀ q ∈ ps ++ [p],
      readNat (writeNat st.tdata.File (p.ID * pl) p.Data) q.Data.length (q.ID * pl) =
        some q.Data := by
    intro q hq
    rcases List.mem_append.mp hq with hq | hq
    · apply readNat_writeNat_disjoint _ _ _ _ _ _ (h6 q hq)
      rw [hspan q (List.mem_append_left _ hq), hspan p (by simp)]
      exact span_disjoint pl len q.ID p.ID (hnd q hq)
    · simp only [List.mem_singleton] at hq
      subst hq
      exact readNat_writeNat_same _ _ _ hne
  unfold writerStep
  simp only [TorrentData.WritePiece, hoff, writeAt_natCast, downloadingInfo.PieceDownloaded,
    hclosed, h3, h2, hnot, hdl]
  by_cases hd : (((ps.map (fun p => p.Data.length)).sum : Nat) : Int) + (p.Data.length : Int) =
      tm.Length
  · simp only [hd, ↓reduceIte, Bool.false_eq_true]
    refine ⟨_, rfl, h1, rfl, ?_, ?_, rfl, fun _ _ => rfl, hfile, hreads⟩
    · rw [hsum, Nat.cast_add]
      exact hd.symm
    · intro _
      rw [hsum, Nat.cast_add]
      exact hd
  · simp only [hd, ↓reduceIte, Bool.false_eq_true]
    refine ⟨_, rfl, h1, rfl, ?_, ?_, rfl, ?_, hfile, hreads⟩
    · rw [hsum, Nat.cast_add]
    · intro hcon
      cases hcon
    · intro _ hcon
      rw [hsum, Nat.cast_add] at hcon
      exact absurd hcon hd

theorem map_length_eq_span (pl len : Nat) (ps : List Piece)
    (hspan : ∀ p ∈ ps, p.Data.length = spanNat pl len p.ID) :
    ps.map (fun p => p.Data.length) = (ps.map Piece.ID).map (spanNat pl len) := by
  rw [List.map_map]
  apply List.map_congr_left
  intro p hp
  exact hspan p hp

/-- The writer consumes any sequence of distinct pieces of the right lengths
without fault and keeps each of them readable at its offset. -/
theorem writerLoop_run (tm : TorrentMetadata) (pl len N : Nat)
    (hpl : tm.PieceLength = (pl : Int)) (hlen : tm.Length = (len : Int))
    (hlenB : len < 9223372036854775808)
    (hcover : len ≤ N * pl) (hpos : ∀ i, i < N → 0 < spanNat pl len i) (ps : List Piece)
    (hlt : ∀ p ∈ ps, p.ID < N) (hnd : (ps.map Piece.ID).Nodup)
    (hspan : ∀ p ∈ ps, p.Data.length = spanNat pl len p.ID) :
    ∃ st, writerLoop (WriterState.initial tm) (ps.map some) = .ok st ∧ WriterInv tm pl ps st := by
  induction ps using List.reverseRecOn with
  | nil =>
    refine ⟨_, rfl, rfl, rfl, ?_, ?_, rfl, ?_, ?_, ?_⟩
    · simp [WriterState.initial]
    · intro h
      simp [WriterState.initial] at h
    · intro h
      exact absurd rfl h
    · simp [WriterState.initial]
    · intro p hp
      simp at hp
  | append_singleton ps p ih =>
    have hlt1 : ∀ q ∈ ps, q.ID < N := fun q hq => hlt q (List.mem_append_left _ hq)
    have hspan1 : ∀ q ∈ ps, q.Data.length = spanNat pl len q.ID :=
      fun q hq => hspan q (List.mem_append_left _ hq)
    have hsumB : (ps.map (fun p => p.Data.length)).sum + p.Data.length <
        9223372036854775808 := by
      have h1 := sum_spanNat_le pl len _ hnd
      rw [← map_length_eq_span pl len _ hspan] at h1
      simp only [List.map_append, List.map_cons, List.map_nil, List.sum_append, List.sum_cons,
        List.sum_nil] at h1
      omega
    rw [List.map_append, List.map_cons, List.map_nil] at hnd
    have hnd1 : (ps.map Piece.ID).Nodup := (List.nodup_append.mp hnd).1
    have hnotin : p.ID ∉ ps.map Piece.ID := by
      intro hin
      exact (List.nodup_append.mp hnd).2.2 hin (by simp)
    obtain ⟨st, hrun, hinv⟩ := ih hlt1 hnd1 hspan1
    have hpN : p.ID < N := hlt p (by simp)
    have hnot : st.info.isDone = false := by
      cases hdone : st.info.isDone with
      | false => rfl
      | true =>
        exfalso
        have hsum := hinv.2.2.2.1 hdone
        rw [hlen] at hsum
        have hsum2 : (ps.map (fun p => p.Data.length)).sum = len := by exact_mod_cast hsum
        rw [map_length_eq_span pl len ps hspan1] at hsum2
        have hall := ids_cover_of_sum pl len N (ps.map Piece.ID) hcover hpos
          (by
            intro i hi
            obtain ⟨q, hq, rfl⟩ := List.mem_map.mp hi
            exact hlt1 q hq) hnd1 hsum2
        exact hnotin (hall p.ID hpN)
    have hne : p.Data.length ≠ 0 := by
      rw [hspan p (by simp)]
      exact Nat.pos_iff_ne_zero.mp (hpos p.ID hpN)
    have hdiff : ∀ q ∈ ps, q.ID ≠ p.ID := by
      intro q hq heq
      exact hnotin (heq ▸ List.mem_map_of_mem _ hq)
    have hin : p.ID * pl < len := by
      have := hpos p.ID hpN
      unfold spanNat at this
      omega
    obtain ⟨st2, hstep, hinv2⟩ :=
      writerStep_ok tm pl len ps p st hpl hinv hnot hne hspan hdiff hlen hin (by omega) hsumB
    refine ⟨st2, ?_, hinv2⟩
    rw [List.map_append, List.map_cons, List.map_nil, writerLoop_append, hrun]
    exact hstep

theorem ceil_facts (pl len N : Nat) (hpl : 0 < pl) (hN : N = (len + pl - 1) / pl) :
    len ≤ N * pl ∧ ∀ i, i < N → i * pl < len := by
  have h1 := Nat.div_add_mod (len + pl - 1) pl
  have h2 := Nat.mod_lt (len + pl - 1) hpl
  rw [← hN] at h1
  have h3 : N * pl = pl * N := Nat.mul_comm _ _
  refine ⟨by omega, ?_⟩
  intro i hi
  have h4 : (i + 1) * pl ≤ N * pl := Nat.mul_le_mul_right pl hi
  have h5 : (i + 1) * pl = i * pl + pl := by ring
  omega

theorem u32OfInt_natCast (i : Nat) (h : i < 4294967296) : u32OfInt (i : Int) = i := by
  unfold u32OfInt
  omega

/-- Inside the range of `int` the boundaries of a piece are the exact ones. -/
theorem calcPieceBoundaries_exact (tm : TorrentMetadata) (pl len i : Nat)
    (hpl : tm.PieceLength = (pl : Int)) (hlen : tm.Length = (len : Int))
    (hB : i * pl + pl < 9223372036854775808) :
    calcPieceBoundaries i tm =
      (((i * pl : Nat) : Int), min ((i * pl + pl : Nat) : Int) (len : Int)) := by
  have hx : ((i : Int) * (pl : Int)) = ((i * pl : Nat) : Int) := by push_cast; rfl
  have h1 : i64 ((i * pl : Nat) : Int) = ((i * pl : Nat) : Int) := i64_natCast _ (by omega)
  have h2 : i64 (((i * pl : Nat) : Int) + (pl : Int)) = ((i * pl + pl : Nat) : Int) := by
    rw [← Nat.cast_add]
    exact i64_natCast _ hB
  simp only [calcPieceBoundaries, hpl, hlen, hx, h1, h2]

/-- Inside the range of `int`, `Piece` reads the span of the piece at its offset. -/
theorem Piece_eq_readNat (td : TorrentData) (pl len i : Nat)
    (hpl : td.TorrentMetadata.PieceLength = (pl : Int))
    (hlen : td.TorrentMetadata.Length = (len : Int))
    (hi : i < 4294967296) (hin : i * pl ≤ len) (hB : i * pl + pl < 9223372036854775808) :
    td.Piece i =
      match readNat td.File (spanNat pl len i) (i * pl) with
      | none => .ok (none, some .io)
      | some piece => .ok (some piece, none) := by
  have hspan : i64 (min ((i * pl + pl : Nat) : Int) (len : Int) - ((i * pl : Nat) : Int)) =
      ((spanNat pl len i : Nat) : Int) := by
    rw [i64_of_range _ (by omega) (by omega)]
    unfold spanNat
    omega
  unfold TorrentData.Piece
  simp only [u32OfInt_natCast i hi, calcPieceBoundaries_exact td.TorrentMetadata pl len i hpl hlen hB,
    hspan]
  have hnn : ¬ (((spanNat pl len i : Nat) : Int) < 0) := by omega
  rw [if_neg hnn, Int.toNat_ofNat, readAt_natCast]

theorem Piece_of_readNat (td : TorrentData) (pl len i : Nat) (d : List Byte)
    (hpl : td.TorrentMetadata.PieceLength = (pl : Int))
    (hlen : td.TorrentMetadata.Length = (len : Int))
    (hi : i < 4294967296) (hin : i * pl < len) (hB : i * pl + pl < 9223372036854775808)
    (hread : readNat td.File (spanNat pl len i) (i * pl) = some d) :
    td.Piece i = .ok (some d, none) := by
  rw [Piece_eq_readNat td pl len i hpl hlen hi (by omega) hB, hread]

/-- When the end of a piece leaves the range of `int`, `Piece` asks for a whole
piece length at the offset of the piece, which a file of no more than `Length`
bytes does not hold: the read fails. -/
theorem Piece_end_wraps (td : TorrentData) (pl len i : Nat)
    (hpl : td.TorrentMetadata.PieceLength = (pl : Int))
    (hlen : td.TorrentMetadata.Length = (len : Int))
    (hi : i < 4294967296) (hplpos : 0 < pl) (hin : i * pl < len)
    (hlenB : len < 9223372036854775808) (hplB : pl < 9223372036854775808)
    (hwrap : 9223372036854775808 ≤ i * pl + pl) (hfile : td.File.length ≤ len) :
    td.Piece i = .ok (none, some .io) := by
  have hx : ((i : Int) * (pl : Int)) = ((i * pl : Nat) : Int) := by push_cast; rfl
  have h1 : i64 ((i * pl : Nat) : Int) = ((i * pl : Nat) : Int) := i64_natCast _ (by omega)
  have h2 : i64 (((i * pl : Nat) : Int) + (pl : Int)) =
      ((i * pl : Nat) : Int) + (pl : Int) - 18446744073709551616 := by
    unfold i64
    omega
  have hmin : min (((i * pl : Nat) : Int) + (pl : Int) - 18446744073709551616) (len : Int) =
      ((i * pl : Nat) : Int) + (pl : Int) - 18446744073709551616 := by omega
  have h3 : i64 (((i * pl : Nat) : Int) + (pl : Int) - 18446744073709551616 -
      ((i * pl : Nat) : Int)) = (pl : Int) := by
    unfold i64
    omega
  unfold TorrentData.Piece
  simp only [u32OfInt_natCast i hi, calcPieceBoundaries, hpl, hlen, hx, h1, h2, hmin, h3]
  have hnn : ¬ ((pl : Int) < 0) := by omega
  rw [if_neg hnn, Int.toNat_ofNat, readAt_natCast]
  unfold readNat
  rw [if_neg (by omega), if_neg (by omega)]

/-- The writer consumes the pieces `0 .. N - 1` of a file, each once, sets
`isDone`, and leaves a file of no more than `Length` bytes. -/
theorem writerLoop_all_pieces (tm : TorrentMetadata) (pl len N : Nat) (f : Nat → Piece)
    (hpl : tm.PieceLength = (pl : Int)) (hlen : tm.Length = (len : Int))
    (hplpos : 0 < pl) (hlenB : len < 9223372036854775808)
    (hN : N = (len + pl - 1) / pl) (hNpos : 0 < N)
    (hid : ∀ i, (f i).ID = i) (hdata : ∀ i, (f i).Data.length = spanNat pl len i) :
    ∃ st, writerLoop (WriterState.initial tm) (((List.range N).map f).map some) = .ok st ∧
      st.info.isDone = true ∧ st.tdata.File.length ≤ len ∧ st.tdata.TorrentMetadata = tm := by
  obtain ⟨hcover, hin⟩ := ceil_facts pl len N hplpos hN
  have hpos : ∀ i, i < N → 0 < spanNat pl len i := by
    intro i hi
    have := hin i hi
    unfold spanNat
    omega
  have hids : ((List.range N).map f).map Piece.ID = List.range N := by
    rw [List.map_map]
    conv_rhs => rw [← List.map_id (List.range N)]
    apply List.map_congr_left
    intro i _
    exact hid i
  have hlt : ∀ p ∈ (List.range N).map f, p.ID < N := by
    intro p hp
    obtain ⟨i, hi, rfl⟩ := List.mem_map.mp hp
    rw [hid i]
    exact List.mem_range.mp hi
  have hspan : ∀ p ∈ (List.range N).map f, p.Data.length = spanNat pl len p.ID := by
    intro p hp
    obtain ⟨i, _, rfl⟩ := List.mem_map.mp hp
    rw [hid i]
    exact hdata i
  obtain ⟨st, hrun, hinv⟩ := writerLoop_run tm pl len N hpl hlen hlenB hcover hpos
    ((List.range N).map f) hlt (by rw [hids]; exact List.nodup_range N) hspan
  obtain ⟨h1, _, _, _, _, h6, h7, _⟩ := hinv
  refine ⟨st, hrun, ?_, ?_, h1⟩
  · apply h6
    · intro hnil
      have := congrArg List.length hnil
      rw [List.length_map, List.length_range] at this
      simp only [List.length_nil] at this
      omega
    · rw [map_length_eq_span pl len _ hspan, hids, sum_spanNat_range, hlen]
      have : min (N * pl) len = len := by omega
      rw [this]
  · rw [hlen] at h7
    omega

theorem piecesMeta_PieceHashes (sha1 : List Byte → List Byte) (f : Nat → Piece) (n : Nat)
    (pl len : Int) :
    (piecesMeta sha1 f n pl len).PieceHashes = (List.range n).map (fun i => sha1 (f i).Data) :=
  rfl

theorem piecesMeta_PieceLength (sha1 : List Byte → List Byte) (f : Nat → Piece) (n : Nat)
    (pl len : Int) : (piecesMeta sha1 f n pl len).PieceLength = pl := rfl

theorem piecesMeta_Length (sha1 : List Byte → List Byte) (f : Nat → Piece) (n : Nat)
    (pl len : Int) : (piecesMeta sha1 f n pl len).Length = len := rfl

/-- C1 as stated fails where the end of a piece leaves the range of `int`: for
the file of `2 ^ 63 - 1` bytes in `2 ^ 32` pieces of `2 ^ 31` bytes, the pieces
`0 .. 2 ^ 32 - 1`, each delivered once with the bytes of its range, are verified
pieces; the writer consumes them and sets `isDone`; and reading the last piece
back fails, because `begin + PieceLength = 2 ^ 63` wraps to `-2 ^ 63` in
`calcPieceBoundaries` and `Piece` asks for `2 ^ 31` bytes where the file holds
`2 ^ 31 - 1`. -/
theorem C1_counterexample :
    (∀ sha1 : List Byte → List Byte,
      (((farMeta sha1).PieceHashes.length : Int) =
        ((farMeta sha1).Length + (farMeta sha1).PieceLength - 1) / (farMeta sha1).PieceLength) ∧
      ∀ p ∈ (List.range 4294967296).map farPiece,
        (farMeta sha1).PieceHashes[p.ID]? = some (sha1 p.Data)) ∧
    ((List.range 4294967296).map farPiece).map Piece.ID = List.range 4294967296 ∧
    (∀ sha1 : List Byte → List Byte,
      calcPieceBoundaries 4294967295 (farMeta sha1) =
        (9223372034707292160, -9223372036854775808)) ∧
    (∀ sha1 : List Byte → List Byte,
      ∃ st, writerLoop (WriterState.initial (farMeta sha1))
          (((List.range 4294967296).map farPiece).map some) = .ok st ∧
        st.info.isDone = true ∧
        st.tdata.Piece 4294967295 = .ok (none, some .io)) := by
  refine ⟨fun sha1 => ⟨?_, ?_⟩, ?_, fun sha1 => ?_, fun sha1 => ?_⟩
  · unfold farMeta
    rw [piecesMeta_PieceHashes, piecesMeta_PieceLength, piecesMeta_Length, List.length_map,
      List.length_range]
    decide
  · intro p hp
    obtain ⟨i, hi, rfl⟩ := List.mem_map.mp hp
    unfold farMeta
    have hid : (farPiece i).ID = i := rfl
    rw [piecesMeta_PieceHashes, List.getElem?_map, hid,
      List.getElem?_range (List.mem_range.mp hi)]
    rfl
  · rw [List.map_map]
    conv_rhs => rw [← List.map_id (List.range 4294967296)]
    apply List.map_congr_left
    intro i _
    rfl
  · rfl
  · obtain ⟨st, hrun, hdone, hfile, htm⟩ := writerLoop_all_pieces (farMeta sha1) 2147483648
      9223372036854775807 4294967296 farPiece (piecesMeta_PieceLength _ _ _ _ _)
      (piecesMeta_Length _ _ _ _ _) (by decide) (by decide) (by decide)
      (by decide) (fun _ => rfl) (fun i => List.length_replicate _ _)
    refine ⟨st, hrun, hdone, ?_⟩
    exact Piece_end_wraps st.tdata 2147483648 9223372036854775807 4294967295
      (by rw [htm]; exact piecesMeta_PieceLength _ _ _ _ _)
      (by rw [htm]; exact piecesMeta_Length _ _ _ _ _) (by decide) (by decide) (by decide)
      (by decide) (by decide) (by decide) hfile

/-- C1 (writer completion), amended: for a descriptor with a positive piece
length, a non-negative length, `Length + PieceLength` at most `2 ^ 63` (no
boundary of a piece leaves the range of `int`) and `ceil(Length / PieceLength)`
piece hashes (at most `2 ^ 32`), the writer consumes without fault every
sequence of verified pieces that have pairwise distinct IDs and the lengths
`calcPieceBoundaries` gives them; and once `isDone` is set, every piece of the
table is read back from the file by `Piece` and hashes to its entry of
`PieceHashes`. -/
theorem C1_writer_completion (sha1 : List Byte → List Byte) (tm : TorrentMetadata)
    (ps : List Piece) (hPL : 0 < tm.PieceLength) (hLen : 0 ≤ tm.Length)
    (hB : tm.Length + tm.PieceLength ≤ 9223372036854775808)
    (hN : (tm.PieceHashes.length : Int) = (tm.Length + tm.PieceLength - 1) / tm.PieceLength)
    (hN32 : tm.PieceHashes.length ≤ 4294967296)
    (hver : ∀ p ∈ ps, tm.PieceHashes[p.ID]? = some (sha1 p.Data))
    (hdist : (ps.map Piece.ID).Nodup)
    (hspan : ∀ p ∈ ps, (p.Data.length : Int) =
      (calcPieceBoundaries p.ID tm).2 - (calcPieceBoundaries p.ID tm).1) :
    ∃ st, writerLoop (WriterState.initial tm) (ps.map some) = .ok st ∧
      (st.info.isDone = true → ∀ i : Nat, i < tm.PieceHashes.length →
        ∃ d, st.tdata.Piece i = .ok (some d, none) ∧ tm.PieceHashes[i]? = some (sha1 d)) := by
  obtain ⟨pl, hpl⟩ := Int.eq_ofNat_of_zero_le (le_of_lt hPL)
  obtain ⟨len, hlen⟩ := Int.eq_ofNat_of_zero_le hLen
  have hplpos : 0 < pl := by omega
  have hNnat : tm.PieceHashes.length = (len + pl - 1) / pl := by
    have h1 : tm.Length + tm.PieceLength - 1 = ((len + pl - 1 : Nat) : Int) := by
      rw [hpl, hlen]
      omega
    rw [h1, hpl] at hN
    exact_mod_cast hN
  obtain ⟨hcover, hin⟩ := ceil_facts pl len _ hplpos hNnat
  have hpos : ∀ i, i < tm.PieceHashes.length → 0 < spanNat pl len i := by
    intro i hi
    have := hin i hi
    unfold spanNat
    omega
  have hlt : ∀ p ∈ ps, p.ID < tm.PieceHashes.length := by
    intro p hp
    by_contra hcon
    have := hver p hp
    rw [List.getElem?_eq_none (by omega)] at this
    cases this
  have hspanNat : ∀ p ∈ ps, p.Data.length = spanNat pl len p.ID := by
    intro p hp
    have h1 := hspan p hp
    have h2 := hin p.ID (hlt p hp)
    rw [calcPieceBoundaries_exact tm pl len p.ID hpl hlen (by omega)] at h1
    unfold spanNat
    omega
  obtain ⟨st, hrun, hinv⟩ :=
    writerLoop_run tm pl len _ hpl hlen (by omega) hcover hpos ps hlt hdist hspanNat
  refine ⟨st, hrun, ?_⟩
  intro hdone i hi
  obtain ⟨h1, _, _, h4, _, _, _, h6⟩ := hinv
  have hsum := h4 hdone
  rw [hlen] at hsum
  have hsum2 : (ps.map (fun p => p.Data.length)).sum = len := by exact_mod_cast hsum
  rw [map_length_eq_span pl len ps hspanNat] at hsum2
  have hall := ids_cover_of_sum pl len _ (ps.map Piece.ID) hcover hpos
    (by
      intro j hj
      obtain ⟨q, hq, rfl⟩ := List.mem_map.mp hj
      exact hlt q hq) hdist hsum2
  obtain ⟨p, hp, hpid⟩ := List.mem_map.mp (hall i hi)
  refine ⟨p.Data, ?_, ?_⟩
  · apply Piece_of_readNat st.tdata pl len i p.Data (by rw [h1]; exact hpl)
      (by rw [h1]; exact hlen) (by omega) (hin i hi) (by have := hin i hi; omega)
    rw [← hpid, ← hspanNat p hp]
    exact h6 p hp
  · rw [← hpid]
    exact hver p hp

theorem C1_writer_completion_witness :
    ∃ st, writerLoop (WriterState.initial (twoPieceMeta id))
        [some { ID := 1, Data := [8] }, some { ID := 0, Data := [7] }] = .ok st ∧
      st.info.isDone = true ∧
      ∀ i : Nat, i < 2 →
        ∃ d, st.tdata.Piece i = .ok (some d, none) ∧
          (twoPieceMeta id).PieceHashes[i]? = some (id d) := by
  obtain ⟨st, hrun, h⟩ := C1_writer_completion id (twoPieceMeta id)
    [{ ID := 1, Data := [8] }, { ID := 0, Data := [7] }]
    (by decide) (by decide) (by decide) (by decide) (by decide) (by decide) (by decide)
    (by decide)
  have hdone : st.info.isDone = true := by
    have hval : writerLoop (WriterState.initial (twoPieceMeta id))
        ([({ ID := 1, Data := [8] } : Piece), { ID := 0, Data := [7] }].map some) =
        .ok { tdata := { File := [7, 8], TorrentMetadata := twoPieceMeta id }
              info := { downloaded := 2, isDone := true, TorrentMetadata := twoPieceMeta id }
              closed := true } := rfl
    rw [hval] at hrun
    rw [← Except.ok.inj hrun]
  exact ⟨st, hrun, hdone, h hdone⟩

/-! ### The handshake round trip -/

/-- The serialized handshake of `NewHandshake`, byte by byte. -/
theorem NewHandshake_Serialize (ih pid : List Byte) (hih : ih.length = 20)
    (hpid : pid.length = 20) :
    (NewHandshake ih pid).Serialize =
      19 :: protocolString ++ List.replicate 8 0 ++ ih ++ pid := by
  simp [Handshake.Serialize, NewHandshake, copyAt, copyCount, hih, hpid, protocolString,
    List.take_of_length_le, List.drop_of_length_le]

/-- C11 (handshake round trip): `ReadHandshake` applied to the bytes of
`NewHandshake(ih, pid).Serialize()` returns no error, the handshake
`NewHandshake(ih, pid)` itself, and leaves nothing of the stream unread. -/
theorem C11_handshake_round_trip (ih pid : List Byte) (hih : ih.length = 20)
    (hpid : pid.length = 20) :
    ReadHandshake (NewHandshake ih pid).Serialize = (NewHandshake ih pid, none, []) := by
  rw [NewHandshake_Serialize ih pid hih hpid]
  have hlen : (19 :: protocolString ++ List.replicate 8 0 ++ ih ++ pid).length = 68 := by
    simp [protocolString, hih, hpid]
  have h0 : (19 :: protocolString ++ List.replicate 8 0 ++ ih ++ pid)[0]? = some 19 := by simp
  have h1 : ((19 :: protocolString ++ List.replicate 8 0 ++ ih ++ pid).drop 1).take 19 =
      protocolString := by simp [protocolString]
  have h2 : ((19 :: protocolString ++ List.replicate 8 0 ++ ih ++ pid).drop 28).take 20 = ih := by
    simp [protocolString, List.take_append_of_le_length, hih, List.take_of_length_le]
  have h3 : ((19 :: protocolString ++ List.replicate 8 0 ++ ih ++ pid).drop 48).take 20 = pid := by
    simp [protocolString, List.drop_append_of_le_length, hih, hpid, List.take_of_length_le,
      List.drop_of_length_le]
  have h4 : (19 :: protocolString ++ List.replicate 8 0 ++ ih ++ pid).drop 68 = [] :=
    List.drop_of_length_le (by omega)
  rw [ReadHandshake_long _ (by omega), if_neg (not_not.mpr h0), if_neg (not_not.mpr h1),
    h1, h2, h3, h4]
  rfl

theorem C11_handshake_round_trip_witness :
    ReadHandshake (NewHandshake (List.replicate 20 0)
        [1, 2, 3, 4, 5, 6, 7, 8, 9, 10, 11, 12, 13, 14, 15, 16, 17, 18, 19, 20]).Serialize =
      (NewHandshake (List.replicate 20 0)
        [1, 2, 3, 4, 5, 6, 7, 8, 9, 10, 11, 12, 13, 14, 15, 16, 17, 18, 19, 20], none, []) :=
  C11_handshake_round_trip _ _ (by decide) (by decide)

/-! ### The download loop -/

/-- C17 (peer lacks piece): when the bitfield of the peer does not have the
piece, `downloadPiece` returns at once with no piece, an error that wraps
`errDownloading`, and the peer as it was (nothing sent, nothing received, the
choking flag untouched); `communicateWithPeer` requeues the piece ID, publishes
nothing for it and goes on with the next draw on the same peer. -/
theorem C17_peer_lacks_piece (sha1 : List Byte → List Byte) (pieceID : Nat) (p : Peer)
    (tmeta : TorrentMetadata) (draws : List Nat)
    (h : Bitfield.HavePiece p.Bitfield pieceID = false) :
    downloadPiece sha1 pieceID p tmeta = .ok (p, none, some (.wrap .downloading)) ∧
    (Error.wrap .downloading).Is .downloading = true ∧
    communicateWithPeerLoop sha1 tmeta (pieceID :: draws) p =
      (communicateWithPeerLoop sha1 tmeta draws p).map (fun evs => .requeue pieceID :: evs) := by
  have hd : downloadPiece sha1 pieceID p tmeta = .ok (p, none, some (.wrap .downloading)) := by
    unfold downloadPiece
    rw [if_pos h]
  refine ⟨hd, rfl, ?_⟩
  rw [communicateWithPeerLoop, hd]
  rfl

theorem C17_peer_lacks_piece_witness :
    downloadPiece id 9 (peerSending [1, 2, 3]) rogueMeta =
      .ok (peerSending [1, 2, 3], none, some (.wrap .downloading)) ∧
    (Error.wrap .downloading).Is .downloading = true ∧
    communicateWithPeerLoop id rogueMeta [9] (peerSending [1, 2, 3]) =
      (communicateWithPeerLoop id rogueMeta [] (peerSending [1, 2, 3])).map
        (fun evs => .requeue 9 :: evs) :=
  C17_peer_lacks_piece id 9 (peerSending [1, 2, 3]) rogueMeta [] (by decide)

/-- C15 (failure taxonomy), evaluated at a peer that sends a block of another
piece and at a peer that sends a Piece message with a payload of three bytes:
`downloadPiece` returns the error of `AddBlock`, respectively of
`ToPieceMessage`, wrapped, and `errors.Is` finds neither `errNetwork` nor
`errDownloading` in it. -/
theorem C15_rejection_is_not_a_downloading_error (sha1 : List Byte → List Byte) :
    (downloadPiece sha1 0 (peerSending [0, 0, 0, 10, 7, 0, 0, 0, 1, 0, 0, 0, 0, 0])
        rogueMeta).map (fun r => r.2) = .ok (none, some (.wrap .anotherPiece)) ∧
    (Error.wrap .anotherPiece).Is .network = false ∧
    (Error.wrap .anotherPiece).Is .downloading = false ∧
    (downloadPiece sha1 0 (peerSending [0, 0, 0, 4, 7, 1, 2, 3])
        rogueMeta).map (fun r => r.2) = .ok (none, some (.wrap .cantConvertPiece)) ∧
    (Error.wrap .cantConvertPiece).Is .network = false ∧
    (Error.wrap .cantConvertPiece).Is .downloading = false :=
  ⟨rfl, rfl, rfl, rfl, rfl, rfl⟩

/-- C16 (keep-alive handling), evaluated at a peer that sends one keep-alive
frame: the iteration that reads it writes the four zero bytes of the reply and
then faults on `msg.ID`, `msg` being nil; `downloadPiece` does not return. -/
theorem C16_keep_alive_faults (sha1 : List Byte → List Byte) :
    downloadPieceStep 0 rogueMeta
        { p := peerSending [0, 0, 0, 0], pdInfo := NewPieceDownloadInfo 0 16384, backlog := 0 } =
      .panic
        { p := { peerSending [] with Con := { Conn.ofInput [] with output := [0, 0, 0, 0] } }
          pdInfo := NewPieceDownloadInfo 0 16384
          backlog := 0 }
        .nilDereference ∧
    downloadPiece sha1 0 (peerSending [0, 0, 0, 0]) rogueMeta = .error .nilDereference :=
  ⟨rfl, rfl⟩

/-- An iteration of the loop of `downloadPiece` that reads a keep-alive never
reaches the next iteration: it returns the error of the reply or faults. -/
theorem downloadPieceStep_keep_alive (pieceID : Nat) (tmeta : TorrentMetadata) (s : LoopState)
    (c : Conn) (p : Peer) (hd : s.p.Con.SetDeadline = (c, none))
    (hno : ¬ (s.p.Choking = false ∧ s.backlog < maxBacklog ∧
      s.pdInfo.requested < ((u32OfInt tmeta.PieceLength / BlockSize : Nat) : Int)))
    (hr : Peer.ReceiveMessage { s.p with Con := c } = (p, none, none)) (t : LoopState) :
    downloadPieceStep pieceID tmeta s ≠ .next t := by
  unfold downloadPieceStep
  simp only [hd]
  rw [if_neg hno]
  simp only [hr]
  split <;> simp

/-- Where the block starts inside the file and inside 32 bits, and the remaining
bytes are at least zero, the request has the geometry of the specification. -/
theorem requestOf_geometry (pieceID pl len r : Nat) (tmeta : TorrentMetadata) (s : LoopState)
    (hpl : tmeta.PieceLength = (pl : Int)) (hlen : tmeta.Length = (len : Int))
    (hr : s.pdInfo.requested = (r : Int))
    (hpl32 : pl < 4294967296) (hlen32 : len < 4294967296)
    (hin : pieceID * pl + r * 16384 ≤ len)
    (hend : pieceID * pl + r * 16384 + 16384 < 4294967296) :
    requestOf pieceID tmeta s =
      { PieceID := pieceID, BlockOffset := r * 16384,
        BlockLength := min 16384 (len - (pieceID * pl + r * 16384)) } := by
  have h1 : u32OfInt tmeta.PieceLength = pl := by
    rw [hpl]; unfold u32OfInt; omega
  have h2 : u32OfInt tmeta.Length = len := by
    rw [hlen]; unfold u32OfInt; omega
  have h3 : u32OfInt (s.pdInfo.requested * (BlockSize : Int)) = r * 16384 := by
    rw [hr]; unfold u32OfInt BlockSize; omega
  have h4 : pl * pieceID = pieceID * pl := Nat.mul_comm _ _
  unfold requestOf NewRequestMessage
  simp only [h1, h2, h3]
  simp only [u32, BlockSize, h4]
  have e1 : pieceID * pl % 4294967296 = pieceID * pl := Nat.mod_eq_of_lt (by omega)
  have e2 : (pieceID * pl + r * 16384) % 4294967296 = pieceID * pl + r * 16384 :=
    Nat.mod_eq_of_lt (by omega)
  have e3 : (pieceID * pl + r * 16384 + 16384) % 4294967296 =
      pieceID * pl + r * 16384 + 16384 := Nat.mod_eq_of_lt (by omega)
  rw [e1, e2, e3]
  refine congrArg (RequestMessage.mk pieceID (r * 16384)) ?_
  split
  · omega
  · omega

/-- C13 (request geometry), evaluated at the last piece of a file of 40000
bytes in pieces of 32768 bytes, against a peer that unchokes: `downloadPiece`
writes two Request frames for piece 1, the second for block offset 16384 with
block length `2 ^ 32 - 9152`, the 32-bit difference of the length and an offset
beyond the end of the file. -/
theorem C13_tail_request_length_wraps (sha1 : List Byte → List Byte) :
    (downloadPiece sha1 1 (peerSending [0, 0, 0, 1, 1]) tailMeta).map
        (fun r => r.1.Con.output) =
      .ok ([0, 0, 0, 13, 6, 0, 0, 0, 1, 0, 0, 0, 0, 0, 0, 28, 64] ++
        [0, 0, 0, 13, 6, 0, 0, 0, 1, 0, 0, 64, 0, 255, 255, 220, 64]) ∧
    ToRequestMessage (some { ID := 6, Payload := [0, 0, 0, 1, 0, 0, 64, 0, 255, 255, 220, 64] }) =
      (some { PieceID := 1, BlockOffset := 16384, BlockLength := 4294958144 }, none) ∧
    16384 < 4294958144 :=
  ⟨rfl, rfl, by decide⟩

/-- C14 (requests cover the piece), evaluated at the same last piece: it is the
range of 7232 bytes, the loop asks for `PieceLength / 16384 = 2` blocks, and the
second request is for 4294958144 bytes from offset 16384, outside the piece. -/
theorem C14_tail_requests_leave_the_piece :
    (calcPieceBoundaries 1 tailMeta).2 - (calcPieceBoundaries 1 tailMeta).1 = 7232 ∧
    u32OfInt tailMeta.PieceLength / BlockSize = 2 ∧
    (List.range 2).map (fun r => requestOf 1 tailMeta (afterRequests 1 tailMeta r)) =
      [{ PieceID := 1, BlockOffset := 0, BlockLength := 7232 },
       { PieceID := 1, BlockOffset := 16384, BlockLength := 4294958144 }] ∧
    7232 ≤ 16384 :=
  ⟨by decide, by decide, rfl, by decide⟩

/-! ### The bitfield -/

theorem tdiv_negSucc_eight (m : Nat) :
    Int.tdiv (Int.negSucc m) 8 = -(((m + 1) / 8 : Nat) : Int) := rfl

theorem tmod_negSucc_eight (m : Nat) :
    Int.tmod (Int.negSucc m) 8 = -(((m + 1) % 8 : Nat) : Int) := rfl

theorem tdiv_natCast_eight (k : Nat) : Int.tdiv (k : Int) 8 = ((k / 8 : Nat) : Int) := rfl

theorem tmod_natCast_eight (k : Nat) : Int.tmod (k : Int) 8 = ((k % 8 : Nat) : Int) := rfl

theorem land_one_ne_zero (x : Nat) : decide (x &&& 1 ≠ 0) = (1 &&& x != 0) := by
  rw [Nat.land_comm]
  cases h : 1 &&& x <;> simp

/-- In range, `HavePiece` tests bit `7 - k % 8` of byte `k / 8`. -/
theorem HavePieceChecked_inRange (bf : Bitfield) (k : Nat) (hk : k < 8 * bf.length) :
    Bitfield.HavePieceChecked bf k = .ok ((bf.getD (k / 8) 0).testBit (7 - k % 8)) := by
  have hlt : k / 8 < bf.length := by omega
  unfold Bitfield.HavePieceChecked
  simp only [tdiv_natCast_eight, tmod_natCast_eight]
  have h1 : ¬ ((((k / 8 : Nat) : Int) < 0) ∨ (((k / 8 : Nat) : Int) ≥ bf.length)) := by omega
  rw [if_neg h1, Int.toNat_ofNat, List.getElem?_eq_getElem hlt]
  simp only
  have h2 : ¬ ((7 : Int) - ((k % 8 : Nat) : Int) < 0) := by omega
  have h3 : ((7 : Int) - ((k % 8 : Nat) : Int)).toNat = 7 - k % 8 := by omega
  simp only [h2, if_false, h3, land_one_ne_zero, List.getD_eq_getElem _ _ hlt]
  rfl

theorem shiftRight_byte (b s : Nat) (hb : b < 256) (hs : 8 ≤ s) : b >>> s = 0 := by
  rw [Nat.shiftRight_eq_div_pow]
  apply Nat.div_eq_of_lt
  calc b < 2 ^ 8 := hb
    _ ≤ 2 ^ s := Nat.pow_le_pow_right (by decide) hs

/-- Out of range, `HavePiece` is false. -/
theorem HavePieceChecked_outOfRange (bf : Bitfield) (i : Int) (hbytes : ∀ b ∈ bf, b < 256)
    (hi : i < 0 ∨ 8 * (bf.length : Int) ≤ i) :
    Bitfield.HavePieceChecked bf i = .ok false := by
  cases i with
  | ofNat k =>
    have hk : 8 * bf.length ≤ k := by
      rcases hi with h | h
      · exact absurd h (by simp)
      · have : (8 : Int) * bf.length ≤ (k : Int) := h
        omega
    unfold Bitfield.HavePieceChecked
    have : Int.tdiv (Int.ofNat k) 8 = ((k / 8 : Nat) : Int) := rfl
    simp only [this]
    rw [if_pos (by omega)]
  | negSucc m =>
    unfold Bitfield.HavePieceChecked
    simp only [tdiv_negSucc_eight, tmod_negSucc_eight]
    by_cases hq : (m + 1) / 8 = 0
    · by_cases hl : bf.length = 0
      · rw [if_pos (by omega)]
      · rw [if_neg (by omega)]
        have hz : (-(((m + 1) / 8 : Nat) : Int)).toNat = 0 := by omega
        have hlt : 0 < bf.length := by omega
        rw [hz, List.getElem?_eq_getElem hlt]
        simp only
        have hn : ¬ ((7 : Int) - -(((m + 1) % 8 : Nat) : Int) < 0) := by omega
        have hs : 8 ≤ ((7 : Int) - -(((m + 1) % 8 : Nat) : Int)).toNat := by omega
        simp only [hn, if_false, shiftRight_byte _ _ (hbytes _ (List.getElem_mem _)) hs]
        rfl
    · rw [if_pos (by omega)]

/-- The checks never fire: `HavePiece` returns what the unchecked reading gives. -/
theorem HavePieceChecked_eq (bf : Bitfield) (i : Int) :
    Bitfield.HavePieceChecked bf i = .ok (Bitfield.HavePiece bf i) := by
  unfold Bitfield.HavePieceChecked Bitfield.HavePiece
  simp only
  split
  · rfl
  · rename_i h
    have hlt : (Int.tdiv i 8).toNat < bf.length := by omega
    rw [List.getElem?_eq_getElem hlt]
    simp only
    have hoff : ¬ (7 - Int.tmod i 8 < 0) := by
      cases i with
      | ofNat k =>
        have : Int.tmod (Int.ofNat k) 8 = ((k % 8 : Nat) : Int) := rfl
        rw [this]; omega
      | negSucc m =>
        rw [tmod_negSucc_eight]; omega
    simp only [hoff, if_false, List.getD_eq_getElem _ _ hlt]

/-- C12 (bitfield lookup): for `0 ≤ k < 8 * len(bf)`, `HavePiece(k)` is bit
`7 - k mod 8` (counted from the least significant bit) of byte `bf[k / 8]`; for
every other index, negative ones included, it is false; and neither the index
check nor the shift check of the run time ever fires. -/
theorem C12_bitfield_lookup (bf : Bitfield) (hbytes : ∀ b ∈ bf, b < 256) :
    (∀ k : Nat, k < 8 * bf.length →
      Bitfield.HavePieceChecked bf k = .ok ((bf.getD (k / 8) 0).testBit (7 - k % 8))) ∧
    (∀ i : Int, i < 0 ∨ 8 * (bf.length : Int) ≤ i →
      Bitfield.HavePieceChecked bf i = .ok false) ∧
    (∀ i : Int, Bitfield.HavePieceChecked bf i = .ok (Bitfield.HavePiece bf i)) :=
  ⟨HavePieceChecked_inRange bf, fun i hi => HavePieceChecked_outOfRange bf i hbytes hi,
    HavePieceChecked_eq bf⟩

theorem C12_bitfield_lookup_witness :
    Bitfield.HavePieceChecked [128, 64] (0 : Nat) = .ok true ∧
    Bitfield.HavePieceChecked [128, 64] (1 : Nat) = .ok false ∧
    Bitfield.HavePieceChecked [128, 64] (9 : Nat) = .ok true ∧
    Bitfield.HavePieceChecked [128, 64] (-3) = .ok false ∧
    Bitfield.HavePieceChecked [128, 64] 16 = .ok false :=
  have h := C12_bitfield_lookup [128, 64] (by decide)
  ⟨h.1 0 (by decide), h.1 1 (by decide), h.1 9 (by decide), h.2.1 (-3) (by decide),
    h.2.1 16 (by decide)⟩

/-! ### The piece boundaries -/

/-- C20 as stated fails where `begin + PieceLength` leaves the range of `int`:
for `PieceLength = 2 ^ 62` and `Length = 2 ^ 63 - 1` there are `N = 2` pieces,
and for piece 1 `calcPieceBoundaries` returns `begin = 2 ^ 62` and
`end = -2 ^ 63`, which is neither `min(begin + PieceLength, Length) = 2 ^ 63 - 1`
nor above `begin`. -/
theorem C20_counterexample :
    (0 : Int) < farTwoMeta.PieceLength ∧ 0 < farTwoMeta.Length ∧
    ((2 : Nat) : Int) = (farTwoMeta.Length + farTwoMeta.PieceLength - 1) / farTwoMeta.PieceLength ∧
    1 < 2 ∧
    calcPieceBoundaries 1 farTwoMeta = (4611686018427387904, -9223372036854775808) ∧
    min ((1 : Int) * farTwoMeta.PieceLength + farTwoMeta.PieceLength) farTwoMeta.Length =
      9223372036854775807 ∧
    ¬ (0 < (calcPieceBoundaries 1 farTwoMeta).2 - (calcPieceBoundaries 1 farTwoMeta).1) ∧
    (calcPieceBoundaries 1 farTwoMeta).2 ≠ farTwoMeta.Length := by
  refine ⟨by decide, by decide, by decide, by decide, by decide, by decide, by decide, by decide⟩

/-- C20 (piece boundaries), amended: for a descriptor with positive piece length
and length, `Length + PieceLength` at most `2 ^ 63` (no boundary leaves the
range of `int`) and `N = ceil(Length / PieceLength)`, every piece `i < N` begins
at `i * PieceLength` and ends at `min(begin + PieceLength, Length)`; it is not
empty and not longer than `PieceLength`; every piece but the last has
`PieceLength` bytes and ends where the next begins; the first begins at 0 and
the last ends at `Length`; and `Piece(i)` returns the bytes of the file from
`begin` to `end` when the file has that many bytes, and the error of the read
when it is shorter. -/
theorem C20_piece_boundaries (tm : TorrentMetadata) (N i : Nat)
    (hPL : 0 < tm.PieceLength) (hLen : 0 < tm.Length)
    (hB : tm.Length + tm.PieceLength ≤ 9223372036854775808)
    (hN : (N : Int) = (tm.Length + tm.PieceLength - 1) / tm.PieceLength) (hi : i < N) :
    calcPieceBoundaries i tm =
      ((i : Int) * tm.PieceLength,
        min ((i : Int) * tm.PieceLength + tm.PieceLength) tm.Length) ∧
    0 < (calcPieceBoundaries i tm).2 - (calcPieceBoundaries i tm).1 ∧
    (calcPieceBoundaries i tm).2 - (calcPieceBoundaries i tm).1 ≤ tm.PieceLength ∧
    (i + 1 < N →
      (calcPieceBoundaries i tm).2 - (calcPieceBoundaries i tm).1 = tm.PieceLength ∧
      (calcPieceBoundaries i tm).2 = (calcPieceBoundaries (i + 1) tm).1) ∧
    (i + 1 = N → (calcPieceBoundaries i tm).2 = tm.Length) ∧
    (calcPieceBoundaries 0 tm).1 = 0 ∧
    (∀ file : List Byte, i < 4294967296 →
      TorrentData.Piece { File := file, TorrentMetadata := tm } i =
        if (calcPieceBoundaries i tm).2 ≤ file.length then
          .ok (some ((file.drop (calcPieceBoundaries i tm).1.toNat).take
            ((calcPieceBoundaries i tm).2 - (calcPieceBoundaries i tm).1).toNat), none)
        else .ok (none, some .io)) := by
  obtain ⟨pl, hpl⟩ := Int.eq_ofNat_of_zero_le (le_of_lt hPL)
  obtain ⟨len, hlen⟩ := Int.eq_ofNat_of_zero_le (le_of_lt hLen)
  have hplpos : 0 < pl := by omega
  have hNnat : N = (len + pl - 1) / pl := by
    have h1 : tm.Length + tm.PieceLength - 1 = ((len + pl - 1 : Nat) : Int) := by
      rw [hpl, hlen]
      omega
    rw [h1, hpl] at hN
    exact_mod_cast hN
  obtain ⟨hcover, hin⟩ := ceil_facts pl len N hplpos hNnat
  have hil := hin i hi
  have hNpl : (i + 1) * pl = i * pl + pl := by ring
  have hB1 : i * pl + pl < 9223372036854775808 := by omega
  have hE := calcPieceBoundaries_exact tm pl len i hpl hlen hB1
  have hE0 : (calcPieceBoundaries 0 tm).1 = 0 := by
    rw [calcPieceBoundaries_exact tm pl len 0 hpl hlen (by omega)]
    simp
  refine ⟨?_, ?_, ?_, ?_, ?_, hE0, ?_⟩
  · rw [hE, hpl, hlen, Nat.cast_add, Nat.cast_mul]
  · simp only [hE]
    omega
  · simp only [hE, hpl]
    omega
  · intro hlt
    have h2 := hin (i + 1) hlt
    have hE1 := calcPieceBoundaries_exact tm pl len (i + 1) hpl hlen (by omega)
    simp only [hE, hE1, hpl]
    omega
  · intro heq
    subst heq
    simp only [hE, hlen]
    omega
  · intro file hi32
    have hP := Piece_eq_readNat { File := file, TorrentMetadata := tm } pl len i hpl hlen hi32
      (by omega) hB1
    rw [hP]
    simp only [hE]
    have hspan : min ((i * pl + pl : Nat) : Int) (len : Int) - ((i * pl : Nat) : Int) =
        ((spanNat pl len i : Nat) : Int) := by
      unfold spanNat
      omega
    have hsp : 0 < spanNat pl len i := by unfold spanNat; omega
    have hend : min ((i * pl + pl : Nat) : Int) (len : Int) =
        ((i * pl + spanNat pl len i : Nat) : Int) := by
      unfold spanNat
      omega
    rw [hspan, hend, Int.toNat_ofNat, Int.toNat_ofNat]
    unfold readNat
    rw [if_neg (by omega)]
    by_cases hfit : i * pl + spanNat pl len i ≤ file.length
    · have : ((i * pl + spanNat pl len i : Nat) : Int) ≤ (file.length : Int) := by omega
      rw [if_pos hfit, if_pos this]
    · have : ¬ ((i * pl + spanNat pl len i : Nat) : Int) ≤ (file.length : Int) := by omega
      rw [if_neg hfit, if_neg this]

theorem C20_piece_boundaries_witness :
    calcPieceBoundaries 3 sevenByteMeta = (6, 7) ∧
    TorrentData.Piece { File := [0, 1, 2, 3, 4, 5, 6], TorrentMetadata := sevenByteMeta }
        (3 : Nat) = .ok (some [6], none) ∧
    TorrentData.Piece { File := [0, 1, 2, 3, 4, 5], TorrentMetadata := sevenByteMeta }
        (3 : Nat) = .ok (none, some .io) := by
  have h := C20_piece_boundaries sevenByteMeta 4 3 (by decide) (by decide) (by decide)
    (by decide) (by decide)
  exact ⟨h.1, h.2.2.2.2.2.2 [0, 1, 2, 3, 4, 5, 6] (by decide),
    h.2.2.2.2.2.2 [0, 1, 2, 3, 4, 5] (by decide)⟩

/-! ### The tracker -/

/-- A loop that assigns `f i` to entry `i` for `i` below `m` leaves a list whose
first `m` entries are the values of `f`. -/
theorem foldl_set_range {α : Type} (f : Nat → α) (m : Nat) (acc : List α) (hm : m ≤ acc.length) :
    ((List.range m).foldl (fun a i => a.set i (f i)) acc).length = acc.length ∧
    ∀ k, ((List.range m).foldl (fun a i => a.set i (f i)) acc)[k]? =
      if k < m then some (f k) else acc[k]? := by
  induction m with
  | zero => simp
  | succ m ih =>
    obtain ⟨hl, hg⟩ := ih (by omega)
    rw [List.range_succ, List.foldl_append]
    simp only [List.foldl_cons, List.foldl_nil, List.length_set]
    refine ⟨hl, ?_⟩
    intro k
    rw [List.getElem?_set, hl, hg]
    by_cases hk : m = k
    · subst hk
      simp
      omega
    · simp only [hk, if_false]
      by_cases hk2 : k < m
      · have : k < m + 1 := by omega
        simp [hk2, this]
      · have : ¬ k < m + 1 := by omega
        simp [hk2, this]

theorem uint16BE_slice (s : List Byte) (a : Nat) :
    uint16BE ((s.drop a).take 2) = 256 * s.getD a 0 + s.getD (a + 1) 0 := by
  unfold uint16BE
  simp only [List.getD_eq_getElem?_getD, List.getElem?_take, List.getElem?_drop]
  simp
  ring

/-- C18 (compact peer decoding): `parsePeers` returns an error exactly when the
length of the peers string is not a multiple of 6; otherwise it returns
`len / 6` peers in input order, peer `k` having the four bytes from `6k` as its
IP and `256 * s[6k+4] + s[6k+5]` as its port. -/
theorem C18_compact_peer_decoding (tr : trackerResponse) :
    ((tr.parsePeers).2 ≠ none ↔ tr.Peers.length % 6 ≠ 0) ∧
    (tr.Peers.length % 6 ≠ 0 → tr.parsePeers = ([], some .malformedPeers)) ∧
    (tr.Peers.length % 6 = 0 →
      (tr.parsePeers).1.length = tr.Peers.length / 6 ∧
      ∀ k, k < tr.Peers.length / 6 →
        (tr.parsePeers).1[k]? =
          some { IP := (tr.Peers.drop (6 * k)).take 4
                 Port := 256 * tr.Peers.getD (6 * k + 4) 0 + tr.Peers.getD (6 * k + 5) 0 } ∧
        ((tr.Peers.drop (6 * k)).take 4).length = 4) := by
  refine ⟨?_, ?_, ?_⟩
  · unfold trackerResponse.parsePeers
    by_cases h : tr.Peers.length % 6 = 0
    · simp [h]
    · simp [h]
  · intro h
    unfold trackerResponse.parsePeers
    simp only
    rw [if_pos h]
  · intro h
    have hf := foldl_set_range
      (fun i => ({ IP := (tr.Peers.drop (i * 6)).take 4
                   Port := uint16BE ((tr.Peers.drop (i * 6 + 4)).take 2) } : PeerAddr))
      (tr.Peers.length / 6) (List.replicate (tr.Peers.length / 6) { IP := [], Port := 0 })
      (by simp)
    unfold trackerResponse.parsePeers
    simp only
    rw [if_neg (by omega)]
    simp only
    refine ⟨by rw [hf.1]; simp, ?_⟩
    intro k hk
    rw [hf.2 k, if_pos hk]
    have e1 : k * 6 = 6 * k := Nat.mul_comm _ _
    simp only [uint16BE_slice, e1]
    refine ⟨trivial, ?_⟩
    simp only [List.length_take, List.length_drop]
    omega

theorem C18_compact_peer_decoding_witness :
    trackerResponse.parsePeers
        { Interval := 900, Peers := [0, 0, 0, 0, 0, 1, 0, 0, 0, 1, 0, 2] } =
      ([{ IP := [0, 0, 0, 0], Port := 1 }, { IP := [0, 0, 0, 1], Port := 2 }], none) ∧
    trackerResponse.parsePeers { Interval := 900, Peers := [0, 0, 0, 0, 0, 1, 0] } =
      ([], some .malformedPeers) :=
  ⟨by decide, (C18_compact_peer_decoding _).2.1 (by decide)⟩

/-! ### Torrent generation -/

/-- Cutting a string made of 20-byte hashes gives the hashes back. -/
theorem pieceHashesLoop_flatten (hs : List (List Byte)) (h20 : ∀ h ∈ hs, h.length = 20) :
    ∀ (fuel : Nat) (acc : List (List Byte)), hs.length + 1 ≤ fuel →
      pieceHashesLoop fuel hs.flatten acc = acc ++ hs := by
  induction hs with
  | nil =>
    intro fuel acc hf
    obtain ⟨f, rfl⟩ : ∃ f, fuel = f + 1 := ⟨fuel - 1, by omega⟩
    simp [pieceHashesLoop, readFull]
  | cons h t ih =>
    intro fuel acc hf
    obtain ⟨f, rfl⟩ : ∃ f, fuel = f + 1 := ⟨fuel - 1, by omega⟩
    have hh : h.length = 20 := h20 h (List.mem_cons_self _ _)
    have hr : readFull (h :: t).flatten 20 = (some h, t.flatten) := by
      unfold readFull
      rw [List.flatten_cons, if_pos (by rw [List.length_append]; omega)]
      rw [← hh, List.take_left, List.drop_left]
    unfold pieceHashesLoop
    rw [hr]
    simp only
    rw [ih (fun x hx => h20 x (List.mem_cons_of_mem _ hx)) f _
      (by simp only [List.length_cons] at hf; omega)]
    simp

theorem sourceHashes_lt (sha1 : List Byte → List Byte) (s : List Byte) (p : Nat)
    (hp : 0 < p) (hs : s.length < p) (hne : 0 < s.length) :
    sourceHashes sha1 s p = [sha1 s] := by
  have h1 : (s.length + p - 1) / p = 1 := by
    have e : s.length + p - 1 = (s.length - 1) + p := by omega
    rw [e, Nat.add_div_right _ hp, Nat.div_eq_of_lt (by omega)]
  unfold sourceHashes
  rw [h1]
  simp [List.range_succ, List.take_of_length_le (Nat.le_of_lt hs)]

theorem sourceHashes_ge (sha1 : List Byte → List Byte) (s : List Byte) (p : Nat)
    (hp : 0 < p) (hs : p ≤ s.length) :
    sourceHashes sha1 s p = sha1 (s.take p) :: sourceHashes sha1 (s.drop p) p := by
  have h1 : (s.length + p - 1) / p = ((s.drop p).length + p - 1) / p + 1 := by
    have e : s.length + p - 1 = ((s.drop p).length + p - 1) + p := by
      rw [List.length_drop]; omega
    rw [e, Nat.add_div_right _ hp]
  unfold sourceHashes
  rw [h1, List.range_succ_eq_map, List.map_cons, List.map_map]
  simp only [Nat.zero_mul, List.drop_zero]
  refine congrArg (List.cons _) ?_
  refine List.map_congr_left ?_
  intro i _
  simp only [Function.comp, List.drop_drop, Nat.succ_eq_add_one]
  have e2 : p + i * p = (i + 1) * p := by ring
  rw [e2]

/-- The loop of `GenerateTorrent` ends for a positive piece length, with the
hashes of the pieces of the source appended and the length advanced by the
length of the source. -/
theorem generateLoop_spec (sha1 : List Byte → List Byte) (p : Nat) (hp : 0 < p) :
    ∀ (n : Nat) (s : List Byte), s.length ≤ n →
      ∀ (fuel : Nat) (acc : List Byte) (len0 : Int), s.length + 1 ≤ fuel →
        generateLoop sha1 p fuel s acc len0 =
          .ok (acc ++ (sourceHashes sha1 s p).flatten, len0 + (s.length : Int)) := by
  intro n
  induction n with
  | zero =>
    intro s hs fuel acc len0 hf
    have hnil : s = [] := List.eq_nil_of_length_eq_zero (by omega)
    subst hnil
    obtain ⟨f, rfl⟩ : ∃ f, fuel = f + 1 := ⟨fuel - 1, by omega⟩
    have hz : (p - 1) / p = 0 := Nat.div_eq_of_lt (by omega)
    simp [generateLoop, readFullPartial, sourceHashes, hp, hz]
  | succ n ih =>
    intro s hs fuel acc len0 hf
    obtain ⟨f, rfl⟩ : ∃ f, fuel = f + 1 := ⟨fuel - 1, by omega⟩
    by_cases hlt : s.length < p
    · by_cases hne : 0 < s.length
      · rw [sourceHashes_lt sha1 s p hp hlt hne]
        simp [generateLoop, readFullPartial, hlt, hne, List.take_of_length_le (Nat.le_of_lt hlt)]
      · have hnil : s = [] := List.eq_nil_of_length_eq_zero (by omega)
        subst hnil
        have hz : (p - 1) / p = 0 := Nat.div_eq_of_lt (by omega)
        simp [generateLoop, readFullPartial, sourceHashes, hp, hz]
    · have hge : p ≤ s.length := by omega
      rw [sourceHashes_ge sha1 s p hp hge]
      have htl : (s.take p).length = p := by rw [List.length_take]; omega
      have hdl : (s.drop p).length = s.length - p := List.length_drop _ _
      unfold generateLoop
      simp only [readFullPartial, htl, hp, if_true, gt_iff_lt, decide_eq_true_eq, hlt, if_false,
        decide_False, Bool.false_eq_true]
      rw [ih (s.drop p) (by omega) f _ _ (by omega)]
      simp only [List.flatten_cons, List.append_assoc, hdl]
      have e : len0 + (p : Int) + ((s.length - p : Nat) : Int) = len0 + (s.length : Int) := by omega
      rw [e]

theorem sourceHashes_length (sha1 : List Byte → List Byte) (s : List Byte) (p : Nat) :
    (sourceHashes sha1 s p).length = (s.length + p - 1) / p := by
  simp [sourceHashes]

theorem flatten_length_20 (hs : List (List Byte)) (h20 : ∀ h ∈ hs, h.length = 20) :
    hs.flatten.length = 20 * hs.length := by
  induction hs with
  | nil => rfl
  | cons h t ih =>
    rw [List.flatten_cons, List.length_append, h20 h (List.mem_cons_self _ _),
      ih (fun x hx => h20 x (List.mem_cons_of_mem _ hx)), List.length_cons]
    omega

/-- The result of `GenerateTorrent` for a positive piece length. -/
theorem GenerateTorrent_eq (sha1 : List Byte → List Byte)
    (marshal : bencodeInfo → Option (List Byte))
    (s : List Byte) (announce name : String) (p : Nat) (info : List Byte)
    (hp : 0 < p) (hsha : ∀ d, (sha1 d).length = 20)
    (hm : marshal { Pieces := (sourceHashes sha1 s p).flatten, PieceLength := (p : Int),
                    Length := (s.length : Int), Name := name } = some info) :
    GenerateTorrent sha1 marshal s announce name (p : Int) =
      .ok ({ Announce := announce, InfoHash := sha1 info,
             PieceHashes := sourceHashes sha1 s p, PieceLength := (p : Int),
             Length := (s.length : Int), Name := name }, none) := by
  have hloop := generateLoop_spec sha1 p hp s.length s (Nat.le_refl _) (s.length + 1) [] 0
    (Nat.le_refl _)
  have h20 : ∀ h ∈ sourceHashes sha1 s p, h.length = 20 := by
    intro h hh
    unfold sourceHashes at hh
    rw [List.mem_map] at hh
    obtain ⟨i, _, rfl⟩ := hh
    exact hsha _
  have hflat := pieceHashesLoop_flatten (sourceHashes sha1 s p) h20
    ((sourceHashes sha1 s p).flatten.length + 1) []
    (by rw [flatten_length_20 _ h20]; omega)
  have hnn : ¬ ((p : Int) < 0) := by omega
  unfold GenerateTorrent
  simp only [if_neg hnn, Int.toNat_ofNat, hloop, List.nil_append, Int.zero_add]
  unfold bencodeTorrent.toTorrentFile
  simp only [hm, hflat, List.nil_append]

/-- C19 (torrent generation): for every source `s` and piece length `p > 0`,
marshalling of the info dictionary succeeding, `GenerateTorrent` returns (it
neither faults nor runs on) metadata without an error, with `Length = len s`,
`PieceLength = p`, exactly `ceil(len s / p)` piece hashes, piece hash `i` being
the SHA-1 of the bytes `s[i*p .. min((i+1)*p, len s))`; every piece but the last
has `p` bytes and the last one has at least one. -/
theorem C19_generate_torrent (sha1 : List Byte → List Byte)
    (marshal : bencodeInfo → Option (List Byte))
    (s : List Byte) (announce name : String) (p : Nat) (info : List Byte)
    (hp : 0 < p) (hsha : ∀ d, (sha1 d).length = 20)
    (hm : marshal { Pieces := (sourceHashes sha1 s p).flatten, PieceLength := (p : Int),
                    Length := (s.length : Int), Name := name } = some info) :
    ∃ tm : TorrentMetadata,
      GenerateTorrent sha1 marshal s announce name (p : Int) = .ok (tm, none) ∧
      tm.Length = (s.length : Int) ∧ tm.PieceLength = (p : Int) ∧
      tm.Announce = announce ∧ tm.Name = name ∧ tm.InfoHash = sha1 info ∧
      tm.PieceHashes.length = (s.length + p - 1) / p ∧
      ∀ i, i < (s.length + p - 1) / p →
        tm.PieceHashes[i]? = some (sha1 ((s.drop (i * p)).take p)) ∧
        ((s.drop (i * p)).take p).length = min ((i + 1) * p) s.length - i * p ∧
        0 < ((s.drop (i * p)).take p).length ∧
        (i + 1 < (s.length + p - 1) / p → ((s.drop (i * p)).take p).length = p) := by
  refine ⟨_, GenerateTorrent_eq sha1 marshal s announce name p info hp hsha hm,
    rfl, rfl, rfl, rfl, rfl, sourceHashes_length sha1 s p, ?_⟩
  intro i hi
  have h1 : (i + 1) * p ≤ s.length + p - 1 := (Nat.le_div_iff_mul_le hp).mp hi
  have e1 : (i + 1) * p = i * p + p := Nat.succ_mul i p
  refine ⟨?_, ?_, ?_, ?_⟩
  · show (sourceHashes sha1 s p)[i]? = _
    unfold sourceHashes
    rw [List.getElem?_map, List.getElem?_range hi]
    rfl
  · rw [List.length_take, List.length_drop]
    omega
  · rw [List.length_take, List.length_drop]
    omega
  · intro hi2
    have h2 : (i + 1 + 1) * p ≤ s.length + p - 1 := (Nat.le_div_iff_mul_le hp).mp hi2
    have e2 : (i + 1 + 1) * p = i * p + p + p := by rw [Nat.succ_mul, Nat.succ_mul]
    rw [List.length_take, List.length_drop]
    omega

/-- The test `TestGenerateTorrentPieceHashes` with a stand-in for SHA-1: the
13 bytes of "1111222233334" in pieces of 4 bytes give four piece hashes, the
last one of the single byte left. -/
theorem C19_generate_torrent_witness :
    ∃ tm : TorrentMetadata,
      GenerateTorrent toyHash (fun _ => some [100, 101])
          [49, 49, 49, 49, 50, 50, 50, 50, 51, 51, 51, 51, 52] "test" "test" 4 = .ok (tm, none) ∧
      tm.Length = 13 ∧ tm.PieceLength = 4 ∧ tm.PieceHashes.length = 4 ∧
      tm.PieceHashes[3]? = some (toyHash [52]) := by
  obtain ⟨tm, h, hl, hpl, _, _, _, hn, hi⟩ :=
    C19_generate_torrent toyHash (fun _ => some [100, 101])
      [49, 49, 49, 49, 50, 50, 50, 50, 51, 51, 51, 51, 52] "test" "test" 4 [100, 101]
      (by decide) (fun d => by simp [toyHash]) rfl
  exact ⟨tm, h, hl, hpl, hn, (hi 3 (by decide)).1⟩

/-! ### The typed Piece conversion -/

theorem uint32BE_take (l : List Byte) :
    uint32BE (l.take 4) =
      l.getD 0 0 * 16777216 + l.getD 1 0 * 65536 + l.getD 2 0 * 256 + l.getD 3 0 := by
  unfold uint32BE
  simp [List.getD_eq_getElem?_getD, List.getElem?_take]

theorem uint32BE_drop_take (l : List Byte) :
    uint32BE ((l.drop 4).take 4) =
      l.getD 4 0 * 16777216 + l.getD 5 0 * 65536 + l.getD 6 0 * 256 + l.getD 7 0 := by
  unfold uint32BE
  simp [List.getD_eq_getElem?_getD, List.getElem?_take, List.getElem?_drop]

/-- The conversion of the message of a piece message with data gives the piece
message back. -/
theorem ToPieceMessage_ToMessage (p : PieceMessage)
    (hid : p.PieceID < 4294967296) (hoff : p.BlockOffset < 4294967296) (hd : p.Data ≠ []) :
    ToPieceMessage (some p.ToMessage) = (some p, none) := by
  have hlen : 0 < p.Data.length := List.length_pos.mpr hd
  have h1 : (putUint32 p.PieceID ++ putUint32 p.BlockOffset ++ p.Data).take 4 =
      putUint32 p.PieceID := by simp [putUint32]
  have h2 : ((putUint32 p.PieceID ++ putUint32 p.BlockOffset ++ p.Data).drop 4).take 4 =
      putUint32 p.BlockOffset := by simp [putUint32]
  have h3 : (putUint32 p.PieceID ++ putUint32 p.BlockOffset ++ p.Data).drop 8 = p.Data := by
    simp [putUint32]
  have h4 : ¬ (MsgPiece ≠ MsgPiece ∨
      (putUint32 p.PieceID ++ putUint32 p.BlockOffset ++ p.Data).length < 9) := by
    simp [putUint32]
    omega
  simp only [ToPieceMessage, PieceMessage.ToMessage]
  rw [if_neg h4, h1, h2, h3, uint32BE_putUint32 _ hid, uint32BE_putUint32 _ hoff]

/-- C29 (typed Piece conversion): `ToPieceMessage` returns no error exactly for
a non-nil message with ID 7 and a payload of at least 9 bytes; it then returns
the big-endian values of payload bytes 0..3 and 4..7 as `PieceID` and
`BlockOffset` and the bytes from 8 on as `Data`, and in every other case nil and
an error.  Hence the conversion of `p.ToMessage()` returns `p` when `p` has
data, and fails when `p` has none (a payload of 8 bytes). -/
theorem C29_typed_piece_conversion (p : PieceMessage)
    (hid : p.PieceID < 4294967296) (hoff : p.BlockOffset < 4294967296) :
    (∀ msg : Option Message, (ToPieceMessage msg).2 = none ↔
      ∃ m, msg = some m ∧ m.ID = 7 ∧ 9 ≤ m.Payload.length) ∧
    (∀ m : Message, m.ID = 7 → 9 ≤ m.Payload.length →
      ToPieceMessage (some m) =
        (some { PieceID := m.Payload.getD 0 0 * 16777216 + m.Payload.getD 1 0 * 65536 +
                  m.Payload.getD 2 0 * 256 + m.Payload.getD 3 0
                BlockOffset := m.Payload.getD 4 0 * 16777216 + m.Payload.getD 5 0 * 65536 +
                  m.Payload.getD 6 0 * 256 + m.Payload.getD 7 0
                Data := m.Payload.drop 8 }, none)) ∧
    (∀ msg : Option Message, (ToPieceMessage msg).2 ≠ none →
      ToPieceMessage msg = (none, some .cantConvertPiece)) ∧
    (p.Data ≠ [] → ToPieceMessage (some p.ToMessage) = (some p, none)) ∧
    (p.Data = [] → p.ToMessage.ID = 7 ∧ p.ToMessage.Payload.length = 8 ∧
      ToPieceMessage (some p.ToMessage) = (none, some .cantConvertPiece)) := by
  refine ⟨?_, ?_, ?_, ToPieceMessage_ToMessage p hid hoff, ?_⟩
  · intro msg
    cases msg with
    | none => simp [ToPieceMessage]
    | some m =>
      by_cases h : m.ID ≠ MsgPiece ∨ m.Payload.length < 9
      · simp only [ToPieceMessage, if_pos h]
        simp only [MsgPiece] at h
        constructor
        · intro hc
          cases hc
        · rintro ⟨m2, hm, h7, h9⟩
          cases hm
          omega
      · simp only [ToPieceMessage, if_neg h]
        simp only [MsgPiece] at h
        refine ⟨fun _ => ⟨m, rfl, by omega, by omega⟩, fun _ => trivial⟩
  · intro m h7 h9
    have h : ¬ (m.ID ≠ MsgPiece ∨ m.Payload.length < 9) := by
      simp only [MsgPiece]
      omega
    simp only [ToPieceMessage, if_neg h]
    rw [uint32BE_drop_take, uint32BE_take]
  · intro msg
    cases msg with
    | none => intro _; rfl
    | some m =>
      by_cases h : m.ID ≠ MsgPiece ∨ m.Payload.length < 9
      · intro _
        simp only [ToPieceMessage, if_pos h]
      · simp only [ToPieceMessage, if_neg h]
        intro hc
        exact absurd rfl hc
  · intro hd
    have hl : (putUint32 p.PieceID ++ putUint32 p.BlockOffset ++ p.Data).length = 8 := by
      simp [putUint32, hd]
    refine ⟨rfl, hl, ?_⟩
    have h : MsgPiece ≠ MsgPiece ∨
        (putUint32 p.PieceID ++ putUint32 p.BlockOffset ++ p.Data).length < 9 :=
      Or.inr (by omega)
    simp only [ToPieceMessage, PieceMessage.ToMessage]
    rw [if_pos h]

theorem C29_typed_piece_conversion_witness :
    ToPieceMessage (some (PieceMessage.ToMessage
        { PieceID := 3, BlockOffset := 16384, Data := [1, 2, 3] })) =
      (some { PieceID := 3, BlockOffset := 16384, Data := [1, 2, 3] }, none) ∧
    ToPieceMessage (some (PieceMessage.ToMessage
        { PieceID := 3, BlockOffset := 16384, Data := [] })) =
      (none, some .cantConvertPiece) :=
  ⟨(C29_typed_piece_conversion { PieceID := 3, BlockOffset := 16384, Data := [1, 2, 3] }
      (by decide) (by decide)).2.2.2.1 (by decide),
   ((C29_typed_piece_conversion { PieceID := 3, BlockOffset := 16384, Data := [] }
      (by decide) (by decide)).2.2.2.2 rfl).2.2⟩

/-! ### The piece-hash table -/

/-- The loop of `toTorrentFile` cuts the pieces string into its whole groups of
20 bytes, in order, and ends within the fuel. -/
theorem pieceHashesLoop_chunks :
    ∀ (n : Nat) (r : List Byte), r.length ≤ n →
      ∀ (fuel : Nat) (acc : List (List Byte)), r.length / 20 + 1 ≤ fuel →
        pieceHashesLoop fuel r acc =
          acc ++ (List.range (r.length / 20)).map (fun i => (r.drop (20 * i)).take 20) := by
  intro n
  induction n with
  | zero =>
    intro r hr fuel acc hf
    have hnil : r = [] := List.eq_nil_of_length_eq_zero (by omega)
    subst hnil
    obtain ⟨f, rfl⟩ : ∃ f, fuel = f + 1 := ⟨fuel - 1, by omega⟩
    simp [pieceHashesLoop, readFull]
  | succ n ih =>
    intro r hr fuel acc hf
    obtain ⟨f, rfl⟩ : ∃ f, fuel = f + 1 := ⟨fuel - 1, by omega⟩
    by_cases hlt : r.length < 20
    · have h0 : r.length / 20 = 0 := Nat.div_eq_of_lt hlt
      have hnot : ¬ 20 ≤ r.length := by omega
      simp [pieceHashesLoop, readFull, hnot, h0]
    · have hge : 20 ≤ r.length := by omega
      have hdl : (r.drop 20).length = r.length - 20 := List.length_drop _ _
      have hdiv : r.length / 20 = (r.drop 20).length / 20 + 1 := by
        rw [hdl]
        omega
      unfold pieceHashesLoop
      simp only [readFull, if_pos hge]
      rw [ih (r.drop 20) (by omega) f _ (by omega), hdiv, List.range_succ_eq_map, List.map_cons,
        List.map_map, List.append_assoc]
      refine congrArg (fun l => acc ++ l) ?_
      simp only [Nat.mul_zero, List.drop_zero, List.singleton_append]
      refine congrArg (List.cons _) ?_
      refine List.map_congr_left ?_
      intro i _
      simp only [Function.comp, List.drop_drop, Nat.succ_eq_add_one]
      have e : 20 + 20 * i = 20 * (i + 1) := by ring
      rw [e]

theorem flatten_chunks (r : List Byte) (n : Nat) :
    ((List.range n).map (fun i => (r.drop (20 * i)).take 20)).flatten = r.take (20 * n) := by
  induction n with
  | zero => simp
  | succ n ih =>
    rw [List.range_succ, List.map_append, List.flatten_append, ih]
    simp only [List.map_cons, List.map_nil, List.flatten_cons, List.flatten_nil,
      List.append_nil]
    rw [Nat.mul_succ, List.take_add]

/-- C30 (piece-hash table parsing): when the info dictionary marshals,
`toTorrentFile` returns no error; `Announce`, `PieceLength`, `Length` and `Name`
are copied, the info digest is the SHA-1 of the marshalled dictionary, and the
table has `floor(len s / 20)` entries, entry `i` being the 20 bytes of the
pieces string `s` from `20 i` on; the `len s mod 20` bytes left over are
dropped.  Nothing in the result depends on how `Length` and `PieceLength`
relate to the number of entries. -/
theorem C30_piece_hash_table (sha1 : List Byte → List Byte)
    (marshal : bencodeInfo → Option (List Byte)) (bt : bencodeTorrent) (info : List Byte)
    (hm : marshal bt.Info = some info) :
    (bt.toTorrentFile sha1 marshal).2 = none ∧
    (bt.toTorrentFile sha1 marshal).1.Announce = bt.Announce ∧
    (bt.toTorrentFile sha1 marshal).1.PieceLength = bt.Info.PieceLength ∧
    (bt.toTorrentFile sha1 marshal).1.Length = bt.Info.Length ∧
    (bt.toTorrentFile sha1 marshal).1.Name = bt.Info.Name ∧
    (bt.toTorrentFile sha1 marshal).1.InfoHash = sha1 info ∧
    (bt.toTorrentFile sha1 marshal).1.PieceHashes.length = bt.Info.Pieces.length / 20 ∧
    (∀ i, i < bt.Info.Pieces.length / 20 →
      (bt.toTorrentFile sha1 marshal).1.PieceHashes[i]? =
        some ((bt.Info.Pieces.drop (20 * i)).take 20) ∧
      ((bt.Info.Pieces.drop (20 * i)).take 20).length = 20 ∧
      ∀ j, j < 20 →
        ((bt.Info.Pieces.drop (20 * i)).take 20)[j]? = bt.Info.Pieces[20 * i + j]?) ∧
    (bt.toTorrentFile sha1 marshal).1.PieceHashes.flatten =
      bt.Info.Pieces.take (20 * (bt.Info.Pieces.length / 20)) := by
  have hloop := pieceHashesLoop_chunks bt.Info.Pieces.length bt.Info.Pieces (Nat.le_refl _)
    (bt.Info.Pieces.length + 1) [] (by omega)
  have hT : bt.toTorrentFile sha1 marshal =
      ({ Announce := bt.Announce, InfoHash := sha1 info,
         PieceHashes := (List.range (bt.Info.Pieces.length / 20)).map
           (fun i => (bt.Info.Pieces.drop (20 * i)).take 20),
         PieceLength := bt.Info.PieceLength, Length := bt.Info.Length,
         Name := bt.Info.Name }, none) := by
    unfold bencodeTorrent.toTorrentFile
    simp only [hm, hloop, List.nil_append]
  rw [hT]
  refine ⟨rfl, rfl, rfl, rfl, rfl, rfl, by simp, ?_, ?_⟩
  · intro i hi
    refine ⟨?_, ?_, ?_⟩
    · show ((List.range (bt.Info.Pieces.length / 20)).map _)[i]? = _
      rw [List.getElem?_map, List.getElem?_range hi]
      rfl
    · rw [List.length_take, List.length_drop]
      omega
    · intro j hj
      rw [List.getElem?_take, if_pos hj, List.getElem?_drop]
  · exact flatten_chunks _ _

theorem C30_piece_hash_table_witness :
    (oddDescriptor.toTorrentFile toyHash (fun _ => some [100, 101])).2 = none ∧
    (oddDescriptor.toTorrentFile toyHash (fun _ => some [100, 101])).1.PieceHashes =
      [[0, 1, 2, 3, 4, 5, 6, 7, 8, 9, 10, 11, 12, 13, 14, 15, 16, 17, 18, 19]] ∧
    (oddDescriptor.toTorrentFile toyHash (fun _ => some [100, 101])).1.Length = 100 ∧
    (oddDescriptor.toTorrentFile toyHash (fun _ => some [100, 101])).1.PieceLength = 10 :=
  have h := C30_piece_hash_table toyHash (fun _ => some [100, 101]) oddDescriptor [100, 101] rfl
  ⟨h.1, by decide, h.2.2.2.1, h.2.2.1⟩

/-! ### The assembler: order of arrival, assembled length, totality -/

/-- Two copies into disjoint ranges of a buffer commute. -/
theorem copyAt_comm (D da db : List Byte) (oa ob : Nat)
    (hfa : oa + da.length ≤ D.length) (hfb : ob + db.length ≤ D.length)
    (hdis : oa + da.length ≤ ob ∨ ob + db.length ≤ oa) :
    copyAt (copyAt D oa da) ob db = copyAt (copyAt D ob db) oa da := by
  have hla : (copyAt D oa da).length = D.length := length_copyAt _ _ _ (by omega)
  have hlb : (copyAt D ob db).length = D.length := length_copyAt _ _ _ (by omega)
  apply List.ext_getElem?
  intro i
  rw [getElem?_copyAt_of_fits (copyAt D oa da) db ob i (by rw [hla]; exact hfb),
    getElem?_copyAt_of_fits (copyAt D ob db) da oa i (by rw [hlb]; exact hfa),
    getElem?_copyAt_of_fits D da oa i hfa, getElem?_copyAt_of_fits D db ob i hfb]
  by_cases ca : oa ≤ i ∧ i < oa + da.length
  · have cb : ¬ (ob ≤ i ∧ i < ob + db.length) := by omega
    rw [if_neg cb, if_pos ca, if_pos ca]
  · rw [if_neg ca, if_neg ca]

/-- A block for a slot that is filled is rejected as a rewrite, whatever else
holds of it, once it passes the first two checks. -/
theorem AddBlock_filled_slot (p : pieceDownloadingInfo) (m : PieceMessage)
    (hid : m.PieceID = p.ID)
    (hov : ¬ u32 p.Data.length < u32 (m.BlockOffset + u32 m.Data.length))
    (hb : p.Blocks[m.BlockOffset / BlockSize]? = some true) :
    p.AddBlock m = .ok (p, some .rewriteBlock) := by
  unfold pieceDownloadingInfo.AddBlock
  rw [if_neg (by simpa using hid), if_neg hov]
  simp only [hb]

/-- In a piece of two blocks whose first slot has been filled, a block for the
first slot and a block for the second are in different slots, fit and are
disjoint, and the block for the first slot is rejected. -/
theorem filled_slot_rejects (p0 : pieceDownloadingInfo)
    (hID : p0.ID = 0) (hD : p0.Data.length = 32768) (hB : p0.Blocks = [false, false]) :
    ∃ p, p0.AddBlock { PieceID := 0, BlockOffset := 0, Data := [7] } = .ok (p, none) ∧
      p.ID = 0 ∧ p.Data.length = 32768 ∧
      p.AddBlock { PieceID := 0, BlockOffset := 0, Data := [1] } =
        .ok (p, some .rewriteBlock) := by
  have hacc : p0.AddBlock { PieceID := 0, BlockOffset := 0, Data := [7] } =
      .ok ({ p0 with
              Data := copyAt p0.Data 0 [7]
              pieceLen := u32 (p0.pieceLen + u32 [7].length)
              blocksCount := u32 (p0.blocksCount + 1)
              Blocks := p0.Blocks.set (0 / BlockSize) true }, none) :=
    AddBlock_accept p0 { PieceID := 0, BlockOffset := 0, Data := [7] } hID.symm
      (by
        show ¬ u32 p0.Data.length < u32 (0 + u32 [7].length)
        rw [hD]
        decide)
      (by
        show p0.Blocks[0 / BlockSize]? = some false
        rw [hB]
        rfl)
      (Nat.zero_le _)
  have hlen1 : (copyAt p0.Data 0 [7]).length = 32768 := by
    rw [length_copyAt _ _ _ (Nat.zero_le _), hD]
  refine ⟨_, hacc, hID, hlen1, ?_⟩
  exact AddBlock_filled_slot _ { PieceID := 0, BlockOffset := 0, Data := [1] } hID.symm
    (by
      show ¬ u32 (copyAt p0.Data 0 [7]).length < u32 (0 + u32 [1].length)
      rw [hlen1]
      decide)
    (by
      show (p0.Blocks.set (0 / BlockSize) true)[0 / BlockSize]? = some true
      rw [hB]
      rfl)

/-- C26 as stated fails: in the state of a two-block piece whose first block
has arrived, a second block for slot 0 and a block for slot 1 have the piece ID
of the assembler, occupy different slots, fit inside the buffer and are
disjoint, and yet `AddBlock` rejects the block for slot 0 as a rewrite. -/
theorem C26_counterexample :
    ∃ (p : pieceDownloadingInfo) (a b : PieceMessage),
      ReachableFrom (NewPieceDownloadInfo 0 32768) p ∧
      a.PieceID = p.ID ∧ b.PieceID = p.ID ∧
      a.BlockOffset / BlockSize ≠ b.BlockOffset / BlockSize ∧
      a.BlockOffset + a.Data.length ≤ p.Data.length ∧
      b.BlockOffset + b.Data.length ≤ p.Data.length ∧
      a.BlockOffset + a.Data.length ≤ b.BlockOffset ∧
      p.AddBlock a = .ok (p, some .rewriteBlock) := by
  obtain ⟨p, hacc, hid, hlen, hrej⟩ :=
    filled_slot_rejects (NewPieceDownloadInfo 0 32768) rfl (List.length_replicate _ _) rfl
  refine ⟨p, { PieceID := 0, BlockOffset := 0, Data := [1] },
    { PieceID := 0, BlockOffset := 16384, Data := [2] },
    ReachableFrom.call _ _ _ _ ReachableFrom.start hacc, hid.symm, hid.symm, by decide,
    ?_, ?_, by decide, hrej⟩
  · rw [hlen]
    decide
  · rw [hlen]
    decide

/-- C26 (arrival-order independence), amended: in a state reached from
`NewPieceDownloadInfo id L`, two piece messages with the piece ID of the
assembler that occupy different slots, both still empty, fit inside the buffer
and have disjoint byte ranges are accepted in either order, and both orders end
in the same state (buffer, flags and counters). -/
theorem C26_arrival_order_independence (id L : Nat) (p : pieceDownloadingInfo)
    (a b : PieceMessage) (hL : L < 4294967296)
    (hreach : ReachableFrom (NewPieceDownloadInfo id L) p)
    (hida : a.PieceID = p.ID) (hidb : b.PieceID = p.ID)
    (hslot : a.BlockOffset / BlockSize ≠ b.BlockOffset / BlockSize)
    (hfita : a.BlockOffset + a.Data.length ≤ p.Data.length)
    (hfitb : b.BlockOffset + b.Data.length ≤ p.Data.length)
    (hdis : a.BlockOffset + a.Data.length ≤ b.BlockOffset ∨
      b.BlockOffset + b.Data.length ≤ a.BlockOffset)
    (hempa : p.Blocks[a.BlockOffset / BlockSize]? = some false)
    (hempb : p.Blocks[b.BlockOffset / BlockSize]? = some false) :
    ∃ pa pb q, p.AddBlock a = .ok (pa, none) ∧ pa.AddBlock b = .ok (q, none) ∧
      p.AddBlock b = .ok (pb, none) ∧ pb.AddBlock a = .ok (q, none) ∧
      q.Data = copyAt (copyAt p.Data a.BlockOffset a.Data) b.BlockOffset b.Data ∧
      q.Blocks = (p.Blocks.set (a.BlockOffset / BlockSize) true).set
        (b.BlockOffset / BlockSize) true ∧
      q.pieceLen = (p.pieceLen + a.Data.length + b.Data.length) % 4294967296 ∧
      q.blocksCount = p.blocksCount + 2 := by
  obtain ⟨_, _, h3, h4, h5⟩ := AssemblerInv_reachable id L hL p hreach
  have hova : ¬ u32 p.Data.length < u32 (a.BlockOffset + u32 a.Data.length) := by
    simp only [u32]
    omega
  have hovb : ¬ u32 p.Data.length < u32 (b.BlockOffset + u32 b.Data.length) := by
    simp only [u32]
    omega
  have hla : (copyAt p.Data a.BlockOffset a.Data).length = p.Data.length :=
    length_copyAt _ _ _ (by omega)
  have hlb : (copyAt p.Data b.BlockOffset b.Data).length = p.Data.length :=
    length_copyAt _ _ _ (by omega)
  have ha := AddBlock_accept p a hida hova hempa (by omega)
  have hb := AddBlock_accept p b hidb hovb hempb (by omega)
  have hab := AddBlock_accept
    { p with
        Data := copyAt p.Data a.BlockOffset a.Data
        pieceLen := u32 (p.pieceLen + u32 a.Data.length)
        blocksCount := u32 (p.blocksCount + 1)
        Blocks := p.Blocks.set (a.BlockOffset / BlockSize) true } b
    (show b.PieceID = p.ID from hidb)
    (show ¬ u32 (copyAt p.Data a.BlockOffset a.Data).length <
        u32 (b.BlockOffset + u32 b.Data.length) by rw [hla]; exact hovb)
    (show (p.Blocks.set (a.BlockOffset / BlockSize) true)[b.BlockOffset / BlockSize]? =
        some false by rw [List.getElem?_set_ne hslot]; exact hempb)
    (show b.BlockOffset ≤ (copyAt p.Data a.BlockOffset a.Data).length by rw [hla]; omega)
  have hba := AddBlock_accept
    { p with
        Data := copyAt p.Data b.BlockOffset b.Data
        pieceLen := u32 (p.pieceLen + u32 b.Data.length)
        blocksCount := u32 (p.blocksCount + 1)
        Blocks := p.Blocks.set (b.BlockOffset / BlockSize) true } a
    (show a.PieceID = p.ID from hida)
    (show ¬ u32 (copyAt p.Data b.BlockOffset b.Data).length <
        u32 (a.BlockOffset + u32 a.Data.length) by rw [hlb]; exact hova)
    (show (p.Blocks.set (b.BlockOffset / BlockSize) true)[a.BlockOffset / BlockSize]? =
        some false by rw [List.getElem?_set_ne (Ne.symm hslot)]; exact hempa)
    (show a.BlockOffset ≤ (copyAt p.Data b.BlockOffset b.Data).length by rw [hlb]; omega)
  have e1 : copyAt (copyAt p.Data b.BlockOffset b.Data) a.BlockOffset a.Data =
      copyAt (copyAt p.Data a.BlockOffset a.Data) b.BlockOffset b.Data :=
    (copyAt_comm p.Data a.Data b.Data _ _ hfita hfitb hdis).symm
  have e2 : u32 (u32 (p.pieceLen + u32 b.Data.length) + u32 a.Data.length) =
      u32 (u32 (p.pieceLen + u32 a.Data.length) + u32 b.Data.length) := by
    simp only [u32]
    omega
  have e3 : (p.Blocks.set (b.BlockOffset / BlockSize) true).set (a.BlockOffset / BlockSize) true =
      (p.Blocks.set (a.BlockOffset / BlockSize) true).set (b.BlockOffset / BlockSize) true :=
    List.set_comm _ _ _ (Ne.symm hslot)
  have e4 : u32 (u32 (p.blocksCount + 1) + 1) = p.blocksCount + 2 := by
    have hc := count_set_true p.Blocks _ hempa
    have hlt : b.BlockOffset / BlockSize < p.Blocks.length := by
      by_contra hcon
      rw [List.getElem?_eq_none (by omega)] at hempb
      cases hempb
    have hc2 := count_set_true (p.Blocks.set (a.BlockOffset / BlockSize) true)
      (b.BlockOffset / BlockSize) (by rw [List.getElem?_set_ne hslot]; exact hempb)
    have : L / BlockSize ≤ L := Nat.div_le_self _ _
    simp only [List.length_set] at hc2
    simp only [u32]
    omega
  have e5 : u32 (u32 (p.pieceLen + u32 a.Data.length) + u32 b.Data.length) =
      (p.pieceLen + a.Data.length + b.Data.length) % 4294967296 := by
    simp only [u32]
    omega
  refine ⟨_, _, _, ha, hab, hb, ?_, rfl, rfl, e5, e4⟩
  rw [hba]
  simp only [e1, e2, e3]

theorem C26_arrival_order_independence_witness :
    ∃ pa pb q,
      (NewPieceDownloadInfo 0 32768).AddBlock { PieceID := 0, BlockOffset := 0, Data := [1] } =
        .ok (pa, none) ∧
      pa.AddBlock { PieceID := 0, BlockOffset := 16384, Data := [2] } = .ok (q, none) ∧
      (NewPieceDownloadInfo 0 32768).AddBlock
          { PieceID := 0, BlockOffset := 16384, Data := [2] } = .ok (pb, none) ∧
      pb.AddBlock { PieceID := 0, BlockOffset := 0, Data := [1] } = .ok (q, none) ∧
      q.blocksCount = 2 := by
  obtain ⟨pa, pb, q, h1, h2, h3, h4, _, _, _, h8⟩ :=
    C26_arrival_order_independence 0 32768 (NewPieceDownloadInfo 0 32768)
      { PieceID := 0, BlockOffset := 0, Data := [1] }
      { PieceID := 0, BlockOffset := 16384, Data := [2] }
      (by decide) ReachableFrom.start rfl rfl (by decide)
      (by simp only [NewPieceDownloadInfo, List.length_replicate]; decide)
      (by simp only [NewPieceDownloadInfo, List.length_replicate]; decide)
      (Or.inl (by decide))
      (by simp only [NewPieceDownloadInfo, BlockSize]; decide)
      (by simp only [NewPieceDownloadInfo, BlockSize]; decide)
  exact ⟨pa, pb, q, h1, h2, h3, h4, h8⟩

/-- Two accepted blocks in different slots that overlap: the counter of
downloaded bytes passes the length of the buffer and `Piece` faults. -/
theorem overlapping_blocks (p0 : pieceDownloadingInfo) (d1 d2 : List Byte)
    (hID : p0.ID = 0) (hD : p0.Data.length = 32768) (hB : p0.Blocks = [false, false])
    (hpl : p0.pieceLen = 0) (hbc : p0.blocksCount = 0) (hmax : p0.maxPieceLen = 32768)
    (h1 : d1.length = 16385) (h2 : d2.length = 16384) :
    ∃ p q, p0.AddBlock { PieceID := 0, BlockOffset := 0, Data := d1 } = .ok (p, none) ∧
      p.AddBlock { PieceID := 0, BlockOffset := 16384, Data := d2 } = .ok (q, none) ∧
      q.Data.length = 32768 ∧ q.pieceLen = 32769 ∧ q.Completed = true ∧
      q.Piece = .error .sliceBounds := by
  have hacc1 : p0.AddBlock { PieceID := 0, BlockOffset := 0, Data := d1 } =
      .ok ({ p0 with
              Data := copyAt p0.Data 0 d1
              pieceLen := u32 (p0.pieceLen + u32 d1.length)
              blocksCount := u32 (p0.blocksCount + 1)
              Blocks := p0.Blocks.set (0 / BlockSize) true }, none) :=
    AddBlock_accept p0 { PieceID := 0, BlockOffset := 0, Data := d1 } hID.symm
      (by
        show ¬ u32 p0.Data.length < u32 (0 + u32 d1.length)
        rw [hD, h1]
        decide)
      (by
        show p0.Blocks[0 / BlockSize]? = some false
        rw [hB]
        rfl)
      (Nat.zero_le _)
  have hlen1 : (copyAt p0.Data 0 d1).length = 32768 := by
    rw [length_copyAt _ _ _ (Nat.zero_le _), hD]
  have hacc2 := AddBlock_accept
    { p0 with
        Data := copyAt p0.Data 0 d1
        pieceLen := u32 (p0.pieceLen + u32 d1.length)
        blocksCount := u32 (p0.blocksCount + 1)
        Blocks := p0.Blocks.set (0 / BlockSize) true }
    { PieceID := 0, BlockOffset := 16384, Data := d2 } hID.symm
    (by
      show ¬ u32 (copyAt p0.Data 0 d1).length < u32 (16384 + u32 d2.length)
      rw [hlen1, h2]
      decide)
    (by
      show (p0.Blocks.set (0 / BlockSize) true)[16384 / BlockSize]? = some false
      rw [hB]
      rfl)
    (by
      show 16384 ≤ (copyAt p0.Data 0 d1).length
      rw [hlen1]
      decide)
  have hl : (copyAt (copyAt p0.Data 0 d1) 16384 d2).length = 32768 := by
    rw [length_copyAt _ _ _ (by rw [hlen1]; decide), hlen1]
  refine ⟨_, _, hacc1, hacc2, hl, ?_, ?_, ?_⟩
  · show u32 (u32 (p0.pieceLen + u32 d1.length) + u32 d2.length) = 32769
    rw [hpl, h1, h2]
    rfl
  · show decide (u32 (u32 (p0.blocksCount + 1) + 1) = p0.maxPieceLen / BlockSize) = true
    rw [hbc, hmax]
    rfl
  · show (if (copyAt (copyAt p0.Data 0 d1) 16384 d2).length <
        u32 (u32 (p0.pieceLen + u32 d1.length) + u32 d2.length)
      then Except.error Panic.sliceBounds else _) = _
    rw [hl, hpl, h1, h2]
    rfl

/-- C27 (assembled length within the buffer), evaluated at a piece of two
blocks: a block of 16385 bytes at offset 0 and a block of 16384 bytes at offset
16384 are both accepted, in different slots; afterwards `pieceLen` is 32769 in a
buffer of 32768 bytes, the piece counts as completed, and `Piece()` faults on
`Data[:pieceLen]`. -/
theorem C27_piece_length_exceeds_buffer :
    ∃ p q, (NewPieceDownloadInfo 0 32768).AddBlock
          { PieceID := 0, BlockOffset := 0, Data := List.replicate 16385 1 } = .ok (p, none) ∧
      p.AddBlock { PieceID := 0, BlockOffset := 16384, Data := List.replicate 16384 2 } =
        .ok (q, none) ∧
      ReachableFrom (NewPieceDownloadInfo 0 32768) q ∧
      q.Data.length = 32768 ∧ q.pieceLen = 32769 ∧ q.Completed = true ∧
      q.Piece = .error .sliceBounds := by
  obtain ⟨p, q, ha, hb, hl, hp, hc, hf⟩ :=
    overlapping_blocks (NewPieceDownloadInfo 0 32768) (List.replicate 16385 1)
      (List.replicate 16384 2) rfl (List.length_replicate _ _) rfl rfl rfl rfl
      (List.length_replicate _ _) (List.length_replicate _ _)
  exact ⟨p, q, ha, hb,
    ReachableFrom.call _ _ _ _ (ReachableFrom.call _ _ _ _ ReachableFrom.start ha) hb,
    hl, hp, hc, hf⟩

/-- C28 (totality of `AddBlock`), evaluated at a piece shorter than a block, at
a piece that is not a whole number of blocks, and at a block without data at the
end of a piece of one block: the piece-ID check and the overflow check pass,
`Blocks` has `L / 16384` slots, and indexing it at `BlockOffset / 16384` faults. -/
theorem C28_slot_index_faults :
    (NewPieceDownloadInfo 0 100).AddBlock { PieceID := 0, BlockOffset := 0, Data := [1] } =
      .error .indexOutOfRange ∧
    0 + [1].length ≤ 100 ∧ (NewPieceDownloadInfo 0 100).Blocks.length = 0 ∧
    (NewPieceDownloadInfo 0 20000).AddBlock { PieceID := 0, BlockOffset := 16384, Data := [1] } =
      .error .indexOutOfRange ∧
    16384 + [1].length ≤ 20000 ∧ (NewPieceDownloadInfo 0 20000).Blocks.length = 1 ∧
    (NewPieceDownloadInfo 0 16384).AddBlock { PieceID := 0, BlockOffset := 16384, Data := [] } =
      .error .indexOutOfRange ∧
    16384 + ([] : List Byte).length ≤ 16384 ∧
    (NewPieceDownloadInfo 0 16384).Blocks.length = 1 := by
  refine ⟨?_, by decide, ?_, ?_, by decide, ?_, ?_, by decide, ?_⟩
  · unfold pieceDownloadingInfo.AddBlock
    simp only [NewPieceDownloadInfo, List.length_replicate, List.getElem?_replicate]
    rfl
  · simp only [NewPieceDownloadInfo, List.length_replicate]
    rfl
  · unfold pieceDownloadingInfo.AddBlock
    simp only [NewPieceDownloadInfo, List.length_replicate, List.getElem?_replicate]
    rfl
  · simp only [NewPieceDownloadInfo, List.length_replicate]
    rfl
  · unfold pieceDownloadingInfo.AddBlock
    simp only [NewPieceDownloadInfo, List.length_replicate, List.getElem?_replicate]
    rfl
  · simp only [NewPieceDownloadInfo, List.length_replicate]
    rfl

/-- Where the piece is a whole number of blocks and the sum of the overflow
check does not wrap, the slot index of a block with data that passes the checks
is in range: `AddBlock` returns. -/
theorem AddBlock_returns (id L : Nat) (p : pieceDownloadingInfo) (m : PieceMessage)
    (hL : L < 4294967296) (hmul : L % BlockSize = 0)
    (hreach : ReachableFrom (NewPieceDownloadInfo id L) p)
    (hd : 0 < m.Data.length) (hnowrap : m.BlockOffset + m.Data.length < 4294967296) :
    ∃ q e, p.AddBlock m = .ok (q, e) := by
  obtain ⟨_, _, h3, h4, _⟩ := AssemblerInv_reachable id L hL p hreach
  unfold pieceDownloadingInfo.AddBlock
  split
  · exact ⟨_, _, rfl⟩
  · split
    · exact ⟨_, _, rfl⟩
    · rename_i hov
      have hfit : m.BlockOffset + m.Data.length ≤ L := by
        simp only [u32, h3] at hov
        omega
      have hlt : m.BlockOffset / BlockSize < p.Blocks.length := by
        rw [h4]
        simp only [BlockSize] at hmul ⊢
        omega
      simp only [List.getElem?_eq_getElem hlt]
      split
      · rename_i hc
        cases hc
      · exact ⟨_, _, rfl⟩
      · rw [if_neg (by omega)]
        exact ⟨_, _, rfl⟩

/-! ### The write/read round trip -/

/-- Every byte of a file after a write: the data inside the written range, the
old byte elsewhere in the old file, a zero in the gap between the end of the old
file and the offset. -/
theorem getElem?_writeNat (file b : List Byte) (off k : Nat) (hb : b.length ≠ 0) :
    (writeNat file off b)[k]? =
      if off ≤ k ∧ k < off + b.length then b[k - off]?
      else if k < file.length then file[k]?
      else if k < off then some 0 else none := by
  by_cases c1 : off ≤ k ∧ k < off + b.length
  · rw [if_pos c1]
    exact getElem?_writeNat_inside _ _ _ _ hb c1.1 c1.2
  · rw [if_neg c1]
    by_cases c2 : k < file.length
    · rw [if_pos c2]
      exact getElem?_writeNat_outside _ _ _ _ hb c2 (by omega)
    · rw [if_neg c2]
      by_cases c3 : k < off
      · rw [if_pos c3]
        unfold writeNat
        rw [if_neg hb]
        have hm : min off file.length = file.length := by omega
        rw [List.getElem?_append_left
            (by simp only [List.length_append, List.length_take, List.length_replicate]; omega),
          List.getElem?_append_left
            (by simp only [List.length_append, List.length_take, List.length_replicate]; omega),
          List.getElem?_append_right (by simp only [List.length_take]; omega),
          List.getElem?_replicate]
        simp only [List.length_take, hm]
        rw [if_pos (by omega)]
      · rw [if_neg c3]
        exact List.getElem?_eq_none (by rw [length_writeNat _ _ _ hb]; omega)

/-- Writes to disjoint ranges commute. -/
theorem writeNat_comm (file b e : List Byte) (a c : Nat)
    (hdis : a + b.length ≤ c ∨ c + e.length ≤ a) :
    writeNat (writeNat file a b) c e = writeNat (writeNat file c e) a b := by
  by_cases hb : b.length = 0
  · simp only [writeNat, if_pos hb]
  · by_cases he : e.length = 0
    · simp only [writeNat, if_pos he]
    · apply List.ext_getElem?
      intro k
      rw [getElem?_writeNat _ _ _ _ he, getElem?_writeNat _ _ _ _ hb,
        getElem?_writeNat _ _ _ _ hb, getElem?_writeNat _ _ _ _ he,
        length_writeNat _ _ _ hb, length_writeNat _ _ _ he]
      simp only [lt_max_iff]
      split_ifs <;> first | rfl | omega

/-- The method `WritePiece` for a piece ID and a piece length that are not
negative, with the offset inside the range of `int`. -/
theorem WritePiece_natCast (td : TorrentData) (pl i : Nat) (d : List Byte)
    (hpl : td.TorrentMetadata.PieceLength = (pl : Int)) (hB : i * pl < 9223372036854775808) :
    td.WritePiece (i : Int) d = ({ td with File := writeNat td.File (i * pl) d }, none) := by
  have hx : i64 ((i : Int) * (pl : Int)) = ((i * pl : Nat) : Int) := by
    rw [← Nat.cast_mul]
    exact i64_natCast _ hB
  unfold TorrentData.WritePiece
  simp only [hpl, hx, writeAt_natCast]

/-- A piece with a valid boundary inside the range of `int`, in natural numbers. -/
theorem valid_boundary_facts (tm : TorrentMetadata) (i : Nat) (d : List Byte)
    (hPL : 0 < tm.PieceLength)
    (hB : (i : Int) * tm.PieceLength + tm.PieceLength < 9223372036854775808)
    (hvalid : (calcPieceBoundaries i tm).1 < (calcPieceBoundaries i tm).2)
    (hd : (d.length : Int) = (calcPieceBoundaries i tm).2 - (calcPieceBoundaries i tm).1) :
    ∃ pl len : Nat, tm.PieceLength = (pl : Int) ∧ tm.Length = (len : Int) ∧ 0 < pl ∧
      i * pl < len ∧ d.length = spanNat pl len i ∧ 0 < d.length ∧ d.length ≤ pl ∧
      i * pl + pl < 9223372036854775808 := by
  obtain ⟨pl, hpl⟩ := Int.eq_ofNat_of_zero_le (le_of_lt hPL)
  have hx : ((i : Int) * (pl : Int)) = ((i * pl : Nat) : Int) := by push_cast; rfl
  rw [hpl, hx] at hB
  have hBn : i * pl + pl < 9223372036854775808 := by omega
  have h1 : i64 ((i * pl : Nat) : Int) = ((i * pl : Nat) : Int) := i64_natCast _ (by omega)
  have h2 : i64 (((i * pl : Nat) : Int) + (pl : Int)) = ((i * pl + pl : Nat) : Int) := by
    rw [← Nat.cast_add]
    exact i64_natCast _ hBn
  simp only [calcPieceBoundaries, hpl, hx, h1, h2] at hvalid hd
  have hLen : 0 ≤ tm.Length := by omega
  obtain ⟨len, hlen⟩ := Int.eq_ofNat_of_zero_le hLen
  rw [hlen] at hvalid hd
  refine ⟨pl, len, hpl, hlen, by omega, by omega, ?_, by omega, by omega, hBn⟩
  unfold spanNat
  omega

/-- Pieces with different IDs that are no longer than the piece length occupy
disjoint ranges of the file. -/
theorem disjoint_pieces (pl i j a b : Nat) (hij : i ≠ j) (ha : a ≤ pl) (hb : b ≤ pl) :
    i * pl + a ≤ j * pl ∨ j * pl + b ≤ i * pl := by
  rcases Nat.lt_or_gt_of_ne hij with h | h
  · have h1 : (i + 1) * pl ≤ j * pl := Nat.mul_le_mul_right pl h
    have h2 : (i + 1) * pl = i * pl + pl := Nat.succ_mul i pl
    omega
  · have h1 : (j + 1) * pl ≤ i * pl := Nat.mul_le_mul_right pl h
    have h2 : (j + 1) * pl = j * pl + pl := Nat.succ_mul j pl
    omega

/-- Two writes of pieces with different IDs commute. -/
theorem WritePiece_comm (td : TorrentData) (pl i j : Nat) (d d2 : List Byte)
    (hpl : td.TorrentMetadata.PieceLength = (pl : Int)) (hij : i ≠ j)
    (hd : d.length ≤ pl) (hd2 : d2.length ≤ pl)
    (hiB : i * pl < 9223372036854775808) (hjB : j * pl < 9223372036854775808) :
    ((td.WritePiece (i : Int) d).1.WritePiece (j : Int) d2).1 =
      ((td.WritePiece (j : Int) d2).1.WritePiece (i : Int) d).1 := by
  rw [WritePiece_natCast td pl i d hpl hiB, WritePiece_natCast td pl j d2 hpl hjB]
  simp only
  rw [WritePiece_natCast { td with File := writeNat td.File (i * pl) d } pl j d2 hpl hjB,
    WritePiece_natCast { td with File := writeNat td.File (j * pl) d2 } pl i d hpl hiB]
  simp only
  rw [writeNat_comm _ _ _ _ _ (disjoint_pieces pl i j _ _ hij hd hd2)]

/-- The file after a sequence of writes of pieces with pairwise different IDs
does not depend on their order. -/
theorem writeAll_perm (pl : Nat) (ps qs : List (Nat × List Byte)) (h : ps.Perm qs) :
    ∀ td : TorrentData, td.TorrentMetadata.PieceLength = (pl : Int) →
      (ps.map Prod.fst).Nodup →
      (∀ p ∈ ps, p.2.length ≤ pl ∧ p.1 * pl < 9223372036854775808) →
      writeAll td ps = writeAll td qs := by
  induction h with
  | nil => intro td _ _ _; rfl
  | cons x _ ih =>
    intro td hpl hnd hlen
    simp only [writeAll, List.foldl_cons]
    simp only [List.map_cons, List.nodup_cons] at hnd
    refine ih _ ?_ hnd.2 (fun p hp => hlen p (List.mem_cons_of_mem _ hp))
    rw [WritePiece_natCast td pl x.1 x.2 hpl (hlen x (List.mem_cons_self _ _)).2]
    exact hpl
  | swap x y l =>
    intro td hpl hnd hlen
    simp only [writeAll, List.foldl_cons]
    simp only [List.map_cons, List.nodup_cons, List.mem_cons, not_or] at hnd
    rw [WritePiece_comm td pl y.1 x.1 y.2 x.2 hpl hnd.1.1
      (hlen y (List.mem_cons_self _ _)).1
      (hlen x (List.mem_cons_of_mem _ (List.mem_cons_self _ _))).1
      (hlen y (List.mem_cons_self _ _)).2
      (hlen x (List.mem_cons_of_mem _ (List.mem_cons_self _ _))).2]
  | trans h1 _ ih1 ih2 =>
    intro td hpl hnd hlen
    rw [ih1 td hpl hnd hlen]
    exact ih2 td hpl ((h1.map Prod.fst).nodup_iff.mp hnd)
      (fun p hp => hlen p (h1.mem_iff.mpr hp))

/-- A piece whose end leaves the range of `int` is written into an empty file at
its offset and is not read back. -/
theorem round_trip_end_wraps (tm : TorrentMetadata) (pl len i : Nat) (d : List Byte)
    (hpl : tm.PieceLength = (pl : Int)) (hlen : tm.Length = (len : Int))
    (hi : i < 4294967296) (hplpos : 0 < pl) (hin : i * pl < len)
    (hlenB : len < 9223372036854775808) (hplB : pl < 9223372036854775808)
    (hwrap : 9223372036854775808 ≤ i * pl + pl) (hd : d.length = len - i * pl) :
    TorrentData.WritePiece { File := [], TorrentMetadata := tm } (i : Int) d =
      ({ File := writeNat [] (i * pl) d, TorrentMetadata := tm }, none) ∧
    TorrentData.Piece { File := writeNat [] (i * pl) d, TorrentMetadata := tm } (i : Int) =
      .ok (none, some .io) := by
  refine ⟨WritePiece_natCast { File := [], TorrentMetadata := tm } pl i d hpl (by omega), ?_⟩
  apply Piece_end_wraps { File := writeNat [] (i * pl) d, TorrentMetadata := tm } pl len i hpl hlen
    hi hplpos hin hlenB hplB hwrap
  show (writeNat [] (i * pl) d).length ≤ len
  rw [length_writeNat _ _ _ (by omega), hd]
  simp only [List.length_nil]
  omega

/-- C21 as stated fails where the arithmetic of the boundaries leaves the range
of `int`, whether a valid boundary is read as `i * PieceLength < Length` or as
`begin < end` of `calcPieceBoundaries`.  In a file of `2 ^ 63 - 1` bytes in
pieces of `2 ^ 31` bytes the last piece, ID `2 ^ 32 - 1`, begins inside the file
and has `2 ^ 31 - 1` bytes; written into an empty file it is not read back: the
end `2 ^ 63` wraps, `Piece` asks for `2 ^ 31` bytes and the read fails.  With
`PieceLength = 2 ^ 62` and `Length = 1` the offset of piece 4 wraps to 0,
`calcPieceBoundaries` gives the pieces 0 and 4 the same boundary `(0, 1)`, a
write of piece 4 changes byte 0, outside `[4 * PieceLength, 4 * PieceLength + 1)`,
and the writes of pieces 0 and 4 do not commute. -/
theorem C21_counterexample :
    ((0 : Int) < farTailMeta.PieceLength ∧
      ((4294967295 : Nat) : Int) * farTailMeta.PieceLength < farTailMeta.Length ∧
      (((List.replicate 2147483647 0 : List Byte).length : Nat) : Int) =
        min (((4294967295 : Nat) : Int) * farTailMeta.PieceLength + farTailMeta.PieceLength)
            farTailMeta.Length -
          ((4294967295 : Nat) : Int) * farTailMeta.PieceLength ∧
      (TorrentData.WritePiece { File := [], TorrentMetadata := farTailMeta }
        ((4294967295 : Nat) : Int) (List.replicate 2147483647 0)).2 = none ∧
      (TorrentData.WritePiece { File := [], TorrentMetadata := farTailMeta }
        ((4294967295 : Nat) : Int) (List.replicate 2147483647 0)).1.Piece
          ((4294967295 : Nat) : Int) = .ok (none, some .io)) ∧
    ((0 : Int) < wrapZeroMeta.PieceLength ∧
      calcPieceBoundaries 0 wrapZeroMeta = (0, 1) ∧
      calcPieceBoundaries 4 wrapZeroMeta = (0, 1) ∧
      (TorrentData.WritePiece { File := [5], TorrentMetadata := wrapZeroMeta } 4 [2]).1.File =
        [2] ∧
      ((TorrentData.WritePiece { File := [], TorrentMetadata := wrapZeroMeta } 0 [1]).1.WritePiece
        4 [2]).1.File = [2] ∧
      ((TorrentData.WritePiece { File := [], TorrentMetadata := wrapZeroMeta } 4 [2]).1.WritePiece
        0 [1]).1.File = [1]) := by
  have h := round_trip_end_wraps farTailMeta 2147483648 9223372036854775807 4294967295
    (List.replicate 2147483647 0) rfl rfl (by decide) (by decide) (by decide) (by decide)
    (by decide) (by decide) (List.length_replicate _ _)
  refine ⟨⟨by decide, by decide, ?_, ?_, ?_⟩, by decide, by decide, by decide, rfl, rfl, rfl⟩
  · rw [List.length_replicate]
    decide
  · rw [h.1]
  · rw [h.1]
    exact h.2

/-- C21 (write/read round trip), amended: for a piece ID with a valid boundary
whose end `i * PieceLength + PieceLength` is below `2 ^ 63` (the arithmetic of
the boundary stays inside the range of `int`) and data of the length of that
boundary, `WritePiece(i, d)` returns no error, `Piece(i)` then returns `d`, and
every byte of the old file outside the written range is unchanged; two such
writes with different IDs commute, and the file after any number of such writes
with pairwise different IDs does not depend on their order.  Piece IDs are
`uint32` values. -/
theorem C21_write_read_round_trip (td : TorrentData) (i : Nat) (d : List Byte)
    (hPL : 0 < td.TorrentMetadata.PieceLength) (hi : i < 4294967296)
    (hB : (i : Int) * td.TorrentMetadata.PieceLength + td.TorrentMetadata.PieceLength <
      9223372036854775808)
    (hvalid : (calcPieceBoundaries i td.TorrentMetadata).1 <
      (calcPieceBoundaries i td.TorrentMetadata).2)
    (hd : (d.length : Int) =
      (calcPieceBoundaries i td.TorrentMetadata).2 -
        (calcPieceBoundaries i td.TorrentMetadata).1) :
    (td.WritePiece (i : Int) d).2 = none ∧
    (td.WritePiece (i : Int) d).1.TorrentMetadata = td.TorrentMetadata ∧
    (td.WritePiece (i : Int) d).1.Piece (i : Int) = .ok (some d, none) ∧
    (∀ k : Nat, k < td.File.length →
      ((k : Int) < (i : Int) * td.TorrentMetadata.PieceLength ∨
        (i : Int) * td.TorrentMetadata.PieceLength + (d.length : Int) ≤ (k : Int)) →
      (td.WritePiece (i : Int) d).1.File[k]? = td.File[k]?) ∧
    (∀ (j : Nat) (d2 : List Byte), j ≠ i →
      (j : Int) * td.TorrentMetadata.PieceLength + td.TorrentMetadata.PieceLength <
        9223372036854775808 →
      (calcPieceBoundaries j td.TorrentMetadata).1 <
        (calcPieceBoundaries j td.TorrentMetadata).2 →
      (d2.length : Int) =
        (calcPieceBoundaries j td.TorrentMetadata).2 -
          (calcPieceBoundaries j td.TorrentMetadata).1 →
      ((td.WritePiece (i : Int) d).1.WritePiece (j : Int) d2).1 =
        ((td.WritePiece (j : Int) d2).1.WritePiece (i : Int) d).1) ∧
    (∀ ps qs : List (Nat × List Byte), ps.Perm qs → (ps.map Prod.fst).Nodup →
      (∀ p ∈ ps,
        (p.1 : Int) * td.TorrentMetadata.PieceLength + td.TorrentMetadata.PieceLength <
          9223372036854775808 ∧
        (calcPieceBoundaries p.1 td.TorrentMetadata).1 <
          (calcPieceBoundaries p.1 td.TorrentMetadata).2 ∧
        (p.2.length : Int) =
          (calcPieceBoundaries p.1 td.TorrentMetadata).2 -
            (calcPieceBoundaries p.1 td.TorrentMetadata).1) →
      writeAll td ps = writeAll td qs) := by
  obtain ⟨pl, len, hpl, hlen, hplpos, hin, hdl, hdpos, hdle, hBn⟩ :=
    valid_boundary_facts td.TorrentMetadata i d hPL hB hvalid hd
  have hx : ((i : Int) * (pl : Int)) = ((i * pl : Nat) : Int) := by push_cast; rfl
  have hW := WritePiece_natCast td pl i d hpl (by omega)
  refine ⟨by rw [hW], by rw [hW], ?_, ?_, ?_, ?_⟩
  · rw [hW]
    apply Piece_of_readNat { td with File := writeNat td.File (i * pl) d } pl len i d hpl hlen
      hi hin hBn
    show readNat (writeNat td.File (i * pl) d) (spanNat pl len i) (i * pl) = some d
    rw [← hdl]
    exact readNat_writeNat_same _ _ _ (by omega)
  · intro k hk hout
    rw [hpl, hx] at hout
    rw [hW]
    exact getElem?_writeNat_outside _ _ _ _ (by omega) hk (by omega)
  · intro j d2 hji hB2 hv2 hd2
    obtain ⟨pl2, _, hpl2, _, _, _, _, _, hd2le, hB2n⟩ :=
      valid_boundary_facts td.TorrentMetadata j d2 hPL hB2 hv2 hd2
    have hpp : pl2 = pl := by
      have : (pl2 : Int) = (pl : Int) := by rw [← hpl2, ← hpl]
      exact_mod_cast this
    subst hpp
    exact WritePiece_comm td pl2 i j d d2 hpl (Ne.symm hji) hdle hd2le (by omega) (by omega)
  · intro ps qs hperm hnd hall
    refine writeAll_perm pl ps qs hperm td hpl hnd ?_
    intro p hp
    obtain ⟨pl2, _, hpl2, _, _, _, _, _, hle, hBp⟩ :=
      valid_boundary_facts td.TorrentMetadata p.1 p.2 hPL (hall p hp).1 (hall p hp).2.1
        (hall p hp).2.2
    have hpp : pl2 = pl := by
      have : (pl2 : Int) = (pl : Int) := by rw [← hpl2, ← hpl]
      exact_mod_cast this
    subst hpp
    exact ⟨hle, by omega⟩

/-- The test `TestTorrentDataWritePiece`: in an empty file, pieces 1 and 3 of a
seven-byte file in pieces of two bytes are written and read back, in either
order. -/
theorem C21_write_read_round_trip_witness :
    (TorrentData.WritePiece { File := [], TorrentMetadata := sevenByteMeta } 1 [2, 3]).1.Piece 1 =
      .ok (some [2, 3], none) ∧
    ((TorrentData.WritePiece { File := [], TorrentMetadata := sevenByteMeta } 1 [2, 3]).1.WritePiece
        3 [8]).1 =
      ((TorrentData.WritePiece { File := [], TorrentMetadata := sevenByteMeta } 3 [8]).1.WritePiece
        1 [2, 3]).1 ∧
    ((TorrentData.WritePiece { File := [], TorrentMetadata := sevenByteMeta } 1 [2, 3]).1.WritePiece
        3 [8]).1.File = [0, 0, 2, 3, 0, 0, 8] :=
  have h := C21_write_read_round_trip { File := [], TorrentMetadata := sevenByteMeta } 1 [2, 3]
    (by decide) (by decide) (by decide) (by decide) (by decide)
  ⟨h.2.2.1, h.2.2.2.2.1 3 [8] (by decide) (by decide) (by decide) (by decide), by decide⟩

/-! ### The speed tracker -/

theorem runUpdates_append (st : speedTracker) (us vs : List (ℚ × Int)) :
    runUpdates st (us ++ vs) =
      match runUpdates st us with
      | .error f => .error f
      | .ok st => runUpdates st vs := by
  induction us generalizing st with
  | nil => rfl
  | cons u us ih =>
    obtain ⟨now, bytes⟩ := u
    simp only [List.cons_append, runUpdates]
    cases h : st.updateDownloadingSpeed now bytes with
    | error f => rfl
    | ok st2 => exact ih st2

theorem set_replicate_self {α : Type} (n i : Nat) (a : α) :
    (List.replicate n a).set i a = List.replicate n a := by
  apply List.ext_getElem?
  intro k
  rw [List.getElem?_set]
  split
  · rename_i h
    subst h
    simp only [List.length_replicate]
    split
    · rename_i hlt
      rw [List.getElem?_replicate, if_pos hlt]
    · rename_i hlt
      rw [List.getElem?_replicate, if_neg hlt]
  · rfl

/-- One update `D` seconds after the last one, all records so far being `(B, D)`. -/
theorem update_equal_intervals (n k : Nat) (hn : 1 ≤ n) (t0 : ℚ) (B : Int) (D : ℚ) (hD : 0 < D) :
    speedTracker.updateDownloadingSpeed
        { lastDownloadSpeedUpdate := some (t0 + (k : ℚ) * D)
          history := List.replicate (min k (n + 1)) { downloaded := B, elapsedSeconds := D }
          maxHistoryLen := (n : Int)
          speedRecordCount := (k : Int) }
        (t0 + ((k : ℚ) + 1) * D) B =
      .ok { lastDownloadSpeedUpdate := some (t0 + ((k + 1 : Nat) : ℚ) * D)
            history := List.replicate (min (k + 1) (n + 1)) { downloaded := B, elapsedSeconds := D }
            maxHistoryLen := (n : Int)
            speedRecordCount := ((k + 1 : Nat) : Int) } := by
  have hdiff : t0 + ((k : ℚ) + 1) * D - (t0 + (k : ℚ) * D) = D := by ring
  have hcast : (((k + 1 : Nat) : ℚ)) = (k : ℚ) + 1 := by push_cast; rfl
  unfold speedTracker.updateDownloadingSpeed
  simp only [hdiff, gt_iff_lt, hD, if_true, List.length_replicate, hcast]
  by_cases hk : k ≤ n
  · have h1 : min k (n + 1) = k := by omega
    have h2 : min (k + 1) (n + 1) = k + 1 := by omega
    have h3 : ¬ ((n : Int) < (k : Int)) := by omega
    simp only [h1, h2, h3, if_false]
    rw [← List.replicate_succ']
    simp
  · have h1 : min k (n + 1) = n + 1 := by omega
    have h2 : min (k + 1) (n + 1) = n + 1 := by omega
    have h3 : (n : Int) < ((n + 1 : Nat) : Int) := by omega
    have h4 : ¬ ((n : Int) = 0) := by omega
    have h5 : Int.tmod (k : Int) (n : Int) = ((k % n : Nat) : Int) := rfl
    have h6 : k % n < n := Nat.mod_lt _ (by omega)
    have h7 : ¬ (((k % n : Nat) : Int) < 0 ∨ ((k % n : Nat) : Int) ≥ ((n + 1 : Nat) : Int)) := by
      omega
    simp only [h1, h2, h3, h4, h5, h7, if_true, if_false, Int.toNat_ofNat, set_replicate_self]
    simp

/-- After a first update at `t0`, `K` updates `D` seconds apart that each report
`B` bytes leave `min K (n + 1)` records `(B, D)`. -/
theorem run_equal_intervals (n : Nat) (hn : 1 ≤ n) (t0 : ℚ) (B : Int) (D : ℚ) (hD : 0 < D)
    (K : Nat) :
    runUpdates
        { lastDownloadSpeedUpdate := some t0, history := [], maxHistoryLen := (n : Int),
          speedRecordCount := 0 }
        ((List.range K).map (fun (k : Nat) => (t0 + ((k : ℚ) + 1) * D, B))) =
      .ok { lastDownloadSpeedUpdate := some (t0 + (K : ℚ) * D)
            history := List.replicate (min K (n + 1)) { downloaded := B, elapsedSeconds := D }
            maxHistoryLen := (n : Int)
            speedRecordCount := (K : Int) } := by
  induction K with
  | zero => simp [runUpdates]
  | succ K ih =>
    rw [List.range_succ, List.map_append, runUpdates_append, ih]
    simp only [List.map_cons, List.map_nil, runUpdates]
    rw [update_equal_intervals n K hn t0 B D hD]

/-- An update keeps the capacity and leaves at most `n + 1` records in a tracker
of capacity `n`. -/
theorem update_history_bound (n : Nat) (st st2 : speedTracker) (now : ℚ) (bytes : Int)
    (hmax : st.maxHistoryLen = (n : Int)) (hlen : st.history.length ≤ n + 1)
    (h : st.updateDownloadingSpeed now bytes = .ok st2) :
    st2.maxHistoryLen = (n : Int) ∧ st2.history.length ≤ n + 1 := by
  unfold speedTracker.updateDownloadingSpeed at h
  split at h
  · simp only [Except.ok.injEq] at h
    subst h
    exact ⟨hmax, hlen⟩
  · simp only at h
    split at h
    · cases h
    · rename_i hist hh
      simp only [Except.ok.injEq] at h
      subst h
      refine ⟨hmax, ?_⟩
      show hist.length ≤ n + 1
      split at hh
      · split at hh
        · split at hh
          · cases hh
          · split at hh
            · cases hh
            · simp only [Except.ok.injEq] at hh
              subst hh
              rw [List.length_set]
              exact hlen
        · rename_i hgt
          simp only [Except.ok.injEq] at hh
          subst hh
          rw [hmax] at hgt
          simp only [List.length_append, List.length_singleton]
          omega
      · simp only [Except.ok.injEq] at hh
        subst hh
        exact hlen

/-- C25 (speed ring bound), evaluated at a tracker of one record with updates
one second apart: after the third update the history holds two records, and
from then on every new record goes to slot 0, so that the record of the third
update is never replaced although it is the oldest. -/
theorem C25_history_exceeds_capacity :
    runUpdates (NewSpeedTracker 1) [(0, 10), (1, 20), (2, 30)] =
      .ok { lastDownloadSpeedUpdate := some 2
            history := [{ downloaded := 20, elapsedSeconds := 1 },
                        { downloaded := 30, elapsedSeconds := 1 }]
            maxHistoryLen := 1
            speedRecordCount := 2 } ∧
    runUpdates (NewSpeedTracker 1) [(0, 10), (1, 20), (2, 30), (3, 40), (4, 50)] =
      .ok { lastDownloadSpeedUpdate := some 4
            history := [{ downloaded := 50, elapsedSeconds := 1 },
                        { downloaded := 30, elapsedSeconds := 1 }]
            maxHistoryLen := 1
            speedRecordCount := 4 } := by
  constructor <;>
    norm_num [runUpdates, NewSpeedTracker, speedTracker.updateDownloadingSpeed, Int.tmod]

/-! ### The download loop: counters and flow control -/

theorem Conn.SetDeadline_output (c : Conn) : c.SetDeadline.1.output = c.output := by
  unfold Conn.SetDeadline
  split <;> rfl

theorem Conn.Write_output (c : Conn) (b : List Byte) :
    ((c.Write b).2 = none → (c.Write b).1.output = c.output ++ b) ∧
    ((c.Write b).2 ≠ none → (c.Write b).1.output = c.output) := by
  unfold Conn.Write
  split <;> simp

theorem Conn.ReadFull_output (c d : Conn) (n : Nat) (o : Option (List Byte))
    (h : c.ReadFull n = (d, o)) : d.output = c.output := by
  unfold Conn.ReadFull at h
  simp only [Prod.mk.injEq] at h
  rw [← h.1]

theorem ReceiveMessage_output (c : Conn) : (ReceiveMessage c).1.output = c.output := by
  unfold ReceiveMessage
  split
  · rename_i heq
    exact Conn.ReadFull_output _ _ _ _ heq
  · rename_i heq
    have h1 := Conn.ReadFull_output _ _ _ _ heq
    simp only
    split
    · exact h1
    · split
      · rename_i heq2
        rw [← h1]
        exact Conn.ReadFull_output _ _ _ _ heq2
      · rename_i heq2
        have h2 := Conn.ReadFull_output _ _ _ _ heq2
        split
        · simp only
          rw [h2, h1]
        · simp only
          rw [h2, h1]

/-- Receiving a message changes nothing of the peer but the input of its
connection. -/
theorem Peer.ReceiveMessage_frame (p q : Peer) (msg : Option Message) (e : Option Error)
    (h : p.ReceiveMessage = (q, msg, e)) :
    q.Choking = p.Choking ∧ q.Bitfield = p.Bitfield ∧ q.Addr = p.Addr ∧
      q.Con.output = p.Con.output := by
  unfold Peer.ReceiveMessage at h
  have ho := ReceiveMessage_output p.Con
  rcases hrm : Torrent.ReceiveMessage p.Con with ⟨d, msg2, e2⟩
  rw [hrm] at ho
  simp only [hrm, Prod.mk.injEq] at h
  obtain ⟨rfl, _, _⟩ := h
  exact ⟨rfl, rfl, rfl, ho⟩

/-- Sending a message changes nothing of the peer but its connection, to whose
output the frame is appended when the write succeeds. -/
theorem Peer.SendMessage_frame (p q : Peer) (m : Option Message) (e : Option Error)
    (h : p.SendMessage m = .ok (q, e)) :
    q.Choking = p.Choking ∧ q.Bitfield = p.Bitfield ∧ q.Addr = p.Addr ∧
      (e ≠ none → q.Con.output = p.Con.output) ∧
      (e = none → ∃ bytes, Message.Serialize m = .ok bytes ∧
        q.Con.output = p.Con.output ++ bytes) := by
  unfold Peer.SendMessage at h
  split at h
  · cases h
  · rename_i bytes hser
    have hw := Conn.Write_output p.Con bytes
    simp only [Except.ok.injEq, Prod.mk.injEq] at h
    obtain ⟨rfl, rfl⟩ := h
    exact ⟨rfl, rfl, rfl, hw.2, fun he => ⟨bytes, hser, hw.1 he⟩⟩

/-- An iteration that receives a Piece message which the assembler accepts. -/
theorem downloadPieceStep_piece (pieceID : Nat) (tmeta : TorrentMetadata) (s : LoopState)
    (c : Conn) (p : Peer) (msg : Message) (pmsg : PieceMessage) (pd : pieceDownloadingInfo)
    (hd : s.p.Con.SetDeadline = (c, none))
    (hno : ¬ (s.p.Choking = false ∧ s.backlog < maxBacklog ∧
      s.pdInfo.requested < ((u32OfInt tmeta.PieceLength / BlockSize : Nat) : Int)))
    (hr : Peer.ReceiveMessage { s.p with Con := c } = (p, some msg, none))
    (hid : msg.ID = MsgPiece) (hconv : ToPieceMessage (some msg) = (some pmsg, none))
    (hadd : pieceDownloadingInfo.AddBlock
      { s.pdInfo with downloaded := s.pdInfo.downloaded + 1 } pmsg = .ok (pd, none)) :
    downloadPieceStep pieceID tmeta s =
      .next { p := p, pdInfo := pd, backlog := s.backlog - 1 } := by
  unfold downloadPieceStep
  simp only [hd]
  rw [if_neg hno]
  simp only [hr, hid, if_true, hconv, hadd]

/-- An iteration that receives a message other than a Piece message. -/
theorem downloadPieceStep_other (pieceID : Nat) (tmeta : TorrentMetadata) (s : LoopState)
    (c : Conn) (p : Peer) (msg : Message)
    (hd : s.p.Con.SetDeadline = (c, none))
    (hno : ¬ (s.p.Choking = false ∧ s.backlog < maxBacklog ∧
      s.pdInfo.requested < ((u32OfInt tmeta.PieceLength / BlockSize : Nat) : Int)))
    (hr : Peer.ReceiveMessage { s.p with Con := c } = (p, some msg, none))
    (hid : msg.ID ≠ MsgPiece) :
    downloadPieceStep pieceID tmeta s =
      if msg.ID = MsgChoke then .next { s with p := { p with Choking := true } }
      else if msg.ID = MsgUnchoke then .next { s with p := { p with Choking := false } }
      else .next { s with p := p } := by
  unfold downloadPieceStep
  simp only [hd]
  rw [if_neg hno]
  simp only [hr, hid, if_false]

/-- What an iteration that goes on to the next one does to the counters: the
backlog stays at most 5, the requests stay at most the block count, and
`backlog - (requested - downloaded)` does not change. -/
theorem downloadPieceStep_counters (pieceID : Nat) (tmeta : TorrentMetadata)
    (s t : LoopState) (h : downloadPieceStep pieceID tmeta s = .next t) :
    (s.backlog ≤ 5 → t.backlog ≤ 5) ∧
    (s.pdInfo.requested ≤ ((u32OfInt tmeta.PieceLength / BlockSize : Nat) : Int) →
      t.pdInfo.requested ≤ ((u32OfInt tmeta.PieceLength / BlockSize : Nat) : Int)) ∧
    t.backlog - t.pdInfo.requested + t.pdInfo.downloaded =
      s.backlog - s.pdInfo.requested + s.pdInfo.downloaded := by
  rcases hd : s.p.Con.SetDeadline with ⟨c, e⟩
  unfold downloadPieceStep at h
  simp only [hd] at h
  cases e with
  | some err => simp only [reduceCtorEq] at h
  | none =>
    simp only at h
    split at h
    · rename_i hcond
      split at h
      · simp only [reduceCtorEq] at h
      · simp only [reduceCtorEq] at h
      · simp only [StepResult.next.injEq] at h
        subst h
        simp only [maxBacklog] at hcond
        simp only
        omega
    · rcases hr : Peer.ReceiveMessage { s.p with Con := c } with ⟨p, msg, e⟩
      simp only [hr] at h
      cases e with
      | some err => simp only [reduceCtorEq] at h
      | none =>
        cases msg with
        | none =>
          simp only at h
          split at h <;> simp only [reduceCtorEq] at h
        | some m =>
          simp only at h
          split at h
          · split at h
            · simp only [reduceCtorEq] at h
            · simp only [reduceCtorEq] at h
            · split at h
              · simp only [reduceCtorEq] at h
              · simp only [reduceCtorEq] at h
              · rename_i pd hadd
                have hreq := AddBlock_requested _ _ _ _ hadd
                simp only [StepResult.next.injEq] at h
                subst h
                simp only [hreq.1, hreq.2]
                omega
          · split at h
            · simp only [StepResult.next.injEq] at h
              subst h
              exact ⟨fun h => h, fun h => h, rfl⟩
            · split at h
              · simp only [StepResult.next.injEq] at h
                subst h
                exact ⟨fun h => h, fun h => h, rfl⟩
              · simp only [StepResult.next.injEq] at h
                subst h
                exact ⟨fun h => h, fun h => h, rfl⟩

/-- In every state of the loop of `downloadPiece` the backlog is at most 5, at
most `blockCount` requests have been emitted, and the backlog is
`requested - downloaded`. -/
theorem LoopReachable_counters (pieceID : Nat) (tmeta : TorrentMetadata) (p0 : Peer)
    (t : LoopState)
    (h : LoopReachable pieceID tmeta
      { p := p0, pdInfo := NewPieceDownloadInfo pieceID (u32OfInt tmeta.PieceLength),
        backlog := 0 } t) :
    t.backlog ≤ 5 ∧
    t.pdInfo.requested ≤ ((u32OfInt tmeta.PieceLength / BlockSize : Nat) : Int) ∧
    t.backlog = t.pdInfo.requested - t.pdInfo.downloaded := by
  induction h with
  | start =>
    refine ⟨?_, ?_, rfl⟩
    · show (0 : Int) ≤ 5
      decide
    · show (0 : Int) ≤ ((u32OfInt tmeta.PieceLength / BlockSize : Nat) : Int)
      exact Int.ofNat_nonneg _
  | iter s t _ _ hstep ih =>
    obtain ⟨h1, h2, h3⟩ := downloadPieceStep_counters pieceID tmeta s t hstep
    refine ⟨h1 ih.1, h2 ih.2.1, ?_⟩
    have := ih.2.2
    omega

/-- A piece of one block and a peer that is still choking and sends one block
that was not requested: the iteration that reads the Piece message ends with
`downloaded = 1`, `requested = 0` and `backlog = -1`. -/
theorem unsolicited_piece_step :
    ∃ t, downloadPieceStep 0 rogueMeta
          { p := peerSending [0, 0, 0, 10, 7, 0, 0, 0, 0, 0, 0, 0, 0, 9]
            pdInfo := NewPieceDownloadInfo 0 16384
            backlog := 0 } = .next t ∧
      LoopReachable 0 rogueMeta
        { p := peerSending [0, 0, 0, 10, 7, 0, 0, 0, 0, 0, 0, 0, 0, 9]
          pdInfo := NewPieceDownloadInfo 0 (u32OfInt rogueMeta.PieceLength)
          backlog := 0 } t ∧
      t.pdInfo.downloaded = 1 ∧ t.pdInfo.requested = 0 ∧ t.backlog = -1 ∧
      ¬ (t.pdInfo.downloaded ≤ t.pdInfo.requested) := by
  have hlen : (NewPieceDownloadInfo 0 16384).Data.length = 16384 := List.length_replicate _ _
  have hadd := AddBlock_accept
    { NewPieceDownloadInfo 0 16384 with downloaded := (NewPieceDownloadInfo 0 16384).downloaded + 1 }
    { PieceID := 0, BlockOffset := 0, Data := [9] } rfl
    (by
      show ¬ u32 (NewPieceDownloadInfo 0 16384).Data.length < u32 (0 + u32 [9].length)
      rw [hlen]
      decide)
    (by
      show (NewPieceDownloadInfo 0 16384).Blocks[0 / BlockSize]? = some false
      rfl)
    (Nat.zero_le _)
  have hstep := downloadPieceStep_piece 0 rogueMeta
    { p := peerSending [0, 0, 0, 10, 7, 0, 0, 0, 0, 0, 0, 0, 0, 9]
      pdInfo := NewPieceDownloadInfo 0 16384
      backlog := 0 }
    (Conn.ofInput [0, 0, 0, 10, 7, 0, 0, 0, 0, 0, 0, 0, 0, 9]) (peerSending [])
    { ID := 7, Payload := [0, 0, 0, 0, 0, 0, 0, 0, 9] }
    { PieceID := 0, BlockOffset := 0, Data := [9] } _
    rfl (by decide) rfl rfl rfl hadd
  refine ⟨_, hstep, ?_, rfl, rfl, rfl, by decide⟩
  exact LoopReachable.iter _ _ LoopReachable.start (by decide) hstep

/-- C23 as stated fails on an unsolicited Piece message: for a piece of one
block, a peer that is still choking, so that no request is sent, sends one
block; the iteration that reads it decrements `backlog` and increments
`downloaded`, and the loop reaches a state with `downloaded = 1`,
`requested = 0` and `backlog = -1`, where `downloaded ≤ requested` is false and
the backlog is negative. -/
theorem C23_counterexample :
    ∃ t, downloadPieceStep 0 rogueMeta
          { p := peerSending [0, 0, 0, 10, 7, 0, 0, 0, 0, 0, 0, 0, 0, 9]
            pdInfo := NewPieceDownloadInfo 0 16384
            backlog := 0 } = .next t ∧
      LoopReachable 0 rogueMeta
        { p := peerSending [0, 0, 0, 10, 7, 0, 0, 0, 0, 0, 0, 0, 0, 9]
          pdInfo := NewPieceDownloadInfo 0 (u32OfInt rogueMeta.PieceLength)
          backlog := 0 } t ∧
      t.pdInfo.downloaded = 1 ∧ t.pdInfo.requested = 0 ∧ t.backlog = -1 ∧
      ¬ (t.pdInfo.downloaded ≤ t.pdInfo.requested) :=
  unsolicited_piece_step

/-- C23 (counter invariant), amended: in every state reached by the loop of
`downloadPiece`, whatever the peer sends, `requested ≤ blockCount` holds, where
`blockCount = PieceLength / 16384`, the backlog is `requested - downloaded`, and
the backlog is at most 5. -/
theorem C23_counter_invariant (pieceID : Nat) (tmeta : TorrentMetadata) (p0 : Peer)
    (t : LoopState)
    (h : LoopReachable pieceID tmeta
      { p := p0, pdInfo := NewPieceDownloadInfo pieceID (u32OfInt tmeta.PieceLength),
        backlog := 0 } t) :
    t.pdInfo.requested ≤ ((u32OfInt tmeta.PieceLength / BlockSize : Nat) : Int) ∧
    t.backlog = t.pdInfo.requested - t.pdInfo.downloaded ∧
    t.backlog ≤ 5 :=
  ⟨(LoopReachable_counters pieceID tmeta p0 t h).2.1,
    (LoopReachable_counters pieceID tmeta p0 t h).2.2,
    (LoopReachable_counters pieceID tmeta p0 t h).1⟩

/-- The state after the unsolicited block: the backlog is `-1`, the difference
of `requested = 0` and `downloaded = 1`. -/
theorem C23_counter_invariant_witness :
    ∃ t, LoopReachable 0 rogueMeta
        { p := peerSending [0, 0, 0, 10, 7, 0, 0, 0, 0, 0, 0, 0, 0, 9]
          pdInfo := NewPieceDownloadInfo 0 (u32OfInt rogueMeta.PieceLength)
          backlog := 0 } t ∧
      t.backlog = -1 ∧
      (t.pdInfo.requested ≤ ((u32OfInt rogueMeta.PieceLength / BlockSize : Nat) : Int) ∧
        t.backlog = t.pdInfo.requested - t.pdInfo.downloaded ∧
        t.backlog ≤ 5) := by
  obtain ⟨t, _, hreach, _, _, hb, _⟩ := unsolicited_piece_step
  exact ⟨t, hreach, hb, C23_counter_invariant 0 rogueMeta _ t hreach⟩

/-- An iteration entered in a state in which no request may be sent writes
nothing, or the four zero bytes of a keep-alive reply. -/
theorem downloadPieceStep_no_request (pieceID : Nat) (tmeta : TorrentMetadata) (s : LoopState)
    (hno : ¬ (s.p.Choking = false ∧ s.backlog < maxBacklog ∧
      s.pdInfo.requested < ((u32OfInt tmeta.PieceLength / BlockSize : Nat) : Int))) :
    (downloadPieceStep pieceID tmeta s).state.p.Con.output = s.p.Con.output ∨
    (downloadPieceStep pieceID tmeta s).state.p.Con.output = s.p.Con.output ++ [0, 0, 0, 0] := by
  have hso := Conn.SetDeadline_output s.p.Con
  rcases hd : s.p.Con.SetDeadline with ⟨c, e⟩
  rw [hd] at hso
  simp only at hso
  unfold downloadPieceStep
  simp only [hd]
  cases e with
  | some err => exact Or.inl hso
  | none =>
    simp only
    rw [if_neg hno]
    rcases hr : Peer.ReceiveMessage { s.p with Con := c } with ⟨p, msg, e⟩
    have hfr := Peer.ReceiveMessage_frame _ _ _ _ hr
    have hpo : p.Con.output = s.p.Con.output := by rw [hfr.2.2.2]; exact hso
    cases e with
    | some err =>
      simp only
      exact Or.inl hpo
    | none =>
      cases msg with
      | none =>
        simp only
        split
        · exact Or.inl hpo
        · rename_i q err hsend
          have hsf := Peer.SendMessage_frame _ _ _ _ hsend
          left
          show q.Con.output = s.p.Con.output
          rw [hsf.2.2.2.1 (by simp), hpo]
        · rename_i q hsend
          have hsf := Peer.SendMessage_frame _ _ _ _ hsend
          obtain ⟨bytes, hser, hout⟩ := hsf.2.2.2.2 rfl
          right
          show q.Con.output = s.p.Con.output ++ [0, 0, 0, 0]
          have hb : bytes = [0, 0, 0, 0] := by
            simp only [Message.Serialize, Except.ok.injEq] at hser
            rw [← hser]
            rfl
          rw [hout, hpo, hb]
      | some m =>
        simp only
        split
        · split
          · exact Or.inl hpo
          · exact Or.inl hpo
          · split
            · exact Or.inl hpo
            · exact Or.inl hpo
            · exact Or.inl hpo
        · split
          · exact Or.inl hpo
          · split
            · exact Or.inl hpo
            · exact Or.inl hpo

/-- An iteration that sends a request and goes on: the request is the one built
at the top of the iteration, its frame is appended to the output, and
`requested` and `backlog` grow by one. -/
theorem downloadPieceStep_request (pieceID : Nat) (tmeta : TorrentMetadata) (s t : LoopState)
    (hyes : s.p.Choking = false ∧ s.backlog < maxBacklog ∧
      s.pdInfo.requested < ((u32OfInt tmeta.PieceLength / BlockSize : Nat) : Int))
    (h : downloadPieceStep pieceID tmeta s = .next t) :
    t.backlog = s.backlog + 1 ∧ t.pdInfo.requested = s.pdInfo.requested + 1 ∧
    t.pdInfo.downloaded = s.pdInfo.downloaded ∧ t.p.Choking = false ∧
    ∃ bytes, Message.Serialize (some (requestOf pieceID tmeta s).ToMessage) = .ok bytes ∧
      t.p.Con.output = s.p.Con.output ++ bytes := by
  have hso := Conn.SetDeadline_output s.p.Con
  rcases hd : s.p.Con.SetDeadline with ⟨c, e⟩
  rw [hd] at hso
  simp only at hso
  unfold downloadPieceStep at h
  simp only [hd] at h
  cases e with
  | some err => simp only [reduceCtorEq] at h
  | none =>
    simp only at h
    rw [if_pos hyes] at h
    split at h
    · simp only [reduceCtorEq] at h
    · simp only [reduceCtorEq] at h
    · rename_i q hsend
      have hsf := Peer.SendMessage_frame _ _ _ _ hsend
      obtain ⟨bytes, hser, hout⟩ := hsf.2.2.2.2 rfl
      simp only [StepResult.next.injEq] at h
      subst h
      refine ⟨rfl, rfl, rfl, ?_, bytes, hser, ?_⟩
      · show q.Choking = false
        rw [hsf.1]
        exact hyes.1
      · show q.Con.output = s.p.Con.output ++ bytes
        rw [hout]
        show c.output ++ bytes = _
        rw [hso]

/-- C24 (flow control): an iteration of the loop of `downloadPiece` entered in a
state where the peer is choking, or the backlog is 5 or more, or all requests
are out, writes no Request (it writes nothing, or a keep-alive reply); an
iteration that sends a Request appends its frame and adds one to `requested`
and `backlog`; in every state of the loop the backlog is at most 5 and
`requested` at most `blockCount`; a received Choke sets the choking flag, a
received Unchoke clears it, and a message with another ID than 0, 1 and 7
changes nothing but the input of the connection. -/
theorem C24_flow_control (pieceID : Nat) (tmeta : TorrentMetadata) (s : LoopState) :
    (¬ (s.p.Choking = false ∧ s.backlog < 5 ∧
        s.pdInfo.requested < ((u32OfInt tmeta.PieceLength / BlockSize : Nat) : Int)) →
      (downloadPieceStep pieceID tmeta s).state.p.Con.output = s.p.Con.output ∨
      (downloadPieceStep pieceID tmeta s).state.p.Con.output =
        s.p.Con.output ++ [0, 0, 0, 0]) ∧
    (∀ t, (s.p.Choking = false ∧ s.backlog < 5 ∧
        s.pdInfo.requested < ((u32OfInt tmeta.PieceLength / BlockSize : Nat) : Int)) →
      downloadPieceStep pieceID tmeta s = .next t →
      t.backlog = s.backlog + 1 ∧ t.pdInfo.requested = s.pdInfo.requested + 1 ∧
      t.pdInfo.downloaded = s.pdInfo.downloaded ∧ t.p.Choking = false ∧
      ∃ bytes, Message.Serialize (some (requestOf pieceID tmeta s).ToMessage) = .ok bytes ∧
        t.p.Con.output = s.p.Con.output ++ bytes) ∧
    (∀ (p0 : Peer) (t : LoopState),
      LoopReachable pieceID tmeta
        { p := p0, pdInfo := NewPieceDownloadInfo pieceID (u32OfInt tmeta.PieceLength),
          backlog := 0 } t →
      t.backlog ≤ 5 ∧
      t.pdInfo.requested ≤ ((u32OfInt tmeta.PieceLength / BlockSize : Nat) : Int)) ∧
    (∀ (c : Conn) (p : Peer) (msg : Message),
      s.p.Con.SetDeadline = (c, none) →
      ¬ (s.p.Choking = false ∧ s.backlog < 5 ∧
        s.pdInfo.requested < ((u32OfInt tmeta.PieceLength / BlockSize : Nat) : Int)) →
      Peer.ReceiveMessage { s.p with Con := c } = (p, some msg, none) →
      p.Choking = s.p.Choking ∧ p.Bitfield = s.p.Bitfield ∧ p.Addr = s.p.Addr ∧
      p.Con.output = s.p.Con.output ∧
      (msg.ID = 0 →
        downloadPieceStep pieceID tmeta s = .next { s with p := { p with Choking := true } }) ∧
      (msg.ID = 1 →
        downloadPieceStep pieceID tmeta s = .next { s with p := { p with Choking := false } }) ∧
      (msg.ID ≠ 0 → msg.ID ≠ 1 → msg.ID ≠ 7 →
        downloadPieceStep pieceID tmeta s = .next { s with p := p })) := by
  refine ⟨downloadPieceStep_no_request pieceID tmeta s,
    fun t hyes h => downloadPieceStep_request pieceID tmeta s t hyes h,
    fun p0 t h => ⟨(LoopReachable_counters pieceID tmeta p0 t h).1,
      (LoopReachable_counters pieceID tmeta p0 t h).2.1⟩, ?_⟩
  intro c p msg hd hno hr
  have hso := Conn.SetDeadline_output s.p.Con
  rw [hd] at hso
  have hfr := Peer.ReceiveMessage_frame _ _ _ _ hr
  refine ⟨hfr.1, hfr.2.1, hfr.2.2.1, by rw [hfr.2.2.2]; exact hso, ?_, ?_, ?_⟩
  · intro h0
    rw [downloadPieceStep_other pieceID tmeta s c p msg hd hno hr (by rw [h0]; decide),
      if_pos (show msg.ID = MsgChoke from h0)]
  · intro h1
    rw [downloadPieceStep_other pieceID tmeta s c p msg hd hno hr (by rw [h1]; decide),
      if_neg (show ¬ msg.ID = MsgChoke by rw [h1]; decide),
      if_pos (show msg.ID = MsgUnchoke from h1)]
  · intro h0 h1 h7
    rw [downloadPieceStep_other pieceID tmeta s c p msg hd hno hr h7,
      if_neg (show ¬ msg.ID = MsgChoke from h0), if_neg (show ¬ msg.ID = MsgUnchoke from h1)]

/-- A peer that sends an Unchoke message: the iteration that reads it clears
the choking flag and changes nothing else of the loop state. -/
theorem C24_flow_control_witness :
    downloadPieceStep 0 rogueMeta
        { p := peerSending [0, 0, 0, 1, 1], pdInfo := NewPieceDownloadInfo 0 16384, backlog := 0 } =
      .next { p := { peerSending [] with Choking := false }
              pdInfo := NewPieceDownloadInfo 0 16384
              backlog := 0 } :=
  ((C24_flow_control 0 rogueMeta
      { p := peerSending [0, 0, 0, 1, 1], pdInfo := NewPieceDownloadInfo 0 16384,
        backlog := 0 }).2.2.2
    (Conn.ofInput [0, 0, 0, 1, 1]) (peerSending []) { ID := 1, Payload := [] }
    rfl (by decide) rfl).2.2.2.2.2.1 rfl

end Torrent
